import Mathlib

/-!
# gh-slack: rendering a Slack thread as Markdown

A shallow embedding of `internal/markdown/markdown.go`.

* A Go `string` holding valid UTF-8 is the list of its code points (`Str`).  Every index the
  package computes comes from the regexp engine and delimits whole characters, so slicing by
  character position yields the same substrings as slicing by byte offset.
* A Go result pair `(string, error)` is a pair `Str × Option ε`; `none` is the `nil` error.
* The `UserProvider` may do anything behind its one method (network, cache): it is a function
  of an explicit state `σ`, which every operation threads through.
* The four package-level regular expressions are embedded as the function the engine computes
  for them at one search position; `FindAllStringIndex` and `ReplaceAllString` are the
  leftmost, non-overlapping scans of the `regexp` package.
-/

namespace GhSlack

/-- A Go string of valid UTF-8, as its sequence of code points. -/
abbrev Str := List Char

/-- The error values the package can return: the `fmt.Errorf` of `parseUnixTimestamp`, the
`*strconv.NumError` of `strconv.ParseInt` (its function name, its input and whether the cause is
`ErrSyntax` or `ErrRange`), and any error value `e` a `UserProvider` hands back. -/
inductive GoError (ε : Type) where
  | errorf (msg : Str)
  | numError (fn : Str) (num : Str) (outOfRange : Bool)
  | upstream (e : ε)
  deriving DecidableEq, Repr

/-- The interface `UserProvider`: its single method `UsernameForID(string) (string, error)`,
as a function of the identifier and of the provider's state before the call, giving the
returned pair and the provider's state after the call. -/
abbrev UserProvider (σ ε : Type) := Str → σ → (Str × Option (GoError ε)) × σ

/-! ## The `regexp` engine, as far as the package uses it -/

/-- A compiled pattern, as what the engine computes at one search position: from the character
just before the position (`none` at the start of the text) and the text from the position on, the
leftmost-first match that starts exactly there, as its length in characters and its capture
groups `$1`, `$2`, ... .  None of the package's patterns matches the empty string. -/
abbrev Regexp := Option Char → Str → Option (Nat × List Str)

/-- The scan of `(*Regexp).FindAllStringIndex(s, -1)`: search positions run left to right; a
match at a position is reported as `(start, end)` and the search resumes at its end.  `skip`
counts the characters of the last match still to step over, `pos` is the current position. -/
def findAllFrom (re : Regexp) : Nat → Nat → Option Char → Str → List (Nat × Nat)
  | _, _, _, [] => []
  | pos, skip + 1, _, c :: t => findAllFrom re (pos + 1) skip (some c) t
  | pos, 0, prev, c :: t =>
    match re prev (c :: t) with
    | some (n, _) => (pos, pos + n) :: findAllFrom re (pos + 1) (n - 1) (some c) t
    | none => findAllFrom re (pos + 1) 0 (some c) t

/-- Go `(*Regexp).FindAllStringIndex(s, -1)`. -/
def FindAllStringIndex (re : Regexp) (s : Str) : List (Nat × Nat) :=
  findAllFrom re 0 0 none s

/-- Characters that may form a group name in a replacement template: letters, digits, `_`
(the templates of the package are ASCII). -/
def isWordChar (c : Char) : Bool :=
  c.isAlphanum || c == '_'

/-- The group a template name refers to (`regexp.extract`): a name made of at most nine digits,
without a leading zero unless it is `0` itself, is a group number; the package's patterns have
no named groups, so any other name refers to nothing. -/
def groupIndex (name : Str) : Option Nat :=
  if name.all Char.isDigit && name.length ≤ 9 &&
      !(decide (1 < name.length) && name.head? == some '0') then
    some (name.foldl (fun n c => 10 * n + (c.toNat - 48)) 0)
  else none

/-- Text a template variable expands to: the numbered group, or nothing when there is no such
group. -/
def groupText (groups : List Str) (name : Str) : Str :=
  match groupIndex name with
  | some i => groups.getD i []
  | none => []

/-- Go `(*Regexp).expand` for templates without braces: `$name` takes the longest run of word
characters as the name, `$$` is a dollar sign, a `$` followed by neither is copied as it is.
`pending` holds the name being read, if the scan is inside a variable. -/
def expandFrom (groups : List Str) : Option Str → Str → Str
  | none, [] => []
  | some [], [] => ['$']
  | some name, [] => groupText groups name
  | none, c :: t => if c = '$' then expandFrom groups (some []) t else c :: expandFrom groups none t
  | some name, c :: t =>
    if isWordChar c then expandFrom groups (some (name ++ [c])) t
    else
      match name with
      | [] => if c = '$' then '$' :: expandFrom groups none t
              else '$' :: c :: expandFrom groups none t
      | _ :: _ =>
        groupText groups name ++
          (if c = '$' then expandFrom groups (some []) t else c :: expandFrom groups none t)

/-- Expansion of a replacement template against the groups of one match (`groups[0]` is the
whole match). -/
def expand (template : Str) (groups : List Str) : Str :=
  expandFrom groups none template

/-- The scan of `(*Regexp).ReplaceAllString(src, template)`: text outside matches is copied, each
match (leftmost first, then resuming at its end) is replaced by the expanded template. -/
def replaceAllFrom (re : Regexp) (template : Str) : Nat → Option Char → Str → Str
  | _, _, [] => []
  | skip + 1, _, c :: t => replaceAllFrom re template skip (some c) t
  | 0, prev, c :: t =>
    match re prev (c :: t) with
    | some (n, caps) =>
      expand template ((c :: t).take n :: caps) ++ replaceAllFrom re template (n - 1) (some c) t
    | none => c :: replaceAllFrom re template 0 (some c) t

/-- Go `(*Regexp).ReplaceAllString(src, template)`. -/
def ReplaceAllString (re : Regexp) (src template : Str) : Str :=
  replaceAllFrom re template 0 none src

/-! ## The package's patterns -/

/-- The character class `[A-Z0-9]`. -/
def isUpperOrDigit (c : Char) : Bool :=
  ('A' ≤ c && c ≤ 'Z') || ('0' ≤ c && c ≤ '9')

/-- The pattern `<@[A-Z0-9]+>`.  The class contains neither `>` nor `<`, so the greedy run of
class characters is the only candidate: a shorter run is followed by a class character, never
by `>`. -/
def userRE : Regexp := fun _ s =>
  match s with
  | '<' :: '@' :: t =>
    match t.takeWhile isUpperOrDigit, t.dropWhile isUpperOrDigit with
    | c :: id, '>' :: _ => some ((c :: id).length + 3, [])
    | _, _ => none
  | _ => none

/-- The character class `[^|>]` (a negated class also matches a newline). -/
def notBarGt (c : Char) : Bool :=
  c != '|' && c != '>'

/-- The character class `[^>]`. -/
def notGt (c : Char) : Bool :=
  c != '>'

/-- The tail of the pattern of `linkRE` after the scheme: `[^|>]+` then `\|` then `[^>]+` then
`>`, on the text `t` that follows `scheme`.  Both runs are greedy and each is followed by a
character outside its class, so the longest run is the only candidate. -/
def linkTail (scheme t : Str) : Option (Nat × List Str) :=
  match t.takeWhile notBarGt, t.dropWhile notBarGt with
  | c :: host, '|' :: t2 =>
    match t2.takeWhile notGt, t2.dropWhile notGt with
    | d :: label, '>' :: _ =>
      let url := scheme ++ c :: host
      some (url.length + (d :: label).length + 3, [url, d :: label])
    | _, _ => none
  | _, _ => none

/-- The pattern `<(https?://[^|>]+)\|([^>]+)>`.  After `<http` the optional `s` is tried first;
without it the next character would have to be `:`, so the scheme part matches exactly when
the text begins with `<https://` or with `<http://`, and in one way only. -/
def linkRE : Regexp := fun _ s =>
  if "<https://".toList.isPrefixOf s then linkTail "https://".toList (s.drop 9)
  else if "<http://".toList.isPrefixOf s then linkTail "http://".toList (s.drop 8)
  else none

/-- Three backticks, the code-fence marker. -/
def fence : Str := "```".toList

/-- Whether a search position is at the start of a line: the condition of `^` under the flag
`(?m)`. -/
def atLineStart (prev : Option Char) : Bool :=
  match prev with
  | none => true
  | some c => c == '\n'

/-- Whether a search position is at the end of a line: the condition of `$` under the flag
`(?m)`, on the text from the position on. -/
def atLineEnd (rest : Str) : Bool :=
  match rest with
  | [] => true
  | c :: _ => c == '\n'

/-- The pattern ``(?m)^` + "```"``: three backticks at the start of a line. -/
def openCodefence : Regexp := fun prev s =>
  if atLineStart prev && fence.isPrefixOf s then some (3, []) else none

/-- The pattern ``(?m)(.)` + "```" + `$``: one character other than a newline, then three
backticks, then the end of a line. -/
def closeCodefence : Regexp := fun _ s =>
  match s with
  | c :: t =>
    if c != '\n' && fence.isPrefixOf t && atLineEnd (t.drop 3) then some (4, [[c]]) else none
  | [] => none

/-! ## `interpolateUsers` -/

/-- Go `s[i:j]`, for `i ≤ j ≤ len(s)`. -/
def slice (s : Str) (i j : Nat) : Str :=
  (s.take j).drop i

/-- The loop of `interpolateUsers` over `userLocations`, with `last` and the builder `out`. -/
def interpolateLoop {σ ε : Type} (client : UserProvider σ ε) (s : Str) :
    List (Nat × Nat) → Nat → Str → σ → (Str × Option (GoError ε)) × σ
  | [], last, out, st => ((out ++ s.drop last, none), st)
  | (start, stop) :: locs, last, out, st =>
    match client (slice s (start + 2) (stop - 1)) st with
    | ((_, some err), st1) => (([], some err), st1)
    | ((username, none), st1) =>
      interpolateLoop client s locs stop
        (out ++ slice s last start ++ "`@".toList ++ username ++ "`".toList) st1

/-- Go `interpolateUsers(client, s)`. -/
def interpolateUsers {σ ε : Type} (client : UserProvider σ ε) (s : Str) (st : σ) :
    (Str × Option (GoError ε)) × σ :=
  interpolateLoop client s (FindAllStringIndex userRE s) 0 [] st

/-! ## `parseUnixTimestamp` -/

/-- Go `strings.Split(s, sep)` for a separator `sep` of one character: the pieces of `s`
between the occurrences of the separator, one more than there are occurrences. -/
def Split (s : Str) (sep : Char) : List Str :=
  match s with
  | [] => [[]]
  | c :: t =>
    if c = sep then [] :: Split t sep
    else
      match Split t sep with
      | h :: r => (c :: h) :: r
      | [] => [[c]]

/-- The largest `uint64`. -/
def maxUint64 : Nat := 2 ^ 64 - 1

/-- The digit loop of `strconv.ParseUint(s, 10, 64)` with the value `n` read so far: the value
and `none`, or `some false` at a character that is not a decimal digit (`ErrSyntax`), or the
largest value and `some true` when the next digit overflows (`ErrRange`). -/
def parseUintLoop : Nat → Str → Nat × Option Bool
  | n, [] => (n, none)
  | n, c :: t =>
    if c.isDigit then
      if n ≥ maxUint64 / 10 + 1 then (maxUint64, some true)
      else if n * 10 + (c.toNat - 48) > maxUint64 then (maxUint64, some true)
      else parseUintLoop (n * 10 + (c.toNat - 48)) t
    else (0, some false)

/-- Go `strconv.ParseUint(s, 10, 64)`. -/
def ParseUint (s : Str) : Nat × Option Bool :=
  match s with
  | [] => (0, some false)
  | _ :: _ => parseUintLoop 0 s

/-- Go `strconv.ParseInt(s, 10, 64)`: an optional sign, then `ParseUint`, then the range check
of a signed 64-bit integer. -/
def ParseInt {ε : Type} (s : Str) : Int × Option (GoError ε) :=
  match s with
  | [] => (0, some (.numError "ParseInt".toList s false))
  | c :: t =>
    let neg := c == '-'
    match ParseUint (if c = '+' ∨ c = '-' then t else s) with
    | (_, some false) => (0, some (.numError "ParseInt".toList s false))
    | (un, _) =>
      if !neg && un ≥ 2 ^ 63 then (2 ^ 63 - 1, some (.numError "ParseInt".toList s true))
      else if neg && un > 2 ^ 63 then (-(2 ^ 63), some (.numError "ParseInt".toList s true))
      else (if neg then -(un : Int) else (un : Int), none)

/-- Reduction of an integer to the range of `int64`, as Go arithmetic wraps around. -/
def wrap64 (x : Int) : Int :=
  (x + 2 ^ 63) % 2 ^ 64 - 2 ^ 63

/-- A `time.Time` without monotonic reading: `ext` is the `int64` count of seconds since
January 1, year 1, `nsec` the nanoseconds within the second. -/
structure Time where
  ext : Int
  nsec : Int
  deriving DecidableEq, Repr

/-- The zero `time.Time`, the value a map of times yields for an absent key. -/
def Time.zero : Time := ⟨0, 0⟩

/-- Go `time.Unix(sec, nsec)`: a nanosecond count outside `[0, 999999999]` is carried into
the seconds; `62135596800` is `unixToInternal`. -/
def Unix (sec nsec : Int) : Time :=
  if nsec < 0 ∨ nsec ≥ 1000000000 then
    let n := Int.tdiv nsec 1000000000
    let sec1 := wrap64 (sec + n)
    let nsec1 := nsec - n * 1000000000
    if nsec1 < 0 then ⟨wrap64 (wrap64 (sec1 - 1) + 62135596800), nsec1 + 1000000000⟩
    else ⟨wrap64 (sec1 + 62135596800), nsec1⟩
  else ⟨wrap64 (sec + 62135596800), nsec⟩

/-- Go `t.Before(u)` for times without monotonic reading. -/
def Time.Before (t u : Time) : Bool :=
  decide (t.ext < u.ext) || (decide (t.ext = u.ext) && decide (t.nsec < u.nsec))

/-- Go `parseUnixTimestamp(s)`: the pair of the `*time.Time` (`none` is `nil`) and the error. -/
def parseUnixTimestamp {ε : Type} (s : Str) : Option Time × Option (GoError ε) :=
  let tsParts := Split s '.'
  if tsParts.length ≠ 2 then
    (none, some (.errorf ("timestamp \x27".toList ++ s ++
      "\x27 in not in <seconds>.<milliseconds> format".toList)))
  else
    match ParseInt (tsParts.getD 0 []) with
    | (_, some err) => (none, some err)
    | (seconds, none) =>
      match ParseInt (tsParts.getD 1 []) with
      | (_, some err) => (none, some err)
      | (nanos, none) => (some (Unix seconds nanos), none)

/-! ## `convert` -/

/-- The loop of `convert` over the lines: `fmt.Fprintf(b, "> %s\n", line)`. -/
def quoteLines (b : Str) : List Str → Str
  | [] => b
  | line :: lines => quoteLines (b ++ "> ".toList ++ line ++ "\n".toList) lines

/-- Go `convert(client, b, s)`: the contents of the builder `b` after the call, and the error. -/
def convert {σ ε : Type} (client : UserProvider σ ε) (b : Str) (s : Str) (st : σ) :
    (Str × Option (GoError ε)) × σ :=
  match interpolateUsers client s st with
  | ((_, some err), st1) => ((b, some err), st1)
  | ((text, none), st1) =>
    let text1 := ReplaceAllString linkRE text "[$2]($1)".toList
    let text2 := ReplaceAllString openCodefence text1 "```\n".toList
    let text3 := ReplaceAllString closeCodefence text2 "$1\n```".toList
    ((quoteLines b (Split text3 '\n'), none), st1)

/-! ## `FromMessages` -/

/-- Modelled from the spec: the type `slackclient.Attachment`, declared outside this package;
the package reads its `Text` only. -/
structure Attachment where
  Text : Str
  deriving DecidableEq, Repr

/-- Modelled from the spec: the type `slackclient.Message`, declared outside this package; the
package reads these five fields only. -/
structure Message where
  Ts : Str
  User : Str
  BotID : Str
  Text : Str
  Attachments : List Attachment
  deriving DecidableEq, Repr

/-- How a call ends: it returns, or the Go runtime panics (an index out of range, a `nil`
dereference). -/
inductive Outcome (α : Type) where
  | returned (a : α)
  | panicked
  deriving Repr

/-- What a returning call of `FromMessages` leaves behind: the returned pair, the contents of
`history.Messages` (the slice the function sorts in place) and the provider's state. -/
structure Returned (σ ε : Type) where
  doc : Str
  err : Option (GoError ε)
  messages : List Message
  st : σ

/-- Go `formatUserProfile(username)`. -/
def formatUserProfile (username : Str) : Str :=
  "[<img src=\"https://github.com/".toList ++ username ++
    ".png?size=25\" align=\"left\" /> **".toList ++ username ++
    "**](https://github.com/".toList ++ username ++ ")".toList

/-- Go `formatLinkToMessage(team, channelID, firstMessage, threadMessage)`. -/
def formatLinkToMessage (team channelID : Str) (firstMessage threadMessage : Message) : Str :=
  "https://".toList ++ team ++ ".slack.com/archives/".toList ++ channelID ++ "/p".toList ++
    firstMessage.Ts ++ "?thread_ts=".toList ++ threadMessage.Ts ++ "&cid=".toList ++ channelID

/-- Go `WrapInDetails(channelName, link, s)`. -/
def WrapInDetails (channelName link s : Str) : Str :=
  "Slack conversation archive of [`#".toList ++ channelName ++ "`](".toList ++ link ++
    ")\n\n<details>\n  <summary>Click to expand</summary>\n\n".toList ++ s ++
    "\n</details>".toList

/-- The first loop of `FromMessages`: it fills the map `msgTimes` (a map read by indexing only,
so a function that is the zero time off its keys) and stops at the first identifier that does
not parse. -/
def timesLoop {ε : Type} : List Message → (Str → Time) →
    Outcome ((Str → Time) × Option (GoError ε))
  | [], msgTimes => .returned (msgTimes, none)
  | message :: rest, msgTimes =>
    match parseUnixTimestamp message.Ts with
    | (_, some err) => .returned (msgTimes, some err)
    | (some tm, none) => timesLoop rest (Function.update msgTimes message.Ts tm)
    | (none, none) => .panicked

/-- The loop of `FromMessages` over `message.Attachments`. -/
def attachmentsLoop {σ ε : Type} (client : UserProvider σ ε) :
    List Attachment → Str → σ → (Str × Option (GoError ε)) × σ
  | [], b, st => ((b, none), st)
  | a :: rest, b, st =>
    match convert client b a.Text st with
    | ((_, some err), st1) => (([], some err), st1)
    | ((b1, none), st1) => attachmentsLoop client rest b1 st1

/-- The author part of the loop body of `FromMessages`: `username` and `err`. -/
def authorOf {σ ε : Type} (client : UserProvider σ ε) (message : Message) (st : σ) :
    (Str × Option (GoError ε)) × σ :=
  if message.User ≠ [] then client message.User st
  else if message.BotID ≠ [] then (("bot ".toList ++ message.BotID, none), st)
  else (("ghost".toList, none), st)

/-- The second loop of `FromMessages`, over the sorted messages, with the builder `b`.
`layout` stands for `Time.Format("2006-01-02 15:04")`, which depends on the local time zone of
the process. -/
def messagesLoop {σ ε : Type} (layout : Time → Str) (team channelID : Str)
    (client : UserProvider σ ε) (msgTimes : Str → Time) (firstMessage : Message) :
    List Message → Str → σ → (Str × Option (GoError ε)) × σ
  | [], b, st => ((b, none), st)
  | message :: rest, b, st =>
    match authorOf client message st with
    | ((_, some err), st1) => (([], some err), st1)
    | ((username, none), st1) =>
      let b1 := b ++ "> ".toList ++ formatUserProfile username ++ " at [".toList ++
        layout (msgTimes message.Ts) ++ "](".toList ++
        formatLinkToMessage team channelID firstMessage message ++ ")\n>\n".toList
      match (if message.Text ≠ [] then convert client b1 message.Text st1
             else ((b1, none), st1)) with
      | ((_, some err), st2) => (([], some err), st2)
      | ((b2, none), st2) =>
        match attachmentsLoop client message.Attachments b2 st2 with
        | ((_, some err), st3) => (([], some err), st3)
        | ((b3, none), st3) =>
          messagesLoop layout team channelID client msgTimes firstMessage rest
            (b3 ++ "\n".toList) st3

/-- Go `FromMessages(team, channelID, client, history)`.  `sortSlice less xs` stands for the
library call `sort.Slice(messages, less)`, whose algorithm varies between Go releases; `less`
is given on elements where Go gives it on indices. -/
def FromMessages {σ ε : Type}
    (sortSlice : (Message → Message → Bool) → List Message → List Message)
    (layout : Time → Str) (team channelID : Str) (client : UserProvider σ ε)
    (history : List Message) (st : σ) : Outcome (Returned σ ε) :=
  match timesLoop history (fun _ => Time.zero) with
  | .panicked => .panicked
  | .returned (_, some err) => .returned ⟨[], some err, history, st⟩
  | .returned (msgTimes, none) =>
    let messages := sortSlice (fun a b => (msgTimes a.Ts).Before (msgTimes b.Ts)) history
    match messages with
    | [] => .panicked
    | firstMessage :: _ =>
      match messagesLoop layout team channelID client msgTimes firstMessage messages [] st with
      | ((_, some err), st1) => .returned ⟨[], some err, messages, st1⟩
      | ((b, none), st1) => .returned ⟨b, none, messages, st1⟩

/-- The insertion of `insertionSortLessFunc`: the element `x` moves left past every element it
is less than; `rev` is the sorted part before it, last element first. -/
def insertLeft {α : Type} (less : α → α → Bool) (x : α) : List α → List α
  | [] => [x]
  | y :: rev => if less x y then y :: insertLeft less x rev else x :: y :: rev

/-- Go `insertionSortLessFunc`, the sort `sort.Slice` performs on a short slice: each element
in turn is inserted into the sorted part before it. -/
def insertionSortLess {α : Type} (less : α → α → Bool) (xs : List α) : List α :=
  (xs.foldl (fun rev x => insertLeft less x rev) []).reverse

/-! ## Specification vocabulary

Definitions the properties below are stated with. -/

/-- The character before the position reached after stepping over `w`. -/
def lastOr (prev : Option Char) : Str → Option Char
  | [] => prev
  | c :: w => lastOr (some c) w

/-- A mention token: `<@`, one or more characters of `[A-Z0-9]`, then `>`. -/
def IsMention (w : Str) : Prop :=
  ∃ id : Str, id ≠ [] ∧ (∀ c ∈ id, isUpperOrDigit c = true) ∧ w = "<@".toList ++ id ++ ">".toList

/-- The text contains a mention token. -/
def HasMention (s : Str) : Prop :=
  ∃ a w b, IsMention w ∧ s = a ++ w ++ b

/-- The text after one mention token up to the next: the identifier of the token, the name the
provider gives for it, and the mention-free text that follows the token. -/
structure Piece where
  id : Str
  name : Str
  text : Str

/-- The text made of the pieces: each token followed by its text. -/
def Piece.source (ps : List Piece) : Str :=
  ps.flatMap (fun x => "<@".toList ++ x.id ++ ">".toList ++ x.text)

/-- The pieces with each token replaced by the quoted name. -/
def Piece.rendered (ps : List Piece) : Str :=
  ps.flatMap (fun x => "`@".toList ++ x.name ++ "`".toList ++ x.text)

/-- Every identifier is a non-empty run of `[A-Z0-9]` and no text between tokens holds a token. -/
def Piece.WellFormed (ps : List Piece) : Prop :=
  ∀ x ∈ ps, x.id ≠ [] ∧ (∀ c ∈ x.id, isUpperOrDigit c = true) ∧ ¬ HasMention x.text

/-- The provider, started in `st`, answers the identifiers of the pieces in order with their
names and without error, and ends in `st1`. -/
def Resolves {σ ε : Type} (client : UserProvider σ ε) : σ → List Piece → σ → Prop
  | st, [], st1 => st1 = st
  | st, x :: ps, st1 => ∃ st2, client x.id st = ((x.name, none), st2) ∧ Resolves client st2 ps st1

/-- The loop of `interpolateUsers` told over the pieces of the text instead of over index
pairs. -/
def renderPieces {σ ε : Type} (client : UserProvider σ ε) :
    List Piece → Str → σ → (Str × Option (GoError ε)) × σ
  | [], out, st => ((out, none), st)
  | x :: ps, out, st =>
    match client x.id st with
    | ((_, some err), st1) => (([], some err), st1)
    | ((username, none), st1) =>
      renderPieces client ps (out ++ "`@".toList ++ username ++ "`".toList ++ x.text) st1

/-- The index pairs of the tokens of the pieces, the first token starting at `pos`. -/
def tokenLocs : Nat → List Piece → List (Nat × Nat)
  | _, [] => []
  | pos, x :: ps => (pos, pos + (x.id.length + 3)) :: tokenLocs (pos + (x.id.length + 3) + x.text.length) ps

/-- Whether a mention token starts at some position of the text. -/
def hasMention (s : Str) : Bool :=
  s.tails.any (fun t => (userRE none t).isSome)

/-- The provider `client` with a record of its calls: the state also holds, oldest call first,
each identifier asked for together with the error returned for it. -/
def recording {σ ε : Type} (client : UserProvider σ ε) :
    UserProvider (σ × List (Str × Option (GoError ε))) ε :=
  fun id st => ((client id st.1).1, ((client id st.1).2, st.2 ++ [(id, (client id st.1).1.2)]))

/-- A provider without state that knows the names of a table and fails on every other
identifier. -/
def tableProvider (table : List (Str × Str)) : UserProvider Unit Unit :=
  fun id st =>
    match table.lookup id with
    | some name => ((name, none), st)
    | none => (([], some (.upstream ())), st)

/-- The URL part of a Slack link: `http://` or `https://`, then one or more characters none
of which is a bar or a closing angle. -/
def IsLinkURL (url : Str) : Prop :=
  ∃ host : Str, host ≠ [] ∧ (∀ c ∈ host, c ≠ '|' ∧ c ≠ '>') ∧
    (url = "http://".toList ++ host ∨ url = "https://".toList ++ host)

/-- The label part of a Slack link: one or more characters none of which is a closing angle. -/
def IsLinkLabel (label : Str) : Prop :=
  label ≠ [] ∧ ∀ c ∈ label, c ≠ '>'

/-- The text begins with a link token `<URL|LABEL>`. -/
def StartsWithLink (t : Str) : Prop :=
  ∃ url label r, IsLinkURL url ∧ IsLinkLabel label ∧
    t = "<".toList ++ url ++ "|".toList ++ label ++ ">".toList ++ r

/-- The link rewriting as the specification words it: going through the text from the left, a
link token that starts at the current position is replaced by `[LABEL](URL)` and the scan
goes on after the token; a character at which no token starts is copied. -/
inductive LinksRewritten : Str → Str → Prop
  | done : LinksRewritten [] []
  | copy (c : Char) (t out : Str) : ¬ StartsWithLink (c :: t) → LinksRewritten t out →
      LinksRewritten (c :: t) (c :: out)
  | link (url label t out : Str) : IsLinkURL url → IsLinkLabel label → LinksRewritten t out →
      LinksRewritten ("<".toList ++ url ++ "|".toList ++ label ++ ">".toList ++ t)
        ("[".toList ++ label ++ "](".toList ++ url ++ ")".toList ++ out)

/-- Go `strings.Join(parts, sep)` for a separator of one character. -/
def Join : List Str → Char → Str
  | [], _ => []
  | [l], _ => l
  | l :: l2 :: ls, sep => l ++ sep :: Join (l2 :: ls) sep

/-- What the open-fence pass makes of one line: a line that begins with three backticks gets a
newline right after them, any other line stays as it is. -/
def openLine (l : Str) : Str :=
  if fence.isPrefixOf l then fence ++ '\n' :: l.drop 3 else l

/-- What the close-fence pass makes of one line: a line that ends with three backticks and has
something before them gets a newline right before them, any other line stays as it is. -/
def closeLine (l : Str) : Str :=
  if fence.isSuffixOf l && l != fence then l.take (l.length - 3) ++ '\n' :: fence else l

/-- Six backticks in a row. -/
def sixTicks : Str := fence ++ fence

/-- What `FromMessages` relies on from `sort.Slice`: the result is a rearrangement of the
slice, and, when `less` is a strict weak ordering, no element of the result is less than an
element before it. -/
structure SortsSlice (sortSlice : (Message → Message → Bool) → List Message → List Message) :
    Prop where
  perm : ∀ less xs, (sortSlice less xs).Perm xs
  sorted : ∀ less xs, (∀ a b, less a b = true → less b a = false) →
    (∀ a b c, less a b = false → less b c = false → less a c = false) →
    (sortSlice less xs).Pairwise (fun a b => less b a = false)

/-- The provider answers every identifier without error, with the name `names` gives it; its
state may change with every call. -/
def Answers {σ ε : Type} (client : UserProvider σ ε) (names : Str → Str) : Prop :=
  ∀ id st, (client id st).1 = (names id, none)

/-- The provider without state that answers with `names`. -/
def namesProvider (names : Str → Str) : UserProvider Unit Unit :=
  fun id st => ((names id, none), st)

/-- The provider's state after it was asked for the identifiers `ids` in turn. -/
def afterCalls {σ ε : Type} (client : UserProvider σ ε) (ids : List Str) (st : σ) : σ :=
  ids.foldl (fun st id => (client id st).2) st

/-- The identifiers of the mention tokens of a text, in the order of the text. -/
def mentionIDs (s : Str) : List Str :=
  (FindAllStringIndex userRE s).map (fun loc => slice s (loc.1 + 2) (loc.2 - 1))

/-- The lines `convert` appends for the text `s` when the provider answers with `names`. -/
def quoted (names : Str → Str) (s : Str) : Str :=
  (convert (namesProvider names) [] s ()).1.1

/-- The author name of a message when the provider answers with `names`. -/
def authorName (names : Str → Str) (message : Message) : Str :=
  if message.User ≠ [] then names message.User
  else if message.BotID ≠ [] then "bot ".toList ++ message.BotID
  else "ghost".toList

/-- The lines `FromMessages` appends after the header of a message: its text, unless empty,
then the text of each attachment. -/
def bodyOf (names : Str → Str) (message : Message) : Str :=
  (if message.Text ≠ [] then quoted names message.Text else []) ++
    message.Attachments.flatMap (fun a => quoted names a.Text)

/-- The identifiers the provider is asked for while a message is rendered: the author's, unless
empty, then those of the mentions of the text and of each attachment. -/
def callsFor (message : Message) : List Str :=
  (if message.User ≠ [] then [message.User] else []) ++
    ((if message.Text ≠ [] then mentionIDs message.Text else []) ++
      message.Attachments.flatMap (fun a => mentionIDs a.Text))

/-- The block of one message in the document: the header line, the line `>`, the body and an
empty line. -/
def blockOf (layout : Time → Str) (team channelID : Str) (names : Str → Str)
    (msgTimes : Str → Time) (firstMessage message : Message) : Str :=
  "> ".toList ++ formatUserProfile (authorName names message) ++ " at [".toList ++
    layout (msgTimes message.Ts) ++ "](".toList ++
    formatLinkToMessage team channelID firstMessage message ++ ")\n>\n".toList ++
    bodyOf names message ++ "\n".toList

/-- How `FromMessages` ends once both loops are told apart. -/
def finish {σ ε : Type} (messages : List Message) (r : (Str × Option (GoError ε)) × σ) :
    Outcome (Returned σ ε) :=
  match r with
  | ((_, some err), st1) => .returned ⟨[], some err, messages, st1⟩
  | ((b, none), st1) => .returned ⟨b, none, messages, st1⟩

/-- The instants a thread's identifiers stand for, as `parseUnixTimestamp` reads them (the
zero time for an identifier it rejects). -/
def instantOf (ts : Str) : Time :=
  ((parseUnixTimestamp (ε := Unit) ts).1).getD Time.zero

/-- The two messages of the specification's example, in the order of the input: the later
one, by `U1`, first. -/
def exampleThread : List Message :=
  [⟨"2.0".toList, "U1".toList, [], "hello <@U2>".toList, []⟩,
    ⟨"1.0".toList, [], "B1".toList, [], []⟩]

/-- The names of the specification's example: `U1` is `alice`, everyone else `bob`. -/
def exampleNames (id : Str) : Str :=
  if id = "U1".toList then "alice".toList else "bob".toList

/-- The provider returns no error, whatever it is asked and in whatever state. -/
def NeverFails {σ ε : Type} (client : UserProvider σ ε) : Prop :=
  ∀ id st, (client id st).1.2 = none

/-- The body step and the attachment loop of one iteration of `FromMessages`, started on the
builder `b`. -/
def bodyRun {σ ε : Type} (client : UserProvider σ ε) (message : Message) (b : Str) (st : σ) :
    (Str × Option (GoError ε)) × σ :=
  match (if message.Text ≠ [] then convert client b message.Text st else ((b, none), st)) with
  | ((_, some err), st2) => (([], some err), st2)
  | ((b2, none), st2) => attachmentsLoop client message.Attachments b2 st2

/-- What a never-failing provider makes of the messages, one after the other from the state
`st`: for each message the author name and the body lines. -/
def partsOf {σ ε : Type} (client : UserProvider σ ε) : List Message → σ → List (Str × Str)
  | [], _ => []
  | message :: rest, st =>
    ((authorOf client message st).1.1,
      (bodyRun client message [] (authorOf client message st).2).1.1) ::
      partsOf client rest (bodyRun client message [] (authorOf client message st).2).2

/-- The provider's state after the messages were rendered. -/
def stateAfter {σ ε : Type} (client : UserProvider σ ε) : List Message → σ → σ
  | [], st => st
  | message :: rest, st =>
    stateAfter client rest (bodyRun client message [] (authorOf client message st).2).2

/-- The calls `new` of a run that ended with `err`: without error every call succeeded; with
the error `e` the last call failed with `e` and every call before it succeeded. -/
def FailFast {ε : Type} (err : Option (GoError ε)) (new : List (Str × Option (GoError ε))) :
    Prop :=
  match err with
  | none => ∀ x ∈ new, x.2 = none
  | some e => ∃ init id, new = init ++ [(id, some e)] ∧ ∀ x ∈ init, x.2 = none

/-- What a step of the document assembly does to the record of calls: it appends calls that
are fail-fast for the step's error. -/
def Extends {σ ε : Type} (log : List (Str × Option (GoError ε)))
    (r : (Str × Option (GoError ε)) × (σ × List (Str × Option (GoError ε)))) : Prop :=
  ∃ new, r.2.2 = log ++ new ∧ FailFast r.1.2 new

/-- What a recorded run says about the run of the provider itself: the result and the
provider's own state. -/
def unrecorded {σ ε : Type}
    (r : (Str × Option (GoError ε)) × (σ × List (Str × Option (GoError ε)))) :
    (Str × Option (GoError ε)) × σ :=
  (r.1, r.2.1)

/-- The example thread with a third message that has neither user-id nor bot-id. -/
def authorsThread : List Message :=
  exampleThread ++ [⟨"3.0".toList, [], [], [], []⟩]

/-- The value of a run of decimal digits read after the value `n`. -/
def valueFrom (n : Nat) (digits : Str) : Nat :=
  digits.foldl (fun n c => n * 10 + (c.toNat - 48)) n

/-- The value of a run of decimal digits. -/
def decimalValue (digits : Str) : Nat :=
  valueFrom 0 digits

/-- The part of a numeral after its sign, if it has one. -/
def digitsOf (p : Str) : Str :=
  match p with
  | [] => []
  | c :: t => if c = '+' ∨ c = '-' then t else c :: t

/-- A base-10 integer that fits a signed 64-bit integer: an optional sign `+` or `-`, then one
or more decimal digits, with a value from `-2^63` to `2^63 - 1`. -/
def IsInt64Numeral (p : Str) : Prop :=
  digitsOf p ≠ [] ∧ (∀ c ∈ digitsOf p, c.isDigit = true) ∧
    (if p.head? = some '-' then decimalValue (digitsOf p) ≤ 2 ^ 63
     else decimalValue (digitsOf p) < 2 ^ 63)

/-- The integer a numeral stands for. -/
def numeralValue (p : Str) : Int :=
  if p.head? = some '-' then -(decimalValue (digitsOf p) : Int) else (decimalValue (digitsOf p) : Int)

/-- The nanoseconds from the Unix epoch to the instant, as an integer without bound. -/
def Time.unixNano (t : Time) : Int :=
  (t.ext - 62135596800) * 1000000000 + t.nsec

/-- The provider answers each of the identifiers `ids` without error, in whatever state, with
the name `names` gives it; on other identifiers it may fail. -/
def AnswersOn {σ ε : Type} (client : UserProvider σ ε) (names : Str → Str) (ids : List Str) :
    Prop :=
  ∀ id ∈ ids, ∀ st, (client id st).1 = (names id, none)

/-- The provider of the specification's example: it knows `U1` as `alice` and `U2` as `bob`,
and fails on every other identifier. -/
def exampleProvider : UserProvider Unit Unit :=
  tableProvider [("U1".toList, "alice".toList), ("U2".toList, "bob".toList)]

/-- The example thread followed by a message without text that has two attachments, the second
one empty. -/
def attachmentsThread : List Message :=
  exampleThread ++
    [⟨"3.0".toList, "U2".toList, [], [], [⟨"see <@U1>".toList⟩, ⟨[]⟩]⟩]

/-- The message of the example written by the bot `B1`, the earlier of the two. -/
def botMessage : Message :=
  ⟨"1.0".toList, [], "B1".toList, [], []⟩

/-- The message of the example written by `U1`, the later of the two. -/
def aliceMessage : Message :=
  ⟨"2.0".toList, "U1".toList, [], "hello <@U2>".toList, []⟩

/-- A sort that reverses its slice, to tell whether the sort step was reached. -/
def reversingSort (_ : Message → Message → Bool) (xs : List Message) : List Message :=
  xs.reverse

/-! ## Properties -/

/-! ## Scanning lemmas -/

theorem findAllFrom_skip (re : Regexp) (w r : Str) (pos : Nat) (prev : Option Char) :
    findAllFrom re pos w.length prev (w ++ r) =
      findAllFrom re (pos + w.length) 0 (lastOr prev w) r := by
  induction w generalizing pos prev with
  | nil => simp [lastOr]
  | cons c w ih =>
    simp only [List.length_cons, List.cons_append, lastOr]
    rw [findAllFrom, ih]
    congr 1
    omega

theorem replaceAllFrom_skip (re : Regexp) (tpl w r : Str) (prev : Option Char) :
    replaceAllFrom re tpl w.length prev (w ++ r) = replaceAllFrom re tpl 0 (lastOr prev w) r := by
  induction w generalizing prev with
  | nil => simp [lastOr]
  | cons c w ih =>
    simp only [List.length_cons, List.cons_append, lastOr]
    rw [replaceAllFrom, ih]

theorem findAllFrom_noMatch (re : Regexp) (p tail : Str) (pos : Nat) (prev : Option Char)
    (h : ∀ a b, p = a ++ b → b ≠ [] → ∀ q, re q (b ++ tail) = none) :
    findAllFrom re pos 0 prev (p ++ tail) = findAllFrom re (pos + p.length) 0 (lastOr prev p) tail := by
  induction p generalizing pos prev with
  | nil => simp [lastOr]
  | cons c p ih =>
    have h0 := h [] (c :: p) rfl (by simp) prev
    simp only [List.cons_append] at h0
    simp only [List.cons_append, List.length_cons, lastOr]
    rw [findAllFrom, h0]
    simp only []
    rw [ih]
    · congr 1; omega
    · intro a b hab hb q
      exact h (c :: a) b (by simp [hab]) hb q

theorem takeWhile_append_stop {p : Char → Bool} (xs : Str) (d : Char) (r : Str)
    (hx : ∀ c ∈ xs, p c = true) (hd : p d = false) :
    (xs ++ d :: r).takeWhile p = xs ∧ (xs ++ d :: r).dropWhile p = d :: r := by
  induction xs with
  | nil => simp [List.takeWhile, List.dropWhile, hd]
  | cons c xs ih =>
    have hc : p c = true := hx c (by simp)
    have := ih (fun c hc => hx c (by simp [hc]))
    simp [List.takeWhile, List.dropWhile, hc, this]

/-! ## Mention tokens -/

theorem userRE_token (prev : Option Char) (id r : Str) (hne : id ≠ [])
    (hid : ∀ c ∈ id, isUpperOrDigit c = true) :
    userRE prev ('<' :: '@' :: (id ++ '>' :: r)) = some (id.length + 3, []) := by
  obtain ⟨h1, h2⟩ := takeWhile_append_stop (p := isUpperOrDigit) id '>' r hid (by decide)
  cases id with
  | nil => exact absurd rfl hne
  | cons c id =>
    simp only [userRE, h1, h2]

theorem userRE_some (prev : Option Char) (s : Str) (n : Nat) (caps : List Str)
    (h : userRE prev s = some (n, caps)) :
    ∃ id r, id ≠ [] ∧ (∀ c ∈ id, isUpperOrDigit c = true) ∧ s = '<' :: '@' :: (id ++ '>' :: r) ∧
      n = id.length + 3 ∧ caps = [] := by
  unfold userRE at h
  split at h
  · rename_i t
    split at h
    · rename_i c id r h1 h2
      simp only [Option.some.injEq, Prod.mk.injEq] at h
      refine ⟨c :: id, r, by simp, ?_, ?_, h.1.symm, h.2.symm⟩
      · intro x hx
        rw [← h1] at hx
        exact (List.mem_takeWhile_imp hx)
      · have := List.takeWhile_append_dropWhile isUpperOrDigit t
        rw [h1, h2] at this
        rw [← this]
    · exact absurd h (by simp)
  · exact absurd h (by simp)

theorem userRE_none_inside (p tail : Str) (hp : ¬ HasMention p)
    (htail : tail = [] ∨ ∃ t, tail = '<' :: t)
    (a b : Str) (hab : p = a ++ b) (hb : b ≠ []) (q : Option Char) :
    userRE q (b ++ tail) = none := by
  cases hm : userRE q (b ++ tail) with
  | none => rfl
  | some res =>
    exfalso
    obtain ⟨n, caps⟩ := res
    obtain ⟨id, r, hne, hid, hs, -, -⟩ := userRE_some q _ n caps hm
    have htok : IsMention ('<' :: '@' :: (id ++ ['>'])) := ⟨id, hne, hid, by simp⟩
    have hs2 : b ++ tail = ('<' :: '@' :: (id ++ ['>'])) ++ r := by simp [hs]
    rcases List.append_eq_append_iff.mp hs2 with ⟨a2, h1, h2⟩ | ⟨c2, h1, h2⟩
    · -- the token reaches the end of `b`
      cases a2 with
      | nil =>
        apply hp
        refine ⟨a, _, [], htok, ?_⟩
        simp at h1
        simp [hab, h1]
      | cons x a2 =>
        rcases htail with ht | ⟨t, ht⟩
        · simp [ht] at h2
        · rw [ht] at h2
          simp only [List.cons_append, List.cons.injEq] at h2
          obtain ⟨hx, -⟩ := h2
          subst hx
          cases b with
          | nil => exact hb rfl
          | cons b0 b =>
            simp only [List.cons_append, List.cons.injEq] at h1
            have hmem : '<' ∈ '@' :: (id ++ ['>']) := by rw [h1.2]; simp
            simp only [List.mem_cons, List.mem_append, List.mem_singleton] at hmem
            rcases hmem with h | h | h | h
            · exact absurd h (by decide)
            · exact absurd (hid _ h) (by decide)
            · exact absurd h (by decide)
            · simp at h
    · apply hp
      refine ⟨a, _, c2, htok, ?_⟩
      simp [hab, h1]

theorem source_head (ps : List Piece) : Piece.source ps = [] ∨ ∃ t, Piece.source ps = '<' :: t := by
  cases ps with
  | nil => left; rfl
  | cons x ps => right; exact ⟨_, rfl⟩

theorem source_cons (x : Piece) (ps : List Piece) :
    Piece.source (x :: ps) = '<' :: '@' :: (x.id ++ '>' :: (x.text ++ Piece.source ps)) := by
  simp [Piece.source]

theorem findAllFrom_source (p : Str) (ps : List Piece) (pos : Nat) (prev : Option Char)
    (hp : ¬ HasMention p) (hps : Piece.WellFormed ps) :
    findAllFrom userRE pos 0 prev (p ++ Piece.source ps) = tokenLocs (pos + p.length) ps := by
  induction ps generalizing p pos prev with
  | nil =>
    rw [findAllFrom_noMatch userRE p _ pos prev
      (userRE_none_inside p _ hp (source_head []))]
    simp [Piece.source, findAllFrom, tokenLocs]
  | cons x ps ih =>
    obtain ⟨hne, hid, htext⟩ := hps x (by simp)
    rw [findAllFrom_noMatch userRE p _ pos prev
      (userRE_none_inside p _ hp (source_head (x :: ps)))]
    rw [source_cons, findAllFrom, userRE_token _ x.id _ hne hid]
    simp only [tokenLocs]
    congr 1
    have hlen : x.id.length + 3 - 1 = ('@' :: (x.id ++ ['>'])).length := by simp
    have hsplit : '@' :: (x.id ++ '>' :: (x.text ++ Piece.source ps)) =
        ('@' :: (x.id ++ ['>'])) ++ (x.text ++ Piece.source ps) := by simp
    rw [hlen, hsplit, findAllFrom_skip, ih _ _ _ htext (fun y hy => hps y (by simp [hy]))]
    congr 1
    simp only [List.length_cons, List.length_append, List.length_nil]
    omega

theorem slice_mid (a b c : Str) : slice (a ++ b ++ c) a.length (a.length + b.length) = b := by
  simp [slice, List.take_append]

theorem interpolateLoop_pieces {σ ε : Type} (client : UserProvider σ ε) (ps : List Piece)
    (pre p out : Str) (st : σ) :
    interpolateLoop client (pre ++ p ++ Piece.source ps) (tokenLocs (pre.length + p.length) ps)
      pre.length out st = renderPieces client ps (out ++ p) st := by
  induction ps generalizing pre p out st with
  | nil => simp [tokenLocs, interpolateLoop, renderPieces, Piece.source]
  | cons x ps ih =>
    have hid : slice (pre ++ p ++ Piece.source (x :: ps)) (pre.length + p.length + 2)
        (pre.length + p.length + (x.id.length + 3) - 1) = x.id := by
      have h := slice_mid (pre ++ p ++ ['<', '@']) x.id ('>' :: (x.text ++ Piece.source ps))
      have e1 : pre ++ p ++ ['<', '@'] ++ x.id ++ '>' :: (x.text ++ Piece.source ps) =
          pre ++ p ++ Piece.source (x :: ps) := by simp [source_cons]
      have e2 : (pre ++ p ++ ['<', '@']).length = pre.length + p.length + 2 := by
        simp; omega
      have e3 : pre.length + p.length + (x.id.length + 3) - 1 =
          pre.length + p.length + 2 + x.id.length := by omega
      rw [e1, e2] at h
      rw [e3, h]
    have hp : slice (pre ++ p ++ Piece.source (x :: ps)) pre.length (pre.length + p.length) = p :=
      slice_mid pre p _
    simp only [tokenLocs]
    rw [interpolateLoop, hid, renderPieces]
    rcases hc : client x.id st with ⟨⟨username, _ | err⟩, st1⟩
    · simp only [hp]
      have hs : pre ++ p ++ Piece.source (x :: ps) =
          (pre ++ p ++ ('<' :: '@' :: (x.id ++ ['>']))) ++ x.text ++ Piece.source ps := by
        simp [source_cons]
      have hl : pre.length + p.length + (x.id.length + 3) =
          (pre ++ p ++ ('<' :: '@' :: (x.id ++ ['>']))).length := by
        simp; omega
      rw [hs, hl, ih]
    · rfl

theorem interpolateUsers_source {σ ε : Type} (client : UserProvider σ ε) (p : Str)
    (ps : List Piece) (st : σ) (hp : ¬ HasMention p) (hps : Piece.WellFormed ps) :
    interpolateUsers client (p ++ Piece.source ps) st = renderPieces client ps p st := by
  unfold interpolateUsers FindAllStringIndex
  rw [findAllFrom_source p ps 0 none hp hps]
  have := interpolateLoop_pieces client ps [] p [] st
  simpa using this

theorem renderPieces_resolves {σ ε : Type} (client : UserProvider σ ε) (ps : List Piece)
    (out : Str) (st st1 : σ) (h : Resolves client st ps st1) :
    renderPieces client ps out st = ((out ++ Piece.rendered ps, none), st1) := by
  induction ps generalizing out st with
  | nil => simp [Resolves] at h; simp [renderPieces, Piece.rendered, h]
  | cons x ps ih =>
    obtain ⟨st2, h1, h2⟩ := h
    rw [renderPieces, h1]
    simp only []
    rw [ih _ _ h2]
    simp [Piece.rendered]

theorem hasMention_iff (s : Str) : HasMention s ↔ hasMention s = true := by
  constructor
  · rintro ⟨a, w, b, ⟨id, hne, hid, hw⟩, hs⟩
    simp only [hasMention, List.any_eq_true, List.mem_tails]
    refine ⟨w ++ b, ⟨a, by simp [hs]⟩, ?_⟩
    have : w ++ b = '<' :: '@' :: (id ++ '>' :: b) := by simp [hw]
    rw [this, userRE_token none id b hne hid]
    rfl
  · intro h
    simp only [hasMention, List.any_eq_true, List.mem_tails] at h
    obtain ⟨t, ⟨a, hat⟩, ht⟩ := h
    cases hm : userRE none t with
    | none => simp [hm] at ht
    | some res =>
      obtain ⟨id, r, hne, hid, hs, -, -⟩ := userRE_some none t res.1 res.2 hm
      exact ⟨a, '<' :: '@' :: (id ++ ['>']), r, ⟨id, hne, hid, by simp⟩, by simp [← hat, hs]⟩

instance (s : Str) : Decidable (HasMention s) :=
  decidable_of_iff _ (hasMention_iff s).symm

instance (ps : List Piece) : Decidable (Piece.WellFormed ps) := by
  unfold Piece.WellFormed
  infer_instance

theorem resolves_recording {σ ε : Type} (client : UserProvider σ ε) (ps : List Piece)
    (st st1 : σ) (log : List (Str × Option (GoError ε))) (h : Resolves client st ps st1) :
    Resolves (recording client) (st, log) ps (st1, log ++ ps.map (fun x => (x.id, none))) := by
  induction ps generalizing st log with
  | nil => simp [Resolves] at h; simp [Resolves, h]
  | cons x ps ih =>
    obtain ⟨st2, h1, h2⟩ := h
    refine ⟨(st2, log ++ [(x.id, none)]), ?_, ?_⟩
    · simp [recording, h1]
    · have := ih st2 (log ++ [(x.id, none)]) h2
      simpa using this

theorem renderPieces_fails {σ ε : Type} (client : UserProvider σ ε) (done : List Piece)
    (failing : Piece) (rest : List Piece) (out username : Str) (st st1 st2 : σ) (err : GoError ε)
    (h : Resolves client st done st1) (hf : client failing.id st1 = ((username, some err), st2)) :
    renderPieces client (done ++ failing :: rest) out st = (([], some err), st2) := by
  induction done generalizing out st with
  | nil => simp [Resolves] at h; subst h; simp [renderPieces, hf]
  | cons x ps ih =>
    obtain ⟨st3, h1, h2⟩ := h
    rw [List.cons_append, renderPieces, h1]
    exact ih _ _ h2

/-- C5: for a text `p0 ++ "<@" ++ id1 ++ ">" ++ p1 ++ ...` whose identifiers are non-empty runs
of `[A-Z0-9]` and whose parts `p_i` hold no mention token, and a provider that answers the
identifiers in order with `name_i`, `interpolateUsers` returns, without error,
`p0 ++ "[backtick]@" ++ name1 ++ "[backtick]" ++ p1 ++ ...`: each token is replaced by the
quoted name, everything else is copied, and the names themselves are not scanned. -/
theorem interpolateUsers_replaces_mentions {σ ε : Type} (client : UserProvider σ ε) (p0 : Str)
    (ps : List Piece) (st st1 : σ) (hp0 : ¬ HasMention p0) (hps : Piece.WellFormed ps)
    (hres : Resolves client st ps st1) :
    interpolateUsers client (p0 ++ Piece.source ps) st = ((p0 ++ Piece.rendered ps, none), st1) := by
  rw [interpolateUsers_source client p0 ps st hp0 hps]
  exact renderPieces_resolves client ps p0 st st1 hres

/-- With the provider that knows `U1` as `alice`, `hi <@U1> there` becomes
`hi [backtick]@alice[backtick] there`; a name that looks like a token is inserted as it is. -/
theorem interpolateUsers_replaces_mentions_witness :
    interpolateUsers (tableProvider [("U1".toList, "alice".toList)]) "hi <@U1> there".toList () =
        (("hi `@alice` there".toList, none), ()) ∧
      interpolateUsers (tableProvider [("U1".toList, "<@U2>".toList)]) "<@U1><@U1>".toList () =
        (("`@<@U2>``@<@U2>`".toList, none), ()) :=
  ⟨interpolateUsers_replaces_mentions (tableProvider [("U1".toList, "alice".toList)])
      "hi ".toList [⟨"U1".toList, "alice".toList, " there".toList⟩] () () (by decide) (by decide)
      ⟨(), rfl, rfl⟩,
    interpolateUsers_replaces_mentions (tableProvider [("U1".toList, "<@U2>".toList)])
      [] [⟨"U1".toList, "<@U2>".toList, []⟩, ⟨"U1".toList, "<@U2>".toList, []⟩] () ()
      (by decide) (by decide) ⟨(), rfl, (), rfl, rfl⟩⟩

/-- C6: on a text `p0 ++ "<@" ++ id1 ++ ">" ++ p1 ++ ...` the provider is asked once for every
token, in the order of the text, for exactly the identifier between `<@` and `>` (the record of
calls is the list of the tokens' identifiers, repeated ones included); and when the provider
answers the tokens of `done` but fails with `err` on the next one, the result is the empty
string with `err`, and the record ends with the failing call: no later token is looked up. -/
theorem interpolateUsers_calls_in_order {σ ε : Type} (client : UserProvider σ ε) (p0 : Str)
    (ps : List Piece) (st : σ) (log : List (Str × Option (GoError ε)))
    (hp0 : ¬ HasMention p0) (hps : Piece.WellFormed ps) :
    (∀ st1, Resolves client st ps st1 →
      interpolateUsers client (p0 ++ Piece.source ps) st =
        ((p0 ++ Piece.rendered ps, none), st1) ∧
      interpolateUsers (recording client) (p0 ++ Piece.source ps) (st, log) =
        ((p0 ++ Piece.rendered ps, none), (st1, log ++ ps.map (fun x => (x.id, none))))) ∧
    (∀ done failing rest st1 st2 username err, ps = done ++ failing :: rest →
      Resolves client st done st1 → client failing.id st1 = ((username, some err), st2) →
      interpolateUsers client (p0 ++ Piece.source ps) st = (([], some err), st2) ∧
      interpolateUsers (recording client) (p0 ++ Piece.source ps) (st, log) =
        (([], some err),
          (st2, log ++ done.map (fun x => (x.id, none)) ++ [(failing.id, some err)]))) := by
  constructor
  · intro st1 hres
    rw [interpolateUsers_source (recording client) p0 ps (st, log) hp0 hps,
      interpolateUsers_source client p0 ps st hp0 hps]
    exact ⟨renderPieces_resolves client ps p0 _ _ hres,
      renderPieces_resolves (recording client) ps p0 _ _
        (resolves_recording client ps st st1 log hres)⟩
  · intro done failing rest st1 st2 username err hsplit hdone hfail
    rw [interpolateUsers_source (recording client) p0 ps (st, log) hp0 hps,
      interpolateUsers_source client p0 ps st hp0 hps, hsplit]
    refine ⟨renderPieces_fails client done failing rest p0 username st st1 st2 err hdone hfail,
      renderPieces_fails (recording client) done failing rest p0 username (st, log)
        (st1, log ++ done.map (fun x => (x.id, none))) _ err
        (resolves_recording client done st st1 log hdone) ?_⟩
    simp [recording, hfail]

/-- The provider that knows only `U1` is asked for `U1`, `U1` again and `U9`, fails on `U9`,
and is never asked for `U1` a third time. -/
theorem interpolateUsers_calls_in_order_witness :
    interpolateUsers (recording (tableProvider [("U1".toList, "alice".toList)]))
        "a<@U1>b<@U1>c<@U9>d<@U1>".toList ((), []) =
      (([], some (.upstream ())),
        ((), [("U1".toList, none), ("U1".toList, none), ("U9".toList, some (.upstream ()))])) :=
  ((interpolateUsers_calls_in_order (tableProvider [("U1".toList, "alice".toList)]) "a".toList
      [⟨"U1".toList, "alice".toList, "b".toList⟩, ⟨"U1".toList, "alice".toList, "c".toList⟩,
        ⟨"U9".toList, [], "d".toList⟩, ⟨"U1".toList, "alice".toList, []⟩] () []
      (by decide) (by decide)).2
    [⟨"U1".toList, "alice".toList, "b".toList⟩, ⟨"U1".toList, "alice".toList, "c".toList⟩]
    ⟨"U9".toList, [], "d".toList⟩ [⟨"U1".toList, "alice".toList, []⟩] () () [] (.upstream ())
    rfl ⟨(), rfl, (), rfl, rfl⟩ rfl).2

/-- C7: a text that holds no mention token is returned as it is, without error and with the
provider's state untouched, whatever the provider is (one that always fails, one that records
its calls); the match is case-sensitive and needs an identifier, so `<@u1>`, `<@>` and
`<@U1|bob>` hold no token. -/
theorem interpolateUsers_no_mention :
    (∀ (σ ε : Type) (client : UserProvider σ ε) (s : Str) (st : σ), ¬ HasMention s →
      interpolateUsers client s st = ((s, none), st)) ∧
    ¬ HasMention "<@u1>".toList ∧ ¬ HasMention "<@>".toList ∧ ¬ HasMention "<@U1|bob>".toList := by
  refine ⟨?_, by decide, by decide, by decide⟩
  intro σ ε client s st hs
  have := interpolateUsers_source client s [] st hs (by intro x hx; simp at hx)
  simpa [Piece.source, renderPieces] using this

/-- The three texts pass unchanged through a provider that fails on every identifier, and the
record of calls stays empty. -/
theorem interpolateUsers_no_mention_witness :
    interpolateUsers (recording (tableProvider [])) "<@u1>".toList ((), []) =
        (("<@u1>".toList, none), ((), [])) ∧
      interpolateUsers (recording (tableProvider [])) "<@>".toList ((), []) =
        (("<@>".toList, none), ((), [])) ∧
      interpolateUsers (recording (tableProvider [])) "<@U1|bob>".toList ((), []) =
        (("<@U1|bob>".toList, none), ((), [])) :=
  ⟨interpolateUsers_no_mention.1 _ _ _ _ _ interpolateUsers_no_mention.2.1,
    interpolateUsers_no_mention.1 _ _ _ _ _ interpolateUsers_no_mention.2.2.1,
    interpolateUsers_no_mention.1 _ _ _ _ _ interpolateUsers_no_mention.2.2.2⟩

/-! ## Links -/

theorem linkTail_token (scheme host label r : Str) (hh : host ≠ [])
    (hhost : ∀ c ∈ host, notBarGt c = true) (hl : label ≠ [])
    (hlabel : ∀ c ∈ label, notGt c = true) :
    linkTail scheme (host ++ '|' :: (label ++ '>' :: r)) =
      some ((scheme ++ host).length + label.length + 3, [scheme ++ host, label]) := by
  obtain ⟨h1, h2⟩ := takeWhile_append_stop (p := notBarGt) host '|' (label ++ '>' :: r) hhost
    (by decide)
  obtain ⟨h3, h4⟩ := takeWhile_append_stop (p := notGt) label '>' r hlabel (by decide)
  cases host with
  | nil => exact absurd rfl hh
  | cons c host =>
    cases label with
    | nil => exact absurd rfl hl
    | cons d label =>
      simp only [linkTail, h1, h2, h3, h4]

theorem linkTail_some (scheme t : Str) (n : Nat) (caps : List Str)
    (h : linkTail scheme t = some (n, caps)) :
    ∃ host label r, host ≠ [] ∧ (∀ c ∈ host, notBarGt c = true) ∧ label ≠ [] ∧
      (∀ c ∈ label, notGt c = true) ∧ t = host ++ '|' :: (label ++ '>' :: r) ∧
      n = (scheme ++ host).length + label.length + 3 ∧ caps = [scheme ++ host, label] := by
  unfold linkTail at h
  split at h
  · rename_i c host t2 h1 h2
    split at h
    · rename_i d label r h3 h4
      simp only [Option.some.injEq, Prod.mk.injEq] at h
      refine ⟨c :: host, d :: label, r, by simp, ?_, by simp, ?_, ?_, h.1.symm, h.2.symm⟩
      · intro x hx
        rw [← h1] at hx
        exact List.mem_takeWhile_imp hx
      · intro x hx
        rw [← h3] at hx
        exact List.mem_takeWhile_imp hx
      · have e1 := List.takeWhile_append_dropWhile notBarGt t
        have e2 := List.takeWhile_append_dropWhile notGt t2
        rw [h1, h2] at e1
        rw [h3, h4] at e2
        rw [← e1, ← e2]
    · exact absurd h (by simp)
  · exact absurd h (by simp)

theorem notBarGt_iff (c : Char) : notBarGt c = true ↔ c ≠ '|' ∧ c ≠ '>' := by
  simp [notBarGt]

theorem notGt_iff (c : Char) : notGt c = true ↔ c ≠ '>' := by
  simp [notGt]

theorem linkRE_token (prev : Option Char) (url label r : Str) (hu : IsLinkURL url)
    (hl : IsLinkLabel label) :
    linkRE prev ('<' :: (url ++ '|' :: (label ++ '>' :: r))) =
      some (url.length + label.length + 3, [url, label]) := by
  obtain ⟨host, hh, hhost, hurl | hurl⟩ := hu
  · subst hurl
    have := linkTail_token "http://".toList host label r hh
      (fun c hc => (notBarGt_iff c).2 (hhost c hc)) hl.1 (fun c hc => (notGt_iff c).2 (hl.2 c hc))
    simpa [linkRE, List.isPrefixOf] using this
  · subst hurl
    have := linkTail_token "https://".toList host label r hh
      (fun c hc => (notBarGt_iff c).2 (hhost c hc)) hl.1 (fun c hc => (notGt_iff c).2 (hl.2 c hc))
    simpa [linkRE, List.isPrefixOf] using this

theorem isPrefixOf_split (w s : Str) (h : w.isPrefixOf s = true) :
    s = w ++ s.drop w.length := by
  have h1 : w <+: s := List.isPrefixOf_iff_prefix.mp h
  exact (List.prefix_iff_eq_append.mp h1).symm

theorem linkRE_some (prev : Option Char) (s : Str) (n : Nat) (caps : List Str)
    (h : linkRE prev s = some (n, caps)) :
    ∃ url label r, IsLinkURL url ∧ IsLinkLabel label ∧
      s = '<' :: (url ++ '|' :: (label ++ '>' :: r)) ∧
      n = url.length + label.length + 3 ∧ caps = [url, label] := by
  unfold linkRE at h
  split at h
  · rename_i hpre
    obtain ⟨host, label, r, hh, hhost, hl, hlabel, ht, hn, hc⟩ := linkTail_some _ _ n caps h
    refine ⟨"https://".toList ++ host, label, r,
      ⟨host, hh, fun c hc => (notBarGt_iff c).1 (hhost c hc), Or.inr rfl⟩,
      ⟨hl, fun c hc => (notGt_iff c).1 (hlabel c hc)⟩, ?_, hn, hc⟩
    have := isPrefixOf_split _ _ hpre
    rw [this]
    simp only [String.toList, List.length_cons, List.length_nil] at ht ⊢
    simp [ht]
  · split at h
    · rename_i hpre
      obtain ⟨host, label, r, hh, hhost, hl, hlabel, ht, hn, hc⟩ := linkTail_some _ _ n caps h
      refine ⟨"http://".toList ++ host, label, r,
        ⟨host, hh, fun c hc => (notBarGt_iff c).1 (hhost c hc), Or.inl rfl⟩,
        ⟨hl, fun c hc => (notGt_iff c).1 (hlabel c hc)⟩, ?_, hn, hc⟩
      have := isPrefixOf_split _ _ hpre
      rw [this]
      simp only [String.toList, List.length_cons, List.length_nil] at ht ⊢
      simp [ht]
    · exact absurd h (by simp)

theorem linkRE_none_iff (prev : Option Char) (s : Str) :
    linkRE prev s = none ↔ ¬ StartsWithLink s := by
  constructor
  · rintro h ⟨url, label, r, hu, hl, hs⟩
    have := linkRE_token prev url label r hu hl
    have e : s = '<' :: (url ++ '|' :: (label ++ '>' :: r)) := by simp [hs]
    rw [← e, h] at this
    exact absurd this (by simp)
  · intro h
    cases hm : linkRE prev s with
    | none => rfl
    | some res =>
      obtain ⟨url, label, r, hu, hl, hs, -, -⟩ := linkRE_some prev s res.1 res.2 hm
      exact absurd ⟨url, label, r, hu, hl, by simp [hs]⟩ h

theorem replaceAllFrom_prev (re : Regexp) (tpl : Str) (hre : ∀ q q2 s, re q s = re q2 s)
    (k : Nat) (q q2 : Option Char) (s : Str) :
    replaceAllFrom re tpl k q s = replaceAllFrom re tpl k q2 s := by
  cases s with
  | nil => simp [replaceAllFrom]
  | cons c t =>
    cases k with
    | zero => rw [replaceAllFrom, replaceAllFrom, hre q q2]
    | succ k => rw [replaceAllFrom, replaceAllFrom]

theorem linkRE_prev (q q2 : Option Char) (s : Str) : linkRE q s = linkRE q2 s := rfl

theorem expand_link (whole url label : Str) :
    expand "[$2]($1)".toList [whole, url, label] = '[' :: (label ++ ']' :: '(' :: (url ++ [')'])) :=
  rfl

theorem replaceAll_link_copy (c : Char) (t : Str) (q : Option Char)
    (h : ¬ StartsWithLink (c :: t)) :
    replaceAllFrom linkRE "[$2]($1)".toList 0 q (c :: t) =
      c :: replaceAllFrom linkRE "[$2]($1)".toList 0 none t := by
  rw [replaceAllFrom, (linkRE_none_iff q (c :: t)).2 h]
  simp only []
  rw [replaceAllFrom_prev linkRE _ linkRE_prev 0 (some c) none]

theorem replaceAll_link_token (url label t : Str) (q : Option Char)
    (hu : IsLinkURL url) (hl : IsLinkLabel label) :
    replaceAllFrom linkRE "[$2]($1)".toList 0 q ('<' :: (url ++ '|' :: (label ++ '>' :: t))) =
      '[' :: (label ++ ']' :: '(' :: (url ++ [')'])) ++
        replaceAllFrom linkRE "[$2]($1)".toList 0 none t := by
  rw [replaceAllFrom, linkRE_token q url label t hu hl]
  simp only []
  rw [expand_link]
  congr 1
  have hlen : url.length + label.length + 3 - 1 = (url ++ '|' :: (label ++ ['>'])).length := by
    simp; omega
  have hsplit : url ++ '|' :: (label ++ '>' :: t) = (url ++ '|' :: (label ++ ['>'])) ++ t := by
    simp
  rw [hlen, hsplit, replaceAllFrom_skip]
  exact replaceAllFrom_prev linkRE _ linkRE_prev 0 _ none t

theorem linksRewritten_unique (s out : Str) (h : LinksRewritten s out) :
    out = ReplaceAllString linkRE s "[$2]($1)".toList := by
  unfold ReplaceAllString
  induction h with
  | done => rfl
  | copy c t out hno _ ih => rw [replaceAll_link_copy c t none hno, ih]
  | link url label t out hu hl _ ih =>
    have e : "<".toList ++ url ++ "|".toList ++ label ++ ">".toList ++ t =
        '<' :: (url ++ '|' :: (label ++ '>' :: t)) := by simp
    rw [e, replaceAll_link_token url label t none hu hl, ← ih]
    simp

theorem linksRewritten_replaceAll (s : Str) :
    LinksRewritten s (ReplaceAllString linkRE s "[$2]($1)".toList) := by
  unfold ReplaceAllString
  generalize hn : s.length = n
  induction n using Nat.strong_induction_on generalizing s with
  | _ n ih =>
    cases s with
    | nil => exact LinksRewritten.done
    | cons c t =>
      cases hm : linkRE none (c :: t) with
      | none =>
        have hno := (linkRE_none_iff none (c :: t)).1 hm
        rw [replaceAll_link_copy c t none hno]
        exact LinksRewritten.copy c t _ hno (ih t.length (by simp [← hn]) t rfl)
      | some res =>
        obtain ⟨url, label, r, hu, hl, hs, -, -⟩ := linkRE_some none _ res.1 res.2 hm
        rw [hs, replaceAll_link_token url label r none hu hl]
        have hlt : r.length < n := by
          have := congrArg List.length hs
          simp at this
          simp at hn
          omega
        have := LinksRewritten.link url label r _ hu hl (ih r.length hlt r rfl)
        simpa using this

/-- C8: the link-rewriting step of `convert` is exactly the rewriting the specification
describes: scanning from the left, every link token `<URL|LABEL>` (URL `http://` or `https://`
followed by one or more characters other than a bar and a closing angle, LABEL one or more
characters other than a closing angle) becomes `[LABEL](URL)`, the scan resumes after the
token, and every other character is copied.  The step is a total function, and
`<https://x.com/a|click here>` becomes `[click here](https://x.com/a)`. -/
theorem rewriteLinks_spec :
    (∀ s out : Str, LinksRewritten s out ↔ out = ReplaceAllString linkRE s "[$2]($1)".toList) ∧
    ReplaceAllString linkRE "<https://x.com/a|click here>".toList "[$2]($1)".toList =
      "[click here](https://x.com/a)".toList := by
  refine ⟨fun s out => ⟨linksRewritten_unique s out, ?_⟩, by decide⟩
  intro h
  rw [h]
  exact linksRewritten_replaceAll s

/-! ## Lines -/

theorem Split_ne_nil (s : Str) (sep : Char) : Split s sep ≠ [] := by
  cases s with
  | nil => simp [Split]
  | cons c t =>
    rw [Split]
    split
    · simp
    · split <;> simp

theorem Split_cons_sep (t : Str) (sep : Char) : Split (sep :: t) sep = [] :: Split t sep := by
  rw [Split]; simp

theorem Split_cons_other (c : Char) (t : Str) (sep : Char) (h : c ≠ sep) (hd : Str)
    (tl : List Str) (ht : Split t sep = hd :: tl) : Split (c :: t) sep = (c :: hd) :: tl := by
  rw [Split]; simp [h, ht]

theorem Join_cons (l : Str) (ls : List Str) (sep : Char) (h : ls ≠ []) :
    Join (l :: ls) sep = l ++ sep :: Join ls sep := by
  cases ls with
  | nil => exact absurd rfl h
  | cons l2 ls => rfl

/-- The first line of a text and what follows it. -/
theorem Split_first (t : Str) (sep : Char) :
    ∃ hd tl, Split t sep = hd :: tl ∧ sep ∉ hd ∧
      ((t = hd ∧ tl = []) ∨ ∃ rest, t = hd ++ sep :: rest ∧ tl = Split rest sep) := by
  induction t with
  | nil => exact ⟨[], [], rfl, by simp, Or.inl ⟨rfl, rfl⟩⟩
  | cons c t ih =>
    by_cases hc : c = sep
    · subst hc
      exact ⟨[], Split t c, Split_cons_sep t c, by simp, Or.inr ⟨t, rfl, rfl⟩⟩
    · obtain ⟨hd, tl, h1, h2, h3⟩ := ih
      refine ⟨c :: hd, tl, Split_cons_other c t sep hc hd tl h1, ?_, ?_⟩
      · simp only [List.mem_cons, not_or]
        exact ⟨fun h => hc h.symm, h2⟩
      · rcases h3 with ⟨h3, h4⟩ | ⟨rest, h3, h4⟩
        · exact Or.inl ⟨by rw [h3], h4⟩
        · exact Or.inr ⟨rest, by rw [h3]; rfl, h4⟩

theorem Split_no_sep (l : Str) (sep : Char) (h : sep ∉ l) : Split l sep = [l] := by
  induction l with
  | nil => rfl
  | cons c l ih =>
    simp only [List.mem_cons, not_or] at h
    exact Split_cons_other c l sep (fun e => h.1 e.symm) l [] (ih h.2)

theorem Split_append_sep (a b : Str) (sep : Char) :
    Split (a ++ sep :: b) sep = Split a sep ++ Split b sep := by
  induction a with
  | nil => simp [Split_cons_sep, Split]
  | cons c a ih =>
    by_cases hc : c = sep
    · subst hc
      simp [Split_cons_sep, ih]
    · obtain ⟨hd, tl, h1, -, -⟩ := Split_first a sep
      rw [List.cons_append, Split_cons_other c a sep hc hd tl h1,
        Split_cons_other c (a ++ sep :: b) sep hc hd (tl ++ Split b sep) (by rw [ih, h1]; rfl)]
      rfl

theorem Split_Join (ls : List Str) (sep : Char) (h : ls ≠ []) :
    Split (Join ls sep) sep = ls.flatMap (fun l => Split l sep) := by
  induction ls with
  | nil => exact absurd rfl h
  | cons l ls ih =>
    cases ls with
    | nil => simp [Join]
    | cons l2 ls =>
      rw [Join_cons l (l2 :: ls) sep (by simp), Split_append_sep, ih (by simp)]
      simp

theorem infix_of_mem_Split (s : Str) (sep : Char) (l : Str) (h : l ∈ Split s sep) : l <:+: s := by
  induction s using List.rec generalizing l with
  | nil => simp [Split] at h; subst h; exact List.infix_refl _
  | cons c t ih =>
    by_cases hc : c = sep
    · subst hc
      rw [Split_cons_sep] at h
      rcases List.mem_cons.mp h with h | h
      · subst h; exact List.nil_infix
      · exact (ih l h).trans (List.suffix_cons c t).isInfix
    · obtain ⟨hd, tl, h1, -, h3⟩ := Split_first t sep
      rw [Split_cons_other c t sep hc hd tl h1] at h
      rcases List.mem_cons.mp h with h | h
      · subst h
        rcases h3 with ⟨h3, -⟩ | ⟨rest, h3, -⟩
        · rw [h3]
        · rw [h3]
          exact (List.prefix_append (c :: hd) (sep :: rest)).isInfix
      · exact (ih l (by rw [h1]; exact List.mem_cons_of_mem _ h)).trans
          (List.suffix_cons c t).isInfix

/-! ## The open-fence pass -/

theorem Join_cons_char (x : Char) (hd : Str) (ls : List Str) (sep : Char) :
    Join ((x :: hd) :: ls) sep = x :: Join (hd :: ls) sep := by
  cases ls <;> rfl

theorem Join_append_head (a hd : Str) (ls : List Str) (sep : Char) :
    Join ((a ++ hd) :: ls) sep = a ++ Join (hd :: ls) sep := by
  cases ls <;> simp [Join]

theorem Join_nil_head (ls : List Str) (sep : Char) (h : ls ≠ []) :
    Join ([] :: ls) sep = sep :: Join ls sep := by
  rw [Join_cons [] ls sep h]; rfl

theorem expand_open (groups : List Str) : expand "```\n".toList groups = fence ++ ['\n'] := rfl

theorem openCodefence_mid (prev : Option Char) (s : Str) (h : atLineStart prev = false) :
    openCodefence prev s = none := by
  simp [openCodefence, h]

theorem fence_no_newline : '\n' ∉ fence := by decide

theorem Split_fence_append (t hd : Str) (tl : List Str) (h : Split t '\n' = hd :: tl) :
    Split (fence ++ t) '\n' = (fence ++ hd) :: tl := by
  have h1 := Split_cons_other (Char.ofNat 96) t '\n' (by decide) hd tl h
  have h2 := Split_cons_other (Char.ofNat 96) _ '\n' (by decide) _ tl h1
  exact Split_cons_other (Char.ofNat 96) _ '\n' (by decide) _ tl h2

theorem open_pass_aux (n : Nat) : ∀ s : Str, s.length = n →
    (∀ prev, atLineStart prev = true →
      replaceAllFrom openCodefence "```\n".toList 0 prev s =
        Join ((Split s '\n').map openLine) '\n') ∧
    (∀ prev, atLineStart prev = false → ∀ hd tl, Split s '\n' = hd :: tl →
      replaceAllFrom openCodefence "```\n".toList 0 prev s =
        Join (hd :: tl.map openLine) '\n') := by
  induction n using Nat.strong_induction_on with
  | _ n ih =>
    intro s hn
    cases s with
    | nil =>
      refine ⟨fun prev _ => by simp [replaceAllFrom, Split, openLine, Join, fence], ?_⟩
      intro prev _ hd tl h
      simp [Split] at h
      obtain ⟨rfl, rfl⟩ := h
      simp [replaceAllFrom, Join]
    | cons x t =>
      obtain ⟨hd, tl, hsplit, -, hfirst⟩ := Split_first t '\n'
      have iht := ih t.length (by simp [← hn]) t rfl
      -- the step at a position that is not a match
      have hcopy : ∀ prev, openCodefence prev (x :: t) = none →
          replaceAllFrom openCodefence "```\n".toList 0 prev (x :: t) =
            x :: replaceAllFrom openCodefence "```\n".toList 0 (some x) t := by
        intro prev h
        rw [replaceAllFrom, h]
      have hmid : x ≠ '\n' → Split (x :: t) '\n' = (x :: hd) :: tl :=
        fun hx => Split_cons_other x t '\n' hx hd tl hsplit
      constructor
      · intro prev hprev
        by_cases hp : fence.isPrefixOf (x :: t) = true
        · have hs := isPrefixOf_split fence (x :: t) hp
          have hlen : ((x :: t).drop fence.length).length < n := by
            have := congrArg List.length hs
            simp only [List.length_append] at this
            have hf : fence.length = 3 := rfl
            simp only [List.length_cons] at hn this
            omega
          generalize (x :: t).drop fence.length = t3 at hs hlen
          obtain ⟨hd3, tl3, hsplit3, -, -⟩ := Split_first t3 '\n'
          have ih3 := (ih t3.length hlen t3 rfl).2 (some (Char.ofNat 96)) (by decide)
            hd3 tl3 hsplit3
          have hm : openCodefence prev (x :: t) = some (3, []) := by
            simp [openCodefence, hprev, hp]
          rw [replaceAllFrom, hm]
          simp only []
          rw [expand_open]
          have ht : t = "``".toList ++ t3 := by
            have := hs
            simp only [fence] at this
            exact (List.cons.inj this).2
          rw [ht]
          have hskip := replaceAllFrom_skip openCodefence "```\n".toList "``".toList t3 (some x)
          have hl2 : "``".toList.length = 2 := rfl
          rw [hl2] at hskip
          have e32 : 3 - 1 = 2 := rfl
          rw [e32, hskip]
          have hlast : lastOr (some x) "``".toList = some (Char.ofNat 96) := rfl
          rw [hlast, ih3]
          have hx : x :: ("``".toList ++ t3) = fence ++ t3 := by rw [← ht]; exact hs
          rw [hx, Split_fence_append t3 hd3 tl3 hsplit3]
          simp only [List.map_cons]
          have hol : openLine (fence ++ hd3) = (fence ++ ['\n']) ++ hd3 := by
            simp [openLine, fence, List.isPrefixOf]
          rw [hol, Join_append_head]
        · have hm : openCodefence prev (x :: t) = none := by
            simp [openCodefence, hp]
          rw [hcopy prev hm]
          by_cases hx : x = '\n'
          · subst hx
            rw [iht.1 (some '\n') rfl, Split_cons_sep]
            simp only [List.map_cons]
            have : openLine [] = [] := rfl
            rw [this, Join_nil_head _ _ (by simp [Split_ne_nil])]
          · have hxs : atLineStart (some x) = false := by simp [atLineStart, hx]
            rw [iht.2 (some x) hxs hd tl hsplit, hmid hx]
            simp only [List.map_cons]
            have hno : openLine (x :: hd) = x :: hd := by
              have hpre : (x :: hd) <+: (x :: t) := by
                rcases hfirst with ⟨h3, -⟩ | ⟨rest, h3, -⟩
                · rw [h3]
                · rw [h3]; exact List.prefix_append (x :: hd) ('\n' :: rest)
              have : ¬ fence.isPrefixOf (x :: hd) = true := by
                intro h
                apply hp
                exact List.isPrefixOf_iff_prefix.mpr ((List.isPrefixOf_iff_prefix.mp h).trans hpre)
              simp [openLine, this]
            rw [hno, Join_cons_char]
      · intro prev hprev hd2 tl2 hsplit2
        rw [hcopy prev (openCodefence_mid prev _ hprev)]
        by_cases hx : x = '\n'
        · subst hx
          rw [Split_cons_sep] at hsplit2
          obtain ⟨rfl, rfl⟩ := List.cons.inj hsplit2
          rw [iht.1 (some '\n') rfl, Join_nil_head _ _ (by simp [Split_ne_nil])]
        · have hxs : atLineStart (some x) = false := by simp [atLineStart, hx]
          rw [hmid hx] at hsplit2
          obtain ⟨rfl, rfl⟩ := List.cons.inj hsplit2
          rw [iht.2 (some x) hxs hd tl hsplit, Join_cons_char]

theorem open_pass_lines (s : Str) :
    ReplaceAllString openCodefence s "```\n".toList = Join ((Split s '\n').map openLine) '\n' :=
  (open_pass_aux s.length s rfl).1 none rfl

/-! ## The close-fence pass -/

theorem expand_close (whole : Str) (x : Char) :
    expand "$1\n```".toList [whole, [x]] = x :: '\n' :: fence := rfl

theorem closeCodefence_prev (q q2 : Option Char) (s : Str) :
    closeCodefence q s = closeCodefence q2 s := rfl

theorem closeLine_cons (x : Char) (hd : Str) (hne : hd ≠ fence) :
    closeLine (x :: hd) = x :: closeLine hd := by
  by_cases hs : fence <:+ hd
  · have hlen : 3 ≤ hd.length := by
      have := hs.length_le
      simpa [fence] using this
    have h1 : fence.isSuffixOf hd = true := List.isSuffixOf_iff_suffix.mpr hs
    have h2 : fence.isSuffixOf (x :: hd) = true :=
      List.isSuffixOf_iff_suffix.mpr (hs.trans (List.suffix_cons x hd))
    have h3 : x :: hd ≠ fence := by
      intro h
      have := congrArg List.length h
      simp [fence] at this
      omega
    have e : (x :: hd).length - 3 = (hd.length - 3) + 1 := by
      simp only [List.length_cons]; omega
    have b1 : (hd != fence) = true := by simpa using hne
    have b2 : (x :: hd != fence) = true := by simpa using h3
    simp only [closeLine, h1, h2, b1, b2, Bool.and_self, if_true, e, List.take_succ_cons,
      List.cons_append]
  · have h1 : fence.isSuffixOf hd = false := by
      rw [Bool.eq_false_iff]
      exact fun h => hs (List.isSuffixOf_iff_suffix.mp h)
    have hcl : closeLine hd = hd := by simp [closeLine, h1]
    rw [hcl]
    by_cases h3 : x :: hd = fence
    · simp [closeLine, h3]
    · have h2 : fence.isSuffixOf (x :: hd) = false := by
        rw [Bool.eq_false_iff]
        intro h
        rcases List.suffix_cons_iff.mp (List.isSuffixOf_iff_suffix.mp h) with h | h
        · exact h3 h.symm
        · exact hs h
      simp [closeLine, h2]

theorem close_pass_aux (n : Nat) : ∀ s : Str, s.length = n → ∀ prev,
    replaceAllFrom closeCodefence "$1\n```".toList 0 prev s =
      Join ((Split s '\n').map closeLine) '\n' := by
  induction n using Nat.strong_induction_on with
  | _ n ih =>
    intro s hn prev
    cases s with
    | nil => simp [replaceAllFrom, Split, closeLine, Join, fence, List.isSuffixOf]
    | cons x t =>
      by_cases hcond : (x != '\n' && fence.isPrefixOf t && atLineEnd (t.drop 3)) = true
      · simp only [Bool.and_eq_true, bne_iff_ne, ne_eq] at hcond
        obtain ⟨⟨hx, hp⟩, hend⟩ := hcond
        have hm : closeCodefence prev (x :: t) = some (4, [[x]]) := by
          simp [closeCodefence, hx, hp, hend]
        have hs := isPrefixOf_split fence t hp
        have hf : fence.length = 3 := rfl
        rw [hf] at hs
        generalize t.drop 3 = r at hs hend
        rw [replaceAllFrom, hm]
        simp only []
        rw [expand_close, hs]
        have hskip := replaceAllFrom_skip closeCodefence "$1\n```".toList fence r (some x)
        rw [hf] at hskip
        have e41 : 4 - 1 = 3 := rfl
        rw [e41, hskip]
        have hcl : closeLine (x :: fence) = x :: '\n' :: fence := by
          simp [closeLine, fence, List.isSuffixOf, List.isPrefixOf]
        have hsp : Split (x :: fence) '\n' = [x :: fence] := by
          apply Split_no_sep
          simp only [List.mem_cons, not_or]
          exact ⟨fun h => hx h.symm, by simpa using fence_no_newline⟩
        cases r with
        | nil =>
          rw [List.append_nil, hsp]
          simp [replaceAllFrom, Join, hcl]
        | cons y r2 =>
          have hy : y = '\n' := by simpa [atLineEnd] using hend
          subst hy
          have hm2 : closeCodefence (lastOr (some x) fence) ('\n' :: r2) = none := by
            simp [closeCodefence]
          rw [replaceAllFrom, hm2]
          simp only []
          have hlt : r2.length < n := by
            have := congrArg List.length hs
            simp only [List.length_append, List.length_cons, hf] at this
            simp only [List.length_cons] at hn
            omega
          rw [ih r2.length hlt r2 rfl]
          have hsplit : Split (x :: (fence ++ '\n' :: r2)) '\n' =
              [x :: fence] ++ Split r2 '\n' := by
            have := Split_append_sep (x :: fence) r2 '\n'
            rw [hsp] at this
            simpa using this
          rw [hsplit]
          simp only [List.singleton_append, List.map_cons, hcl]
          rw [Join_cons _ _ _ (by simp [Split_ne_nil])]
      · have hm : closeCodefence prev (x :: t) = none := by
          simp only [closeCodefence]
          simp [hcond]
        rw [replaceAllFrom, hm]
        simp only []
        rw [ih t.length (by simp [← hn]) t rfl]
        obtain ⟨hd, tl, hsplit, -, hfirst⟩ := Split_first t '\n'
        by_cases hx : x = '\n'
        · subst hx
          rw [Split_cons_sep]
          simp only [List.map_cons]
          have : closeLine [] = [] := rfl
          rw [this, Join_nil_head _ _ (by simp [Split_ne_nil])]
        · rw [Split_cons_other x t '\n' hx hd tl hsplit, hsplit]
          simp only [List.map_cons]
          have hne : hd ≠ fence := by
            intro hfe
            apply hcond
            rcases hfirst with ⟨h3, -⟩ | ⟨rest, h3, -⟩
            · rw [h3, hfe]
              simp [hx, fence, List.isPrefixOf, atLineEnd]
            · rw [h3, hfe]
              simp [hx, fence, List.isPrefixOf, atLineEnd]
          rw [closeLine_cons x hd hne, Join_cons_char]

theorem close_pass_lines (s : Str) :
    ReplaceAllString closeCodefence s "$1\n```".toList =
      Join ((Split s '\n').map closeLine) '\n' :=
  close_pass_aux s.length s rfl none

theorem mem_Split_no_sep (s : Str) (sep : Char) (l : Str) (h : l ∈ Split s sep) : sep ∉ l := by
  induction s using List.rec generalizing l with
  | nil => simp [Split] at h; subst h; simp
  | cons c t ih =>
    by_cases hc : c = sep
    · subst hc
      rw [Split_cons_sep] at h
      rcases List.mem_cons.mp h with h | h
      · subst h; simp
      · exact ih l h
    · obtain ⟨hd, tl, h1, h2, -⟩ := Split_first t sep
      rw [Split_cons_other c t sep hc hd tl h1] at h
      rcases List.mem_cons.mp h with h | h
      · subst h
        simp only [List.mem_cons, not_or]
        exact ⟨fun e => hc e.symm, h2⟩
      · exact ih l (by rw [h1]; exact List.mem_cons_of_mem _ h)

theorem closeLine_lines_good (l : Str) (hnl : '\n' ∉ l)
    (h : l = fence ∨ (¬ fence <+: l ∧ ¬ sixTicks <:+: l)) :
    ∀ f ∈ Split (closeLine l) '\n', (fence <+: f ∨ fence <:+ f) → f = fence := by
  rcases h with h | ⟨hpre, hsix⟩
  · subst h
    intro f hf _
    have : Split (closeLine fence) '\n' = [fence] := by decide
    rw [this] at hf
    simpa using hf
  · by_cases hcond : (fence.isSuffixOf l && l != fence) = true
    · simp only [Bool.and_eq_true, bne_iff_ne, ne_eq] at hcond
      obtain ⟨hsuf, hne⟩ := hcond
      have hsuf2 : fence <:+ l := List.isSuffixOf_iff_suffix.mp hsuf
      have hl : l = l.take (l.length - 3) ++ fence := by
        obtain ⟨w, hw⟩ := hsuf2
        have hlen : l.length - 3 = w.length := by
          rw [← hw]; simp [fence]
        rw [hlen, ← hw]
        simp
      generalize l.take (l.length - 3) = w at hl
      have hcl : closeLine l = w ++ '\n' :: fence := by
        have b2 : (l != fence) = true := by simpa using hne
        have : l.take (l.length - 3) = w := by
          rw [hl]; simp [fence]
        simp only [closeLine, hsuf, b2, Bool.and_self, if_true, this]
      have hw : '\n' ∉ w := by
        intro hmem
        apply hnl
        rw [hl]
        exact List.mem_append_left _ hmem
      rw [hcl, Split_append_sep, Split_no_sep w '\n' hw, Split_no_sep fence '\n' fence_no_newline]
      intro f hf hprop
      simp only [List.singleton_append, List.mem_cons, List.mem_singleton, List.not_mem_nil,
        or_false] at hf
      rcases hf with hf | hf
      · subst hf
        exfalso
        rcases hprop with hp | hp
        · apply hpre
          rw [hl]
          exact hp.trans (List.prefix_append f fence)
        · apply hsix
          obtain ⟨w2, hw2⟩ := hp
          rw [hl, ← hw2]
          exact ⟨w2, [], by simp [sixTicks]⟩
      · exact hf
    · have hcl : closeLine l = l := by
        simp only [closeLine]
        simp [hcond]
      rw [hcl, Split_no_sep l '\n' hnl]
      intro f hf hprop
      simp only [List.mem_singleton] at hf
      subst hf
      rcases hprop with hp | hp
      · exact absurd hp hpre
      · by_contra hne
        apply hcond
        have b2 : (f != fence) = true := by simpa using hne
        simp [List.isSuffixOf_iff_suffix.mpr hp, b2]

theorem openLine_lines (l : Str) (hnl : '\n' ∉ l) (hsix : ¬ sixTicks <:+: l) :
    ∀ l1 ∈ Split (openLine l) '\n',
      '\n' ∉ l1 ∧ (l1 = fence ∨ (¬ fence <+: l1 ∧ ¬ sixTicks <:+: l1)) := by
  by_cases hp : fence.isPrefixOf l = true
  · have hs := isPrefixOf_split fence l hp
    have hf : fence.length = 3 := rfl
    rw [hf] at hs
    have hol : openLine l = fence ++ '\n' :: l.drop 3 := by simp [openLine, hp]
    generalize l.drop 3 = r at hs hol
    have hr : '\n' ∉ r := by
      intro hmem
      apply hnl
      rw [hs]
      exact List.mem_append_right _ hmem
    rw [hol, Split_append_sep, Split_no_sep fence '\n' fence_no_newline, Split_no_sep r '\n' hr]
    intro l1 hl1
    simp only [List.singleton_append, List.mem_cons, List.mem_singleton, List.not_mem_nil,
      or_false] at hl1
    rcases hl1 with h | h
    · subst h
      exact ⟨fence_no_newline, Or.inl rfl⟩
    · subst h
      refine ⟨hr, Or.inr ⟨?_, ?_⟩⟩
      · rintro ⟨w, hw⟩
        apply hsix
        rw [hs, ← hw]
        exact ⟨[], w, by simp [sixTicks]⟩
      · intro h6
        apply hsix
        rw [hs]
        exact h6.trans (List.suffix_append fence l1).isInfix
  · have hol : openLine l = l := by simp [openLine, hp]
    rw [hol, Split_no_sep l '\n' hnl]
    intro l1 hl1
    simp only [List.mem_singleton] at hl1
    subst hl1
    exact ⟨hnl, Or.inr ⟨fun h => hp (List.isPrefixOf_iff_prefix.mpr h), hsix⟩⟩

/-- C9 (amended): for every text without six backticks in a row, after the open-fence pass and
then the close-fence pass every line that begins or ends with three backticks is exactly the
three backticks. -/
theorem normalizeFences_alone_on_line (s : Str) (h : ¬ sixTicks <:+: s) :
    ∀ l ∈ Split (ReplaceAllString closeCodefence
        (ReplaceAllString openCodefence s "```\n".toList) "$1\n```".toList) '\n',
      (fence <+: l ∨ fence <:+ l) → l = fence := by
  rw [close_pass_lines, open_pass_lines]
  rw [Split_Join _ _ (by simp [Split_ne_nil]), Split_Join _ _ (by simp [Split_ne_nil])]
  intro f hf
  simp only [List.mem_flatMap, List.mem_map] at hf
  obtain ⟨l2, ⟨l1, ⟨l0, ⟨l, hl, rfl⟩, hl1⟩, rfl⟩, hf⟩ := hf
  have hnl := mem_Split_no_sep s '\n' l hl
  have hsix : ¬ sixTicks <:+: l := fun h6 => h (h6.trans (infix_of_mem_Split s '\n' l hl))
  obtain ⟨h1, h2⟩ := openLine_lines l hnl hsix l1 hl1
  exact closeLine_lines_good l1 h1 h2 f hf

/-- The normaliser puts the fences of one-line code blocks on lines of their own. -/
theorem normalizeFences_alone_on_line_witness :
    (¬ sixTicks <:+: "```a```".toList) ∧
      Split (ReplaceAllString closeCodefence
        (ReplaceAllString openCodefence "```a```".toList "```\n".toList) "$1\n```".toList) '\n' =
        [fence, "a".toList, fence] ∧
      ∀ l ∈ Split (ReplaceAllString closeCodefence
        (ReplaceAllString openCodefence "```a```".toList "```\n".toList) "$1\n```".toList) '\n',
        (fence <+: l ∨ fence <:+ l) → l = fence :=
  ⟨by decide, by decide, normalizeFences_alone_on_line "```a```".toList (by decide)⟩

/-- C9 fails as stated: from six backticks followed by `x` the normaliser makes the two lines
of three backticks and of three backticks followed by `x`; the second begins with three
backticks and is not a fence alone on its line. -/
theorem normalizeFences_counterexample :
    ¬ ∀ l ∈ Split (ReplaceAllString closeCodefence
        (ReplaceAllString openCodefence "``````x".toList "```\n".toList) "$1\n```".toList) '\n',
      (fence <+: l ∨ fence <:+ l) → l = fence := by
  decide

/-- C10 (amended): the open-fence pass works line by line: a line that begins with three
backticks, whatever follows them (more backticks included), gets a newline right after its
first three backticks, and every other line is left as it is; `[3 backticks]python` becomes
`[3 backticks]`, newline, `python`. -/
theorem openFence_lines :
    (∀ s : Str, ReplaceAllString openCodefence s "```\n".toList =
      Join ((Split s '\n').map openLine) '\n') ∧
    (∀ l : Str, fence <+: l → openLine l = fence ++ "\n".toList ++ l.drop 3) ∧
    (∀ l : Str, ¬ fence <+: l → openLine l = l) ∧
    ReplaceAllString openCodefence "```python".toList "```\n".toList = "```\npython".toList := by
  refine ⟨open_pass_lines, ?_, ?_, by decide⟩
  · intro l hl
    simp [openLine, List.isPrefixOf_iff_prefix.mpr hl]
  · intro l hl
    have : ¬ fence.isPrefixOf l = true := fun h => hl (List.isPrefixOf_iff_prefix.mp h)
    simp [openLine, this]

/-- C10 fails as stated: a line of four backticks begins with more than three backticks, and the
open-fence pass does not leave it unchanged: it breaks it after the third. -/
theorem openFence_counterexample :
    ReplaceAllString openCodefence "````".toList "```\n".toList = "```\n`".toList ∧
      ReplaceAllString openCodefence "````".toList "```\n".toList ≠ "````".toList := by
  decide

/-! ## Ordering of instants and the sort step -/

theorem Before_asymm (t u : Time) (h : t.Before u = true) : u.Before t = false := by
  simp only [Time.Before, Bool.or_eq_true, Bool.and_eq_true, decide_eq_true_eq] at h
  simp only [Time.Before, Bool.or_eq_false_iff, Bool.and_eq_false_iff, decide_eq_false_iff_not]
  omega

theorem Before_negTrans (a b c : Time) (h1 : a.Before b = false) (h2 : b.Before c = false) :
    a.Before c = false := by
  simp only [Time.Before, Bool.or_eq_false_iff, Bool.and_eq_false_iff,
    decide_eq_false_iff_not] at h1 h2 ⊢
  omega

theorem insertLeft_perm {α : Type} (less : α → α → Bool) (x : α) (rev : List α) :
    (insertLeft less x rev).Perm (x :: rev) := by
  induction rev with
  | nil => exact List.Perm.refl _
  | cons y rev ih =>
    simp only [insertLeft]
    split
    · exact (List.Perm.cons y ih).trans (List.Perm.swap x y rev)
    · exact List.Perm.refl _

theorem insertLeft_pairwise {α : Type} (less : α → α → Bool)
    (hasym : ∀ a b, less a b = true → less b a = false)
    (hneg : ∀ a b c, less a b = false → less b c = false → less a c = false)
    (x : α) (rev : List α) (h : rev.Pairwise (fun a b => less a b = false)) :
    (insertLeft less x rev).Pairwise (fun a b => less a b = false) := by
  induction rev with
  | nil => simp [insertLeft]
  | cons y rev ih =>
    rw [List.pairwise_cons] at h
    simp only [insertLeft]
    split
    · rename_i hxy
      rw [List.pairwise_cons]
      refine ⟨?_, ih h.2⟩
      intro z hz
      rcases List.mem_cons.mp ((insertLeft_perm less x rev).mem_iff.mp hz) with hz | hz
      · subst hz; exact hasym _ _ hxy
      · exact h.1 z hz
    · rename_i hxy
      have hxy2 : less x y = false := by simpa using hxy
      rw [List.pairwise_cons]
      refine ⟨?_, List.pairwise_cons.mpr h⟩
      intro z hz
      rcases List.mem_cons.mp hz with hz | hz
      · subst hz; exact hxy2
      · exact hneg x y z hxy2 (h.1 z hz)

theorem foldl_insertLeft_perm {α : Type} (less : α → α → Bool) (xs acc : List α) :
    (xs.foldl (fun rev x => insertLeft less x rev) acc).Perm (xs ++ acc) := by
  induction xs generalizing acc with
  | nil => exact List.Perm.refl _
  | cons x xs ih =>
    simp only [List.foldl_cons]
    refine (ih _).trans ?_
    refine (List.Perm.append_left xs (insertLeft_perm less x acc)).trans ?_
    simp

theorem foldl_insertLeft_pairwise {α : Type} (less : α → α → Bool)
    (hasym : ∀ a b, less a b = true → less b a = false)
    (hneg : ∀ a b c, less a b = false → less b c = false → less a c = false)
    (xs acc : List α) (h : acc.Pairwise (fun a b => less a b = false)) :
    (xs.foldl (fun rev x => insertLeft less x rev) acc).Pairwise (fun a b => less a b = false) := by
  induction xs generalizing acc with
  | nil => exact h
  | cons x xs ih => exact ih _ (insertLeft_pairwise less hasym hneg x acc h)

theorem insertionSortLess_sorts : SortsSlice insertionSortLess where
  perm := by
    intro less xs
    unfold insertionSortLess
    refine (List.reverse_perm _).trans ?_
    simpa using foldl_insertLeft_perm less xs []
  sorted := by
    intro less xs hasym hneg
    unfold insertionSortLess
    rw [List.pairwise_reverse]
    exact foldl_insertLeft_pairwise less hasym hneg xs [] List.Pairwise.nil

/-! ## The first loop -/

theorem timesLoop_ok {ε : Type} (instant : Str → Time) (msgs : List Message)
    (m0 : Str → Time)
    (hparse : ∀ m ∈ msgs, parseUnixTimestamp (ε := ε) m.Ts = (some (instant m.Ts), none)) :
    ∃ msgTimes, timesLoop (ε := ε) msgs m0 = .returned (msgTimes, none) ∧
      (∀ m ∈ msgs, msgTimes m.Ts = instant m.Ts) ∧
      (∀ k, (∀ m ∈ msgs, m.Ts ≠ k) → msgTimes k = m0 k) := by
  induction msgs generalizing m0 with
  | nil => exact ⟨m0, rfl, by simp, by simp⟩
  | cons x rest ih =>
    obtain ⟨mt, h1, h2, h3⟩ := ih (Function.update m0 x.Ts (instant x.Ts))
      (fun m hm => hparse m (List.mem_cons_of_mem _ hm))
    refine ⟨mt, ?_, ?_, ?_⟩
    · rw [timesLoop, hparse x (by simp)]
      exact h1
    · intro m hm
      rcases List.mem_cons.mp hm with hm | hm
      · subst hm
        by_cases hin : ∀ y ∈ rest, y.Ts ≠ m.Ts
        · rw [h3 m.Ts hin]; simp
        · push_neg at hin
          obtain ⟨y, hy, hyk⟩ := hin
          rw [← hyk]; exact h2 y hy
      · exact h2 m hm
    · intro k hk
      rw [h3 k (fun m hm => hk m (List.mem_cons_of_mem _ hm))]
      have : k ≠ x.Ts := fun e => hk x (by simp) e.symm
      simp [Function.update, this]

theorem timesLoop_fails {ε : Type} (instant : Str → Time) (good : List Message) (bad : Message)
    (rest : List Message) (m0 : Str → Time) (tm : Option Time) (err : GoError ε)
    (hgood : ∀ m ∈ good, parseUnixTimestamp (ε := ε) m.Ts = (some (instant m.Ts), none))
    (hbad : parseUnixTimestamp (ε := ε) bad.Ts = (tm, some err)) :
    ∃ msgTimes, timesLoop (ε := ε) (good ++ bad :: rest) m0 = .returned (msgTimes, some err) := by
  induction good generalizing m0 with
  | nil => exact ⟨m0, by rw [List.nil_append, timesLoop, hbad]; cases tm <;> rfl⟩
  | cons x good ih =>
    obtain ⟨mt, h⟩ := ih (Function.update m0 x.Ts (instant x.Ts))
      (fun m hm => hgood m (List.mem_cons_of_mem _ hm))
    exact ⟨mt, by rw [List.cons_append, timesLoop, hgood x (by simp)]; exact h⟩

/-! ## Providers that answer from a table of names -/

theorem afterCalls_append {σ ε : Type} (client : UserProvider σ ε) (a b : List Str) (st : σ) :
    afterCalls client (a ++ b) st = afterCalls client b (afterCalls client a st) := by
  simp [afterCalls, List.foldl_append]

theorem answers_eq {σ ε : Type} (client : UserProvider σ ε) (names : Str → Str)
    (h : Answers client names) (id : Str) (st : σ) :
    client id st = ((names id, none), (client id st).2) := by
  have := h id st
  rw [← this]

theorem interpolateLoop_answers {σ ε : Type} (client : UserProvider σ ε) (names : Str → Str)
    (h : Answers client names) (s : Str) (locs : List (Nat × Nat)) (last : Nat) (out : Str)
    (st : σ) :
    interpolateLoop client s locs last out st =
      (((interpolateLoop (namesProvider names) s locs last out ()).1.1, none),
        afterCalls client (locs.map (fun loc => slice s (loc.1 + 2) (loc.2 - 1))) st) := by
  induction locs generalizing last out st with
  | nil => rfl
  | cons loc locs ih =>
    obtain ⟨start, stop⟩ := loc
    rw [interpolateLoop, answers_eq client names h]
    simp only []
    rw [ih]
    rfl

theorem interpolateUsers_answers {σ ε : Type} (client : UserProvider σ ε) (names : Str → Str)
    (h : Answers client names) (s : Str) (st : σ) :
    interpolateUsers client s st =
      (((interpolateUsers (namesProvider names) s ()).1.1, none),
        afterCalls client (mentionIDs s) st) :=
  interpolateLoop_answers client names h s _ 0 [] st

theorem quoteLines_append (b : Str) (lines : List Str) :
    quoteLines b lines = b ++ quoteLines [] lines := by
  induction lines generalizing b with
  | nil => simp [quoteLines]
  | cons l lines ih =>
    rw [quoteLines, ih, quoteLines, ih ([] ++ "> ".toList ++ l ++ "\n".toList)]
    simp

theorem convert_answers {σ ε : Type} (client : UserProvider σ ε) (names : Str → Str)
    (h : Answers client names) (b s : Str) (st : σ) :
    convert client b s st =
      ((b ++ quoted names s, none), afterCalls client (mentionIDs s) st) := by
  have hn : Answers (namesProvider names) names := fun _ _ => rfl
  have e1 := interpolateUsers_answers (namesProvider names) names hn s ()
  simp only [convert, quoted]
  rw [interpolateUsers_answers client names h s st, e1]
  simp only []
  rw [quoteLines_append]

theorem attachmentsLoop_answers {σ ε : Type} (client : UserProvider σ ε) (names : Str → Str)
    (h : Answers client names) (atts : List Attachment) (b : Str) (st : σ) :
    attachmentsLoop client atts b st =
      ((b ++ atts.flatMap (fun a => quoted names a.Text), none),
        afterCalls client (atts.flatMap (fun a => mentionIDs a.Text)) st) := by
  induction atts generalizing b st with
  | nil => simp [attachmentsLoop, afterCalls]
  | cons a atts ih =>
    rw [attachmentsLoop, convert_answers client names h]
    simp only []
    rw [ih]
    simp [afterCalls_append]

theorem authorOf_answers {σ ε : Type} (client : UserProvider σ ε) (names : Str → Str)
    (h : Answers client names) (message : Message) (st : σ) :
    authorOf client message st =
      ((authorName names message, none),
        afterCalls client (if message.User ≠ [] then [message.User] else []) st) := by
  unfold authorOf authorName
  by_cases hu : message.User = []
  · by_cases hb : message.BotID = []
    · simp [hu, hb, afterCalls]
    · simp [hu, hb, afterCalls]
  · simp only [ne_eq, hu, not_false_eq_true, if_true]
    rw [answers_eq client names h]
    rfl

theorem messagesLoop_answers {σ ε : Type} (layout : Time → Str) (team channelID : Str)
    (client : UserProvider σ ε) (names : Str → Str) (h : Answers client names)
    (msgTimes : Str → Time) (firstMessage : Message) (msgs : List Message) (b : Str) (st : σ) :
    messagesLoop layout team channelID client msgTimes firstMessage msgs b st =
      ((b ++ msgs.flatMap (blockOf layout team channelID names msgTimes firstMessage), none),
        afterCalls client (msgs.flatMap callsFor) st) := by
  induction msgs generalizing b st with
  | nil => simp [messagesLoop, afterCalls]
  | cons m msgs ih =>
    rw [messagesLoop, authorOf_answers client names h]
    simp only []
    by_cases ht : m.Text = []
    · simp only [ne_eq, ht, not_true_eq_false, if_false]
      rw [attachmentsLoop_answers client names h]
      simp only []
      rw [ih]
      simp [blockOf, bodyOf, callsFor, ht, afterCalls_append]
    · simp only [ne_eq, ht, not_false_eq_true, if_true]
      rw [convert_answers client names h]
      simp only []
      rw [attachmentsLoop_answers client names h]
      simp only []
      rw [ih]
      simp [blockOf, bodyOf, callsFor, ht, afterCalls_append]

theorem flatMap_congr_mem {α β : Type} (l : List α) (f g : α → List β)
    (h : ∀ x ∈ l, f x = g x) : l.flatMap f = l.flatMap g := by
  induction l with
  | nil => rfl
  | cons x l ih =>
    simp only [List.flatMap_cons]
    rw [h x (by simp), ih (fun y hy => h y (by simp [hy]))]

theorem FromMessages_sorted {σ ε : Type}
    (sortSlice : (Message → Message → Bool) → List Message → List Message)
    (layout : Time → Str) (team channelID : Str) (client : UserProvider σ ε)
    (history : List Message) (st : σ) (instant : Str → Time)
    (hsort : SortsSlice sortSlice)
    (hparse : ∀ m ∈ history, parseUnixTimestamp (ε := ε) m.Ts = (some (instant m.Ts), none))
    (hne : history ≠ []) :
    ∃ msgTimes anchor rest, (∀ m ∈ history, msgTimes m.Ts = instant m.Ts) ∧
      (anchor :: rest).Perm history ∧
      (anchor :: rest).Pairwise (fun a b => (instant b.Ts).Before (instant a.Ts) = false) ∧
      FromMessages sortSlice layout team channelID client history st =
        finish (anchor :: rest)
          (messagesLoop layout team channelID client msgTimes anchor (anchor :: rest) [] st) := by
  obtain ⟨mt, h1, h2, -⟩ := timesLoop_ok instant history (fun _ => Time.zero) hparse
  have hperm := hsort.perm (fun a b => (mt a.Ts).Before (mt b.Ts)) history
  have hsorted := hsort.sorted (fun a b => (mt a.Ts).Before (mt b.Ts)) history
    (fun a b => Before_asymm _ _) (fun a b c => Before_negTrans _ _ _)
  cases hs : sortSlice (fun a b => (mt a.Ts).Before (mt b.Ts)) history with
  | nil =>
    rw [hs] at hperm
    exact absurd (List.Perm.nil_eq hperm).symm hne
  | cons anchor rest =>
    rw [hs] at hperm hsorted
    refine ⟨mt, anchor, rest, h2, hperm, ?_, ?_⟩
    · refine hsorted.imp_of_mem ?_
      intro a b ha hb hab
      rw [← h2 a (hperm.mem_iff.mp ha), ← h2 b (hperm.mem_iff.mp hb)]
      exact hab
    · unfold FromMessages
      rw [h1]
      simp only [hs]
      unfold finish
      rcases messagesLoop layout team channelID client mt anchor (anchor :: rest) [] st with
        ⟨⟨b, _ | e⟩, st1⟩ <;> rfl

theorem Before_irrefl (t : Time) : t.Before t = false := by
  cases h : t.Before t with
  | false => rfl
  | true => rw [Before_asymm t t h] at h; exact absurd h (by simp)

theorem finish_messages {σ ε : Type} (messages : List Message)
    (x : (Str × Option (GoError ε)) × σ) :
    ∃ r, finish messages x = .returned r ∧ r.messages = messages ∧ r.err = x.1.2 ∧
      r.st = x.2 ∧ (r.err ≠ none → r.doc = []) := by
  obtain ⟨⟨b, _ | e⟩, st1⟩ := x
  · exact ⟨_, rfl, rfl, rfl, rfl, fun h => absurd rfl h⟩
  · exact ⟨_, rfl, rfl, rfl, rfl, fun _ => rfl⟩

/-- C2: for a non-empty thread whose identifiers all parse, whatever the provider does,
`FromMessages` leaves in `history.Messages` (the sequence its second loop iterates) a
rearrangement of the input messages in which no message has an instant before that of a
message in front of it; in particular every adjacent pair is in ascending order.  Messages with
the identifiers `2.0` and `1.0`, in that order, end up in the order `1.0`, `2.0`. -/
theorem FromMessages_sort_step {σ ε : Type}
    (sortSlice : (Message → Message → Bool) → List Message → List Message)
    (layout : Time → Str) (team channelID : Str) (client : UserProvider σ ε)
    (hsort : SortsSlice sortSlice) :
    (∀ (history : List Message) (st : σ) (instant : Str → Time),
      (∀ m ∈ history, parseUnixTimestamp (ε := ε) m.Ts = (some (instant m.Ts), none)) →
      history ≠ [] →
      ∃ r, FromMessages sortSlice layout team channelID client history st = .returned r ∧
        r.messages.Perm history ∧
        r.messages.Pairwise (fun a b => (instant b.Ts).Before (instant a.Ts) = false) ∧
        r.messages.Chain' (fun a b => (instant b.Ts).Before (instant a.Ts) = false)) ∧
    (∀ (a b : Message) (st : σ), a.Ts = "2.0".toList → b.Ts = "1.0".toList →
      ∃ r, FromMessages sortSlice layout team channelID client [a, b] st = .returned r ∧
        r.messages = [b, a]) := by
  have main : ∀ (history : List Message) (st : σ) (instant : Str → Time),
      (∀ m ∈ history, parseUnixTimestamp (ε := ε) m.Ts = (some (instant m.Ts), none)) →
      history ≠ [] →
      ∃ r, FromMessages sortSlice layout team channelID client history st = .returned r ∧
        r.messages.Perm history ∧
        r.messages.Pairwise (fun a b => (instant b.Ts).Before (instant a.Ts) = false) ∧
        r.messages.Chain' (fun a b => (instant b.Ts).Before (instant a.Ts) = false) := by
    intro history st instant hparse hne
    obtain ⟨mt, anchor, rest, -, hperm, hsorted, hrun⟩ :=
      FromMessages_sorted sortSlice layout team channelID client history st instant hsort
        hparse hne
    obtain ⟨r, hr, hm, -⟩ := finish_messages (anchor :: rest)
      (messagesLoop layout team channelID client mt anchor (anchor :: rest) [] st)
    refine ⟨r, by rw [hrun, hr], by rw [hm]; exact hperm, by rw [hm]; exact hsorted, ?_⟩
    rw [hm]
    exact List.Pairwise.chain' hsorted
  refine ⟨main, ?_⟩
  intro a b st ha hb
  have hparse : ∀ m ∈ [a, b], parseUnixTimestamp (ε := ε) m.Ts = (some (instantOf m.Ts), none) := by
    intro m hm
    simp only [List.mem_cons, List.mem_singleton, List.not_mem_nil, or_false] at hm
    rcases hm with h | h
    · rw [h, ha]; rfl
    · rw [h, hb]; rfl
  obtain ⟨r, hr, hperm, hsorted, -⟩ := main [a, b] st instantOf hparse (by simp)
  refine ⟨r, hr, ?_⟩
  have hab : a ≠ b := by
    intro h
    rw [h, hb] at ha
    exact absurd ha (by decide)
  have hlen := hperm.length_eq
  match hm : r.messages, hlen with
  | [x, y], _ =>
    rw [hm] at hperm hsorted
    have hx : x ∈ [a, b] := hperm.mem_iff.mp (by simp)
    have hy : y ∈ [a, b] := hperm.mem_iff.mp (by simp)
    have ha2 : a ∈ [x, y] := hperm.mem_iff.mpr (by simp)
    have hb2 : b ∈ [x, y] := hperm.mem_iff.mpr (by simp)
    simp only [List.mem_cons, List.mem_singleton, List.not_mem_nil, or_false] at hx hy ha2 hb2
    have hxy : (instantOf y.Ts).Before (instantOf x.Ts) = false := by
      simpa using hsorted
    rcases hx with hx | hx <;> rcases hy with hy | hy
    · subst hx; subst hy
      rcases hb2 with h | h <;> exact absurd h.symm hab
    · subst hx; subst hy
      rw [ha, hb] at hxy
      exact absurd hxy (by decide)
    · subst hx; subst hy; rfl
    · subst hx; subst hy
      rcases ha2 with h | h <;> exact absurd h hab

/-- The example thread, run with the insertion sort of short slices: the order of the
identifiers after the call is `1.0`, `2.0`. -/
theorem FromMessages_sort_step_witness :
    ∃ r, FromMessages insertionSortLess (fun _ => "T".toList) "acme".toList "C1".toList
        (namesProvider exampleNames) exampleThread () = .returned r ∧
      r.messages.map (fun m => m.Ts) = ["1.0".toList, "2.0".toList] ∧
      r.messages.Perm exampleThread ∧
      r.messages.Pairwise (fun a b => (instantOf b.Ts).Before (instantOf a.Ts) = false) := by
  obtain ⟨r, h1, h2, h3, -⟩ := (FromMessages_sort_step insertionSortLess (fun _ => "T".toList)
    "acme".toList "C1".toList (namesProvider exampleNames) insertionSortLess_sorts).1
    exampleThread () instantOf (by decide) (by decide)
  obtain ⟨r2, h4, h5⟩ := (FromMessages_sort_step insertionSortLess (fun _ => "T".toList)
    "acme".toList "C1".toList (namesProvider exampleNames) insertionSortLess_sorts).2
    ⟨"2.0".toList, "U1".toList, [], "hello <@U2>".toList, []⟩
    ⟨"1.0".toList, [], "B1".toList, [], []⟩ () rfl rfl
  have : r2 = r := by
    have := h4.symm.trans h1
    exact Outcome.returned.inj this
  subst this
  exact ⟨r2, h1, by rw [h5]; rfl, h2, h3⟩

theorem answers_recording {σ ε : Type} (client : UserProvider σ ε) (names : Str → Str)
    (h : Answers client names) : Answers (recording client) names := by
  intro id st
  simp only [recording]
  exact h id st.1

theorem afterCalls_recording {σ ε : Type} (client : UserProvider σ ε) (names : Str → Str)
    (h : Answers client names) (ids : List Str) (st : σ)
    (log : List (Str × Option (GoError ε))) :
    afterCalls (recording client) ids (st, log) =
      (afterCalls client ids st, log ++ ids.map (fun id => (id, none))) := by
  induction ids generalizing st log with
  | nil => simp [afterCalls]
  | cons id ids ih =>
    have e : afterCalls (recording client) (id :: ids) (st, log) =
        afterCalls (recording client) ids ((client id st).2, log ++ [(id, none)]) := by
      simp only [afterCalls, List.foldl_cons, recording, h id st]
    rw [e, ih]
    simp [afterCalls]

/-! ## Providers that never fail -/

theorem interpolateLoop_neverFails {σ ε : Type} (client : UserProvider σ ε)
    (h : NeverFails client) (s : Str) (locs : List (Nat × Nat)) (last : Nat) (out : Str)
    (st : σ) : (interpolateLoop client s locs last out st).1.2 = none := by
  induction locs generalizing last out st with
  | nil => rfl
  | cons loc locs ih =>
    obtain ⟨start, stop⟩ := loc
    rw [interpolateLoop]
    have := h (slice s (start + 2) (stop - 1)) st
    rcases hc : client (slice s (start + 2) (stop - 1)) st with ⟨⟨username, _ | err⟩, st1⟩
    · exact ih _ _ _
    · rw [hc] at this; exact absurd this (by simp)

theorem convert_builder {σ ε : Type} (client : UserProvider σ ε) (h : NeverFails client)
    (b s : Str) (st : σ) :
    convert client b s st =
      ((b ++ (convert client [] s st).1.1, none), (convert client [] s st).2) := by
  have hok := interpolateLoop_neverFails client h s (FindAllStringIndex userRE s) 0 [] st
  unfold convert interpolateUsers
  rcases hr : interpolateLoop client s (FindAllStringIndex userRE s) 0 [] st with
    ⟨⟨text, _ | err⟩, st1⟩
  · simp only []
    rw [quoteLines_append]
  · rw [hr] at hok; exact absurd hok (by simp)

theorem attachmentsLoop_builder {σ ε : Type} (client : UserProvider σ ε)
    (h : NeverFails client) (atts : List Attachment) (b : Str) (st : σ) :
    attachmentsLoop client atts b st =
      ((b ++ (attachmentsLoop client atts [] st).1.1, none),
        (attachmentsLoop client atts [] st).2) := by
  induction atts generalizing b st with
  | nil => simp [attachmentsLoop]
  | cons a atts ih =>
    rw [attachmentsLoop, attachmentsLoop, convert_builder client h b a.Text st,
      convert_builder client h [] a.Text st]
    simp only [List.nil_append]
    rw [ih (b ++ _), ih (convert client [] a.Text st).1.1]
    simp

theorem bodyRun_builder {σ ε : Type} (client : UserProvider σ ε) (h : NeverFails client)
    (message : Message) (b : Str) (st : σ) :
    bodyRun client message b st =
      ((b ++ (bodyRun client message [] st).1.1, none), (bodyRun client message [] st).2) := by
  unfold bodyRun
  by_cases ht : message.Text = []
  · simp only [ne_eq, ht, not_true_eq_false, if_false]
    exact attachmentsLoop_builder client h _ b st
  · simp only [ne_eq, ht, not_false_eq_true, if_true]
    rw [convert_builder client h b, convert_builder client h []]
    simp only [List.nil_append]
    rw [attachmentsLoop_builder client h _ (b ++ _),
      attachmentsLoop_builder client h _ (convert client [] message.Text st).1.1]
    simp

theorem authorOf_neverFails {σ ε : Type} (client : UserProvider σ ε) (h : NeverFails client)
    (message : Message) (st : σ) :
    authorOf client message st =
      (((authorOf client message st).1.1, none), (authorOf client message st).2) := by
  unfold authorOf
  split
  · have := h message.User st
    rcases hc : client message.User st with ⟨⟨username, _ | err⟩, st1⟩
    · rfl
    · rw [hc] at this; exact absurd this (by simp)
  · split <;> rfl

theorem messagesLoop_body {σ ε : Type} (layout : Time → Str) (team channelID : Str)
    (client : UserProvider σ ε) (msgTimes : Str → Time) (firstMessage message : Message)
    (rest : List Message) (b : Str) (st : σ) :
    messagesLoop layout team channelID client msgTimes firstMessage (message :: rest) b st =
      match authorOf client message st with
      | ((_, some err), st1) => (([], some err), st1)
      | ((username, none), st1) =>
        match bodyRun client message (b ++ "> ".toList ++ formatUserProfile username ++
            " at [".toList ++ layout (msgTimes message.Ts) ++ "](".toList ++
            formatLinkToMessage team channelID firstMessage message ++ ")\n>\n".toList) st1 with
        | ((_, some err), st3) => (([], some err), st3)
        | ((b3, none), st3) =>
          messagesLoop layout team channelID client msgTimes firstMessage rest
            (b3 ++ "\n".toList) st3 := by
  rw [messagesLoop]
  rcases authorOf client message st with ⟨⟨username, _ | err⟩, st1⟩
  · simp only [bodyRun]
    generalize (if message.Text ≠ [] then _ else _ :
      (Str × Option (GoError ε)) × σ) = r
    rcases r with ⟨⟨b2, _ | err⟩, st2⟩
    · rfl
    · rfl
  · rfl

theorem messagesLoop_parts {σ ε : Type} (layout : Time → Str) (team channelID : Str)
    (client : UserProvider σ ε) (h : NeverFails client) (msgTimes : Str → Time)
    (firstMessage : Message) (msgs : List Message) (b : Str) (st : σ) :
    messagesLoop layout team channelID client msgTimes firstMessage msgs b st =
      ((b ++ (msgs.zip (partsOf client msgs st)).flatMap (fun x =>
          "> ".toList ++ formatUserProfile x.2.1 ++ " at [".toList ++
            layout (msgTimes x.1.Ts) ++ "](".toList ++
            formatLinkToMessage team channelID firstMessage x.1 ++ ")\n>\n".toList ++
            x.2.2 ++ "\n".toList), none),
        stateAfter client msgs st) := by
  induction msgs generalizing b st with
  | nil => simp [messagesLoop, partsOf, stateAfter]
  | cons m msgs ih =>
    rw [messagesLoop_body, authorOf_neverFails client h m st]
    simp only []
    rw [bodyRun_builder client h m]
    simp only []
    rw [ih]
    simp [partsOf, stateAfter]

theorem partsOf_length {σ ε : Type} (client : UserProvider σ ε) (msgs : List Message) (st : σ) :
    (partsOf client msgs st).length = msgs.length := by
  induction msgs generalizing st with
  | nil => rfl
  | cons m msgs ih => simp [partsOf, ih]

/-- C1: for a non-empty thread whose identifiers all parse and a provider that never fails,
`FromMessages` returns one block for each message of the sorted sequence, in order, and the
header of the block of a message `m` carries the permalink
`https://<team>.slack.com/archives/<channel>/p<anchor.Ts>?thread_ts=<m.Ts>&cid=<channel>`,
where `anchor` is the message at position 0 of the sorted sequence, whatever the order of the
input: no message of the thread has an instant before the anchor's.  (`x.1` is the message of
a block, `x.2` the author name and the body the provider's answers give it.) -/
theorem FromMessages_permalink {σ ε : Type}
    (sortSlice : (Message → Message → Bool) → List Message → List Message)
    (layout : Time → Str) (team channelID : Str) (client : UserProvider σ ε)
    (history : List Message) (st : σ) (instant : Str → Time)
    (hsort : SortsSlice sortSlice)
    (hparse : ∀ m ∈ history, parseUnixTimestamp (ε := ε) m.Ts = (some (instant m.Ts), none))
    (hne : history ≠ []) (hres : NeverFails client) :
    ∃ anchor rest, (anchor :: rest).Perm history ∧
      (∀ m ∈ history, (instant m.Ts).Before (instant anchor.Ts) = false) ∧
      (partsOf client (anchor :: rest) st).length = (anchor :: rest).length ∧
      FromMessages sortSlice layout team channelID client history st =
        .returned ⟨((anchor :: rest).zip (partsOf client (anchor :: rest) st)).flatMap
          (fun x =>
            "> ".toList ++ formatUserProfile x.2.1 ++ " at [".toList ++
              layout (instant x.1.Ts) ++ "](".toList ++
              ("https://".toList ++ team ++ ".slack.com/archives/".toList ++ channelID ++
                "/p".toList ++ anchor.Ts ++ "?thread_ts=".toList ++ x.1.Ts ++
                "&cid=".toList ++ channelID) ++
              ")\n>\n".toList ++ x.2.2 ++ "\n".toList),
          none, anchor :: rest, stateAfter client (anchor :: rest) st⟩ := by
  obtain ⟨mt, anchor, rest, h2, hperm, hsorted, hrun⟩ :=
    FromMessages_sorted sortSlice layout team channelID client history st instant hsort hparse hne
  refine ⟨anchor, rest, hperm, ?_, partsOf_length client _ st, ?_⟩
  · intro m hm
    rcases List.mem_cons.mp (hperm.mem_iff.mpr hm) with h | h
    · subst h; exact Before_irrefl _
    · exact (List.pairwise_cons.mp hsorted).1 m h
  · rw [hrun, messagesLoop_parts layout team channelID client hres]
    have hdoc := flatMap_congr_mem ((anchor :: rest).zip (partsOf client (anchor :: rest) st))
      (fun x =>
        "> ".toList ++ formatUserProfile x.2.1 ++ " at [".toList ++
          layout (mt x.1.Ts) ++ "](".toList ++
          formatLinkToMessage team channelID anchor x.1 ++ ")\n>\n".toList ++
          x.2.2 ++ "\n".toList) _
      (fun x hx => by
        simp only [formatLinkToMessage,
          h2 x.1 (hperm.mem_iff.mp (List.of_mem_zip (a := x.1) (b := x.2) hx).1)]
        exact rfl)
    simp only [finish, List.nil_append]
    rw [hdoc]

set_option maxRecDepth 100000 in
/-- In the example thread the anchor is the message `1.0`, the second of the input, and both
permalinks carry `p1.0`. -/
theorem FromMessages_permalink_witness :
    (∃ anchor rest, (anchor :: rest).Perm exampleThread ∧
      (∀ m ∈ exampleThread, (instantOf m.Ts).Before (instantOf anchor.Ts) = false) ∧
      (partsOf (namesProvider exampleNames) (anchor :: rest) ()).length =
        (anchor :: rest).length ∧
      FromMessages insertionSortLess (fun _ => "T".toList) "acme".toList "C1".toList
          (namesProvider exampleNames) exampleThread () =
        .returned ⟨((anchor :: rest).zip
            (partsOf (namesProvider exampleNames) (anchor :: rest) ())).flatMap
          (fun x =>
            "> ".toList ++ formatUserProfile x.2.1 ++ " at [".toList ++
              "T".toList ++ "](".toList ++
              ("https://".toList ++ "acme".toList ++ ".slack.com/archives/".toList ++
                "C1".toList ++ "/p".toList ++ anchor.Ts ++ "?thread_ts=".toList ++ x.1.Ts ++
                "&cid=".toList ++ "C1".toList) ++
              ")\n>\n".toList ++ x.2.2 ++ "\n".toList),
          none, anchor :: rest, stateAfter (namesProvider exampleNames) (anchor :: rest) ()⟩) ∧
    (match FromMessages insertionSortLess (fun _ => "T".toList) "acme".toList "C1".toList
        (namesProvider exampleNames) exampleThread () with
      | .returned r => r.doc
      | .panicked => []) =
      ("> [<img src=\"https://github.com/bot B1.png?size=25\" align=\"left\" /> **bot B1**]" ++
        "(https://github.com/bot B1) at [T]" ++
        "(https://acme.slack.com/archives/C1/p1.0?thread_ts=1.0&cid=C1)\n>\n\n" ++
        "> [<img src=\"https://github.com/alice.png?size=25\" align=\"left\" /> **alice**]" ++
        "(https://github.com/alice) at [T]" ++
        "(https://acme.slack.com/archives/C1/p1.0?thread_ts=2.0&cid=C1)\n>\n" ++
        "> hello `@bob`\n\n").toList :=
  ⟨FromMessages_permalink insertionSortLess (fun _ => "T".toList) "acme".toList "C1".toList
      (namesProvider exampleNames) exampleThread () instantOf
      insertionSortLess_sorts (by decide) (by decide) (fun _ _ => rfl),
    by rfl⟩

/-! ## Fail-fast -/

theorem FailFast_append {ε : Type} (err : Option (GoError ε))
    (a b : List (Str × Option (GoError ε))) (ha : ∀ x ∈ a, x.2 = none) (hb : FailFast err b) :
    FailFast err (a ++ b) := by
  cases err with
  | none =>
    intro x hx
    rcases List.mem_append.mp hx with h | h
    · exact ha x h
    · exact hb x h
  | some e =>
    obtain ⟨init, id, h1, h2⟩ := hb
    refine ⟨a ++ init, id, by rw [h1, List.append_assoc], ?_⟩
    intro x hx
    rcases List.mem_append.mp hx with h | h
    · exact ha x h
    · exact h2 x h

theorem Extends_trans {σ ε : Type} (log : List (Str × Option (GoError ε)))
    (mid : List (Str × Option (GoError ε)))
    (r : (Str × Option (GoError ε)) × (σ × List (Str × Option (GoError ε))))
    (h1 : ∃ a, mid = log ++ a ∧ ∀ x ∈ a, x.2 = none) (h2 : Extends mid r) : Extends log r := by
  obtain ⟨a, ha, ha2⟩ := h1
  obtain ⟨b, hb, hb2⟩ := h2
  exact ⟨a ++ b, by rw [hb, ha, List.append_assoc], FailFast_append _ a b ha2 hb2⟩

theorem Extends_ok {σ ε : Type} (log : List (Str × Option (GoError ε)))
    (r : (Str × Option (GoError ε)) × (σ × List (Str × Option (GoError ε))))
    (h : Extends log r) (hr : r.1.2 = none) : ∃ a, r.2.2 = log ++ a ∧ ∀ x ∈ a, x.2 = none := by
  obtain ⟨a, ha, ha2⟩ := h
  rw [hr] at ha2
  exact ⟨a, ha, ha2⟩

theorem interpolateLoop_extends {σ ε : Type} (client : UserProvider σ ε) (s : Str)
    (locs : List (Nat × Nat)) (last : Nat) (out : Str) (st : σ)
    (log : List (Str × Option (GoError ε))) :
    Extends log (interpolateLoop (recording client) s locs last out (st, log)) := by
  induction locs generalizing last out st log with
  | nil => exact ⟨[], by simp [interpolateLoop], by simp [interpolateLoop, FailFast]⟩
  | cons loc locs ih =>
    obtain ⟨start, stop⟩ := loc
    rw [interpolateLoop]
    rcases hc : client (slice s (start + 2) (stop - 1)) st with ⟨⟨username, _ | err⟩, st1⟩
    · have e : recording client (slice s (start + 2) (stop - 1)) (st, log) =
          ((username, none), (st1, log ++ [(slice s (start + 2) (stop - 1), none)])) := by
        simp [recording, hc]
      rw [e]
      exact Extends_trans log _ _ ⟨_, rfl, by simp⟩ (ih _ _ _ _)
    · have e : recording client (slice s (start + 2) (stop - 1)) (st, log) =
          ((username, some err), (st1, log ++ [(slice s (start + 2) (stop - 1), some err)])) := by
        simp [recording, hc]
      rw [e]
      exact ⟨[(slice s (start + 2) (stop - 1), some err)], rfl, [], _, rfl, by simp⟩

theorem convert_extends {σ ε : Type} (client : UserProvider σ ε) (b s : Str) (st : σ)
    (log : List (Str × Option (GoError ε))) :
    Extends log (convert (recording client) b s (st, log)) := by
  have h := interpolateLoop_extends client s (FindAllStringIndex userRE s) 0 [] st log
  unfold convert interpolateUsers
  rcases hr : interpolateLoop (recording client) s (FindAllStringIndex userRE s) 0 [] (st, log)
    with ⟨⟨text, _ | err⟩, st1⟩
  · rw [hr] at h; exact h
  · rw [hr] at h; exact h

theorem attachmentsLoop_extends {σ ε : Type} (client : UserProvider σ ε)
    (atts : List Attachment) (b : Str) (st : σ) (log : List (Str × Option (GoError ε))) :
    Extends log (attachmentsLoop (recording client) atts b (st, log)) := by
  induction atts generalizing b st log with
  | nil => exact ⟨[], by simp [attachmentsLoop], by simp [attachmentsLoop, FailFast]⟩
  | cons a atts ih =>
    have h := convert_extends client b a.Text st log
    rw [attachmentsLoop]
    rcases hr : convert (recording client) b a.Text (st, log) with ⟨⟨b1, _ | err⟩, ⟨st1, log1⟩⟩
    · rw [hr] at h
      exact Extends_trans log log1 _ (Extends_ok log _ h rfl) (ih _ _ _)
    · rw [hr] at h; exact h

theorem authorOf_extends {σ ε : Type} (client : UserProvider σ ε) (message : Message) (st : σ)
    (log : List (Str × Option (GoError ε))) :
    Extends log (authorOf (recording client) message (st, log)) := by
  unfold authorOf
  split
  · rcases hc : client message.User st with ⟨⟨username, _ | err⟩, st1⟩
    · exact ⟨[(message.User, none)], by simp [recording, hc], by simp [recording, hc, FailFast]⟩
    · exact ⟨[(message.User, some err)], by simp [recording, hc],
        by simp only [recording, hc]; exact ⟨[], _, rfl, by simp⟩⟩
  · split
    · exact ⟨[], by simp, by simp [FailFast]⟩
    · exact ⟨[], by simp, by simp [FailFast]⟩

theorem Extends_congr {σ ε : Type} (log : List (Str × Option (GoError ε)))
    (b1 b2 : Str) (err : Option (GoError ε)) (st : σ × List (Str × Option (GoError ε)))
    (h : Extends log ((b1, err), st)) : Extends log ((b2, err), st) := h

theorem convertIf_extends {σ ε : Type} (client : UserProvider σ ε) (text b : Str) (st : σ)
    (log : List (Str × Option (GoError ε)))
    (r : (Str × Option (GoError ε)) × (σ × List (Str × Option (GoError ε))))
    (h : (if text ≠ [] then convert (recording client) b text (st, log)
      else ((b, none), (st, log))) = r) : Extends log r := by
  subst h
  split
  · exact convert_extends client _ _ st log
  · exact ⟨[], by simp, by simp [FailFast]⟩

theorem messagesLoop_extends {σ ε : Type} (layout : Time → Str) (team channelID : Str)
    (client : UserProvider σ ε) (msgTimes : Str → Time) (firstMessage : Message)
    (msgs : List Message) (b : Str) (st : σ) (log : List (Str × Option (GoError ε))) :
    Extends log
      (messagesLoop layout team channelID (recording client) msgTimes firstMessage msgs b
        (st, log)) := by
  induction msgs generalizing b st log with
  | nil => exact ⟨[], by simp [messagesLoop], by simp [messagesLoop, FailFast]⟩
  | cons m msgs ih =>
    have h1 := authorOf_extends client m st log
    rw [messagesLoop]
    rcases hr1 : authorOf (recording client) m (st, log) with ⟨⟨username, _ | err⟩, ⟨st1, log1⟩⟩
    · rw [hr1] at h1
      have hlog1 := Extends_ok log _ h1 rfl
      simp only []
      split
      · rename_i x err st2 heq
        have h2 := convertIf_extends client _ _ st1 log1 _ heq
        exact Extends_trans log log1 _ hlog1 (Extends_congr log1 _ _ _ _ h2)
      · rename_i b2 st2 heq
        obtain ⟨s2, log2⟩ := st2
        have h2 := convertIf_extends client _ _ st1 log1 _ heq
        have hlog2 := Extends_ok log1 _ h2 rfl
        have h3 := attachmentsLoop_extends client m.Attachments b2 s2 log2
        have hlog12 : ∃ a, log2 = log ++ a ∧ ∀ x ∈ a, x.2 = none := by
          obtain ⟨a1, e1, g1⟩ := hlog1
          obtain ⟨a2, e2, g2⟩ := hlog2
          refine ⟨a1 ++ a2, ?_, ?_⟩
          · simp only [] at e1 e2
            rw [e2, e1, List.append_assoc]
          · intro x hx
            rcases List.mem_append.mp hx with h | h
            · exact g1 x h
            · exact g2 x h
        split
        · rename_i y err st3 heq3
          rw [heq3] at h3
          exact Extends_trans log log2 _ hlog12 (Extends_congr log2 _ _ _ _ h3)
        · rename_i b3 st3 heq3
          obtain ⟨s3, log3⟩ := st3
          rw [heq3] at h3
          have hlog3 := Extends_ok log2 _ h3 rfl
          have hlog13 : ∃ a, log3 = log ++ a ∧ ∀ x ∈ a, x.2 = none := by
            obtain ⟨a1, e1, g1⟩ := hlog12
            obtain ⟨a2, e2, g2⟩ := hlog3
            refine ⟨a1 ++ a2, ?_, ?_⟩
            · simp only [] at e1 e2
              rw [e2, e1, List.append_assoc]
            · intro x hx
              rcases List.mem_append.mp hx with h | h
              · exact g1 x h
              · exact g2 x h
          exact Extends_trans log log3 _ hlog13 (ih _ _ _)
    · rw [hr1] at h1; exact h1

theorem interpolateLoop_unrecorded {σ ε : Type} (client : UserProvider σ ε) (s : Str)
    (locs : List (Nat × Nat)) (last : Nat) (out : Str) (st : σ)
    (log : List (Str × Option (GoError ε))) :
    unrecorded (interpolateLoop (recording client) s locs last out (st, log)) =
      interpolateLoop client s locs last out st := by
  induction locs generalizing last out st log with
  | nil => rfl
  | cons loc locs ih =>
    obtain ⟨start, stop⟩ := loc
    rw [interpolateLoop, interpolateLoop]
    rcases hc : client (slice s (start + 2) (stop - 1)) st with ⟨⟨username, _ | err⟩, st1⟩
    · have e : recording client (slice s (start + 2) (stop - 1)) (st, log) =
          ((username, none), (st1, log ++ [(slice s (start + 2) (stop - 1), none)])) := by
        simp [recording, hc]
      rw [e]
      exact ih _ _ _ _
    · have e : recording client (slice s (start + 2) (stop - 1)) (st, log) =
          ((username, some err), (st1, log ++ [(slice s (start + 2) (stop - 1), some err)])) := by
        simp [recording, hc]
      rw [e]
      rfl

theorem convert_unrecorded {σ ε : Type} (client : UserProvider σ ε) (b s : Str) (st : σ)
    (log : List (Str × Option (GoError ε))) :
    unrecorded (convert (recording client) b s (st, log)) = convert client b s st := by
  have h := interpolateLoop_unrecorded client s (FindAllStringIndex userRE s) 0 [] st log
  unfold convert interpolateUsers
  rcases hr : interpolateLoop (recording client) s (FindAllStringIndex userRE s) 0 [] (st, log)
    with ⟨⟨text, _ | err⟩, ⟨st1, log1⟩⟩
  · rw [hr] at h
    rw [← h]
    rfl
  · rw [hr] at h
    rw [← h]
    rfl

theorem attachmentsLoop_unrecorded {σ ε : Type} (client : UserProvider σ ε)
    (atts : List Attachment) (b : Str) (st : σ) (log : List (Str × Option (GoError ε))) :
    unrecorded (attachmentsLoop (recording client) atts b (st, log)) =
      attachmentsLoop client atts b st := by
  induction atts generalizing b st log with
  | nil => rfl
  | cons a atts ih =>
    have h := convert_unrecorded client b a.Text st log
    rw [attachmentsLoop, attachmentsLoop]
    rcases hr : convert (recording client) b a.Text (st, log) with ⟨⟨b1, _ | err⟩, ⟨st1, log1⟩⟩
    · rw [hr] at h
      rw [← h]
      exact ih _ _ _
    · rw [hr] at h
      rw [← h]
      rfl

theorem authorOf_unrecorded {σ ε : Type} (client : UserProvider σ ε) (message : Message)
    (st : σ) (log : List (Str × Option (GoError ε))) :
    unrecorded (authorOf (recording client) message (st, log)) = authorOf client message st := by
  unfold authorOf
  split
  · rfl
  · split <;> rfl

theorem bodyRun_unrecorded {σ ε : Type} (client : UserProvider σ ε) (message : Message)
    (b : Str) (st : σ) (log : List (Str × Option (GoError ε))) :
    unrecorded (bodyRun (recording client) message b (st, log)) = bodyRun client message b st := by
  unfold bodyRun
  by_cases ht : message.Text = []
  · simp only [ne_eq, ht, not_true_eq_false, if_false]
    exact attachmentsLoop_unrecorded client _ b st log
  · simp only [ne_eq, ht, not_false_eq_true, if_true]
    have h := convert_unrecorded client b message.Text st log
    rcases hr : convert (recording client) b message.Text (st, log) with
      ⟨⟨b1, _ | err⟩, ⟨st1, log1⟩⟩
    · rw [hr] at h
      rw [← h]
      exact attachmentsLoop_unrecorded client _ b1 st1 log1
    · rw [hr] at h
      rw [← h]
      rfl

theorem messagesLoop_unrecorded {σ ε : Type} (layout : Time → Str) (team channelID : Str)
    (client : UserProvider σ ε) (msgTimes : Str → Time) (firstMessage : Message)
    (msgs : List Message) (b : Str) (st : σ) (log : List (Str × Option (GoError ε))) :
    unrecorded (messagesLoop layout team channelID (recording client) msgTimes firstMessage
        msgs b (st, log)) =
      messagesLoop layout team channelID client msgTimes firstMessage msgs b st := by
  induction msgs generalizing b st log with
  | nil => rfl
  | cons m msgs ih =>
    have h1 := authorOf_unrecorded client m st log
    rw [messagesLoop_body, messagesLoop_body]
    rcases hr1 : authorOf (recording client) m (st, log) with ⟨⟨username, _ | err⟩, ⟨st1, log1⟩⟩
    · rw [hr1] at h1
      rw [← h1]
      simp only [unrecorded]
      have h2 := bodyRun_unrecorded client m (b ++ "> ".toList ++ formatUserProfile username ++
        " at [".toList ++ layout (msgTimes m.Ts) ++ "](".toList ++
        formatLinkToMessage team channelID firstMessage m ++ ")\n>\n".toList) st1 log1
      rcases hr2 : bodyRun (recording client) m (b ++ "> ".toList ++
        formatUserProfile username ++ " at [".toList ++ layout (msgTimes m.Ts) ++
        "](".toList ++ formatLinkToMessage team channelID firstMessage m ++
        ")\n>\n".toList) (st1, log1) with ⟨⟨b3, _ | err⟩, ⟨st3, log3⟩⟩
      · rw [hr2] at h2
        rw [← h2]
        exact ih _ _ _
      · rw [hr2] at h2
        rw [← h2]
        rfl
    · rw [hr1] at h1
      rw [← h1]
      rfl

theorem FromMessages_unrecorded {σ ε : Type}
    (sortSlice : (Message → Message → Bool) → List Message → List Message)
    (layout : Time → Str) (team channelID : Str) (client : UserProvider σ ε)
    (history : List Message) (st : σ) (log : List (Str × Option (GoError ε))) :
    FromMessages sortSlice layout team channelID client history st =
      match FromMessages sortSlice layout team channelID (recording client) history (st, log) with
      | .returned r => .returned ⟨r.doc, r.err, r.messages, r.st.1⟩
      | .panicked => .panicked := by
  unfold FromMessages
  rcases timesLoop (ε := ε) history (fun _ => Time.zero) with ⟨mt, _ | err⟩ | _
  · simp only []
    rcases sortSlice (fun a b => (mt a.Ts).Before (mt b.Ts)) history with _ | ⟨anchor, rest⟩
    · rfl
    · simp only []
      have h := messagesLoop_unrecorded layout team channelID client mt anchor (anchor :: rest)
        [] st log
      rcases hr : messagesLoop layout team channelID (recording client) mt anchor
        (anchor :: rest) [] (st, log) with ⟨⟨b, _ | err⟩, ⟨st1, log1⟩⟩
      · rw [hr] at h
        rw [← h]
        rfl
      · rw [hr] at h
        rw [← h]
        rfl
  · rfl
  · rfl

/-- C3: document assembly is fail-fast and returns no partial document.  When some identifier
does not parse, `FromMessages` returns the parser's error for the first such message, as it is,
with the empty string, and the provider is not asked at all.  When all identifiers parse, the
run `r` of `FromMessages` with the provider recorded (the run with the provider itself returns
the same document, error and messages) makes the provider's calls until the first one that
fails: it then returns the error of that call, as it is, with the empty string; and if it
returns no error, no call has failed (so a failure to resolve an author is never papered over
with `ghost` or `bot <id>`). -/
theorem FromMessages_fail_fast {σ ε : Type}
    (sortSlice : (Message → Message → Bool) → List Message → List Message)
    (layout : Time → Str) (team channelID : Str) (client : UserProvider σ ε)
    (hsort : SortsSlice sortSlice) :
    (∀ (good : List Message) (bad : Message) (rest : List Message) (st : σ)
      (instant : Str → Time) (tm : Option Time) (err : GoError ε),
      (∀ m ∈ good, parseUnixTimestamp (ε := ε) m.Ts = (some (instant m.Ts), none)) →
      parseUnixTimestamp (ε := ε) bad.Ts = (tm, some err) →
      FromMessages sortSlice layout team channelID client (good ++ bad :: rest) st =
        .returned ⟨[], some err, good ++ bad :: rest, st⟩) ∧
    (∀ (history : List Message) (st : σ) (log : List (Str × Option (GoError ε)))
      (instant : Str → Time),
      (∀ m ∈ history, parseUnixTimestamp (ε := ε) m.Ts = (some (instant m.Ts), none)) →
      history ≠ [] →
      ∃ r new,
        FromMessages sortSlice layout team channelID (recording client) history (st, log) =
          .returned r ∧
        FromMessages sortSlice layout team channelID client history st =
          .returned ⟨r.doc, r.err, r.messages, r.st.1⟩ ∧
        r.st.2 = log ++ new ∧
        (r.err = none → ∀ x ∈ new, x.2 = none) ∧
        (∀ e, r.err = some e → r.doc = [] ∧
          ∃ init id, new = init ++ [(id, some e)] ∧ ∀ x ∈ init, x.2 = none)) := by
  constructor
  · intro good bad rest st instant tm err hgood hbad
    obtain ⟨mt, h⟩ := timesLoop_fails instant good bad rest (fun _ => Time.zero) tm err
      hgood hbad
    unfold FromMessages
    rw [h]
  · intro history st log instant hparse hne
    obtain ⟨mt, anchor, rest, -, -, -, hrun⟩ :=
      FromMessages_sorted sortSlice layout team channelID (recording client) history (st, log)
        instant hsort hparse hne
    obtain ⟨new, hnew, hff⟩ := messagesLoop_extends layout team channelID client mt anchor
      (anchor :: rest) [] st log
    obtain ⟨r, hr, -, herr, hst, hdoc⟩ := finish_messages (anchor :: rest)
      (messagesLoop layout team channelID (recording client) mt anchor (anchor :: rest) []
        (st, log))
    have hrun2 : FromMessages sortSlice layout team channelID (recording client) history
        (st, log) = .returned r := by rw [hrun, hr]
    refine ⟨r, new, hrun2, ?_, by rw [hst, hnew], ?_, ?_⟩
    · rw [FromMessages_unrecorded sortSlice layout team channelID client history st log, hrun2]
    · intro hnone
      rw [← herr, hnone] at hff
      exact hff
    · intro e he
      rw [← herr, he] at hff
      exact ⟨hdoc (by rw [he]; simp), hff⟩

/-- Three runs on the example thread.  With the second identifier malformed the parser's error
comes back with the empty string and an untouched provider.  With a provider that knows `U1`
but not the mentioned `U2`, and with one that does not know the author `U1`, the provider's
error comes back with the empty string, and the failing call is the last one made. -/
theorem FromMessages_fail_fast_witness :
    FromMessages insertionSortLess (fun _ => "T".toList) "acme".toList "C1".toList
        (tableProvider [("U1".toList, "alice".toList)])
        ([⟨"2.0".toList, "U1".toList, [], [], []⟩] ++
          ⟨"1.2.3".toList, [], [], [], []⟩ :: [⟨"x".toList, [], [], [], []⟩]) () =
      .returned ⟨[], some (.errorf
          "timestamp \x271.2.3\x27 in not in <seconds>.<milliseconds> format".toList),
        [⟨"2.0".toList, "U1".toList, [], [], []⟩] ++
          ⟨"1.2.3".toList, [], [], [], []⟩ :: [⟨"x".toList, [], [], [], []⟩], ()⟩ ∧
    (∃ r new,
      FromMessages insertionSortLess (fun _ => "T".toList) "acme".toList "C1".toList
          (recording (tableProvider [("U1".toList, "alice".toList)])) exampleThread ((), []) =
        .returned r ∧
      FromMessages insertionSortLess (fun _ => "T".toList) "acme".toList "C1".toList
          (tableProvider [("U1".toList, "alice".toList)]) exampleThread () =
        .returned ⟨r.doc, r.err, r.messages, r.st.1⟩ ∧
      r.st.2 = [] ++ new ∧
      (r.err = none → ∀ x ∈ new, x.2 = none) ∧
      (∀ e, r.err = some e → r.doc = [] ∧
        ∃ init id, new = init ++ [(id, some e)] ∧ ∀ x ∈ init, x.2 = none)) ∧
    (match FromMessages insertionSortLess (fun _ => "T".toList) "acme".toList "C1".toList
        (recording (tableProvider [("U1".toList, "alice".toList)])) exampleThread ((), []) with
      | .returned r => (r.doc, r.err, r.st.2)
      | .panicked => ([], none, [])) =
      ([], some (.upstream ()),
        [("U1".toList, none), ("U2".toList, some (.upstream ()))]) ∧
    (match FromMessages insertionSortLess (fun _ => "T".toList) "acme".toList "C1".toList
        (recording (tableProvider [])) exampleThread ((), []) with
      | .returned r => (r.doc, r.err, r.st.2)
      | .panicked => ([], none, [])) =
      ([], some (.upstream ()), [("U1".toList, some (.upstream ()))]) :=
  ⟨(FromMessages_fail_fast insertionSortLess (fun _ => "T".toList) "acme".toList "C1".toList
      (tableProvider [("U1".toList, "alice".toList)]) insertionSortLess_sorts).1
      [⟨"2.0".toList, "U1".toList, [], [], []⟩] ⟨"1.2.3".toList, [], [], [], []⟩
      [⟨"x".toList, [], [], [], []⟩] () instantOf none _ (by decide) rfl,
    (FromMessages_fail_fast insertionSortLess (fun _ => "T".toList) "acme".toList "C1".toList
      (tableProvider [("U1".toList, "alice".toList)]) insertionSortLess_sorts).2
      exampleThread () [] instantOf (by decide) (by decide),
    by rfl, by rfl⟩

/-- C4: the name in the header of a message is the provider's answer for the user-id when the
user-id is not empty (whether or not there is a bot-id), otherwise `bot ` followed by the bot-id
when that is not empty, otherwise `ghost`; it stands in all three places of the profile part
`[<img src="https://github.com/<name>.png?size=25" align="left" /> **<name>**]` followed by
`(https://github.com/<name>)`; and the provider is asked, message after message, for the
user-id only when it is not empty, and then for the mentions of the text and the attachments
(the record of the calls of the run with the provider recorded). -/
theorem FromMessages_author {σ ε : Type}
    (sortSlice : (Message → Message → Bool) → List Message → List Message)
    (layout : Time → Str) (team channelID : Str) (client : UserProvider σ ε)
    (history : List Message) (st : σ) (log : List (Str × Option (GoError ε)))
    (instant : Str → Time) (names : Str → Str)
    (hsort : SortsSlice sortSlice)
    (hparse : ∀ m ∈ history, parseUnixTimestamp (ε := ε) m.Ts = (some (instant m.Ts), none))
    (hne : history ≠ []) (hres : Answers client names) :
    ∃ anchor rest st1 doc, (anchor :: rest).Perm history ∧
      doc = (anchor :: rest).flatMap (fun m =>
        "> ".toList ++
          ("[<img src=\"https://github.com/".toList ++
            (if m.User ≠ [] then names m.User
              else if m.BotID ≠ [] then "bot ".toList ++ m.BotID else "ghost".toList) ++
            ".png?size=25\" align=\"left\" /> **".toList ++
            (if m.User ≠ [] then names m.User
              else if m.BotID ≠ [] then "bot ".toList ++ m.BotID else "ghost".toList) ++
            "**](https://github.com/".toList ++
            (if m.User ≠ [] then names m.User
              else if m.BotID ≠ [] then "bot ".toList ++ m.BotID else "ghost".toList) ++
            ")".toList) ++
          " at [".toList ++ layout (instant m.Ts) ++ "](".toList ++
          formatLinkToMessage team channelID anchor m ++ ")\n>\n".toList ++
          bodyOf names m ++ "\n".toList) ∧
      FromMessages sortSlice layout team channelID client history st =
        .returned ⟨doc, none, anchor :: rest, st1⟩ ∧
      FromMessages sortSlice layout team channelID (recording client) history (st, log) =
        .returned ⟨doc, none, anchor :: rest,
          (st1, log ++ ((anchor :: rest).flatMap (fun m =>
            (if m.User ≠ [] then [m.User] else []) ++
              ((if m.Text ≠ [] then mentionIDs m.Text else []) ++
                m.Attachments.flatMap (fun a => mentionIDs a.Text)))).map
            (fun id => (id, none)))⟩ := by
  obtain ⟨mt, anchor, rest, h2, hperm, -, hrun⟩ :=
    FromMessages_sorted sortSlice layout team channelID (recording client) history (st, log)
      instant hsort hparse hne
  have hdoc := flatMap_congr_mem (anchor :: rest)
    (blockOf layout team channelID names mt anchor)
    (blockOf layout team channelID names instant anchor)
    (fun m hm => by simp only [blockOf, h2 m (hperm.mem_iff.mp hm)])
  have hrec : FromMessages sortSlice layout team channelID (recording client) history (st, log) =
      .returned ⟨(anchor :: rest).flatMap (blockOf layout team channelID names instant anchor),
        none, anchor :: rest,
        (afterCalls client ((anchor :: rest).flatMap callsFor) st,
          log ++ ((anchor :: rest).flatMap (fun m =>
            (if m.User ≠ [] then [m.User] else []) ++
              ((if m.Text ≠ [] then mentionIDs m.Text else []) ++
                m.Attachments.flatMap (fun a => mentionIDs a.Text)))).map
            (fun id => (id, none)))⟩ := by
    rw [hrun, messagesLoop_answers layout team channelID (recording client) names
      (answers_recording client names hres), afterCalls_recording client names hres]
    simp only [finish, List.nil_append]
    rw [hdoc]
    rfl
  refine ⟨anchor, rest, afterCalls client ((anchor :: rest).flatMap callsFor) st, _, hperm, rfl,
    ?_, hrec⟩
  rw [FromMessages_unrecorded sortSlice layout team channelID client history st log, hrec]
  rfl

set_option maxRecDepth 100000 in
/-- A message by a user is signed with the provider's answer, a message without user-id with
`bot B1` or `ghost`, and the provider is asked for `U1` and for the mention `U2` only. -/
theorem FromMessages_author_witness :
    (∃ anchor rest st1 doc, (anchor :: rest).Perm authorsThread ∧
      doc = (anchor :: rest).flatMap (fun m =>
        "> ".toList ++
          ("[<img src=\"https://github.com/".toList ++
            (if m.User ≠ [] then exampleNames m.User
              else if m.BotID ≠ [] then "bot ".toList ++ m.BotID else "ghost".toList) ++
            ".png?size=25\" align=\"left\" /> **".toList ++
            (if m.User ≠ [] then exampleNames m.User
              else if m.BotID ≠ [] then "bot ".toList ++ m.BotID else "ghost".toList) ++
            "**](https://github.com/".toList ++
            (if m.User ≠ [] then exampleNames m.User
              else if m.BotID ≠ [] then "bot ".toList ++ m.BotID else "ghost".toList) ++
            ")".toList) ++
          " at [".toList ++ "T".toList ++ "](".toList ++
          formatLinkToMessage "acme".toList "C1".toList anchor m ++ ")\n>\n".toList ++
          bodyOf exampleNames m ++ "\n".toList) ∧
      FromMessages insertionSortLess (fun _ => "T".toList) "acme".toList "C1".toList
          (namesProvider exampleNames) authorsThread () =
        .returned ⟨doc, none, anchor :: rest, st1⟩ ∧
      FromMessages insertionSortLess (fun _ => "T".toList) "acme".toList "C1".toList
          (recording (namesProvider exampleNames)) authorsThread ((), []) =
        .returned ⟨doc, none, anchor :: rest,
          (st1, [] ++ ((anchor :: rest).flatMap (fun m =>
            (if m.User ≠ [] then [m.User] else []) ++
              ((if m.Text ≠ [] then mentionIDs m.Text else []) ++
                m.Attachments.flatMap (fun a => mentionIDs a.Text)))).map
            (fun id => (id, none)))⟩) ∧
    (match FromMessages insertionSortLess (fun _ => "T".toList) "acme".toList "C1".toList
        (recording (namesProvider exampleNames)) authorsThread ((), []) with
      | .returned r => (r.doc, r.st.2)
      | .panicked => ([], [])) =
      (("> [<img src=\"https://github.com/bot B1.png?size=25\" align=\"left\" /> **bot B1**]" ++
        "(https://github.com/bot B1) at [T]" ++
        "(https://acme.slack.com/archives/C1/p1.0?thread_ts=1.0&cid=C1)\n>\n\n" ++
        "> [<img src=\"https://github.com/alice.png?size=25\" align=\"left\" /> **alice**]" ++
        "(https://github.com/alice) at [T]" ++
        "(https://acme.slack.com/archives/C1/p1.0?thread_ts=2.0&cid=C1)\n>\n" ++
        "> hello `@bob`\n\n" ++
        "> [<img src=\"https://github.com/ghost.png?size=25\" align=\"left\" /> **ghost**]" ++
        "(https://github.com/ghost) at [T]" ++
        "(https://acme.slack.com/archives/C1/p1.0?thread_ts=3.0&cid=C1)\n>\n\n").toList,
        [("U1".toList, none), ("U2".toList, none)]) :=
  ⟨FromMessages_author insertionSortLess (fun _ => "T".toList) "acme".toList "C1".toList
      (namesProvider exampleNames) authorsThread () [] instantOf exampleNames
      insertionSortLess_sorts (by decide) (by decide) (fun _ _ => rfl),
    by rfl⟩

/-! ## The close-fence pass, `convert`, timestamps and the whole document -/

/-- C11: the close-fence pass works line by line: a line that ends with three backticks and has
at least one character before them gets a newline between that character and the three
backticks; a line that is only the three backticks and a line that does not end with three
backticks are left as they are.  `x` followed by three backticks becomes `x`, newline, three
backticks; three backticks alone stay. -/
theorem closeFence_lines :
    (∀ s : Str, ReplaceAllString closeCodefence s "$1\n```".toList =
      Join ((Split s '\n').map closeLine) '\n') ∧
    (∀ w : Str, w ≠ [] → closeLine (w ++ fence) = w ++ "\n".toList ++ fence) ∧
    closeLine fence = fence ∧
    (∀ l : Str, ¬ fence <:+ l → closeLine l = l) ∧
    ReplaceAllString closeCodefence "x```".toList "$1\n```".toList = "x\n```".toList ∧
    ReplaceAllString closeCodefence "```".toList "$1\n```".toList = "```".toList := by
  refine ⟨close_pass_lines, ?_, by decide, ?_, by decide, by decide⟩
  · intro w hw
    have h1 : fence.isSuffixOf (w ++ fence) = true :=
      List.isSuffixOf_iff_suffix.mpr (List.suffix_append w fence)
    have h2 : (w ++ fence != fence) = true := by
      simp only [bne_iff_ne, ne_eq]
      intro h
      have := congrArg List.length h
      simp only [List.length_append] at this
      have : w.length = 0 := by omega
      exact hw (List.length_eq_zero.mp this)
    have h3 : (w ++ fence).take ((w ++ fence).length - 3) = w := by
      simp [fence]
    simp only [closeLine, h1, h2, Bool.and_self, if_true, h3]
    simp
  · intro l hl
    have : fence.isSuffixOf l = false := by
      rw [Bool.eq_false_iff]
      exact fun h => hl (List.isSuffixOf_iff_suffix.mp h)
    simp [closeLine, this]

theorem quoteLines_flatMap (b : Str) (lines : List Str) :
    quoteLines b lines =
      b ++ lines.flatMap (fun line => "> ".toList ++ line ++ "\n".toList) := by
  induction lines generalizing b with
  | nil => simp [quoteLines]
  | cons l lines ih =>
    rw [quoteLines, ih]
    simp

theorem Split_length (s : Str) (sep : Char) : (Split s sep).length = s.count sep + 1 := by
  induction s with
  | nil => rfl
  | cons c t ih =>
    by_cases hc : c = sep
    · subst hc
      rw [Split_cons_sep]
      simp [ih]
    · obtain ⟨hd, tl, h1, -, -⟩ := Split_first t sep
      rw [Split_cons_other c t sep hc hd tl h1]
      rw [h1] at ih
      have : (c :: t).count sep = t.count sep := by
        rw [List.count_cons]
        simp [hc]
      rw [this, ← ih]
      simp

/-- C12: when the interpolation of the text succeeds with `text`, `convert` leaves what the
builder held in front, appends `> ` ++ line ++ newline for every line of the text after
link rewriting and the two fence passes (split on newlines), returns no error and the
provider's state after the interpolation; the number of lines is one more than the number of
newlines of the processed text; for the empty text exactly `> ` and a newline is appended,
whatever the provider; and when the interpolation fails, its error is returned as it is and
the builder is left as it was. -/
theorem convert_quotes_lines {σ ε : Type} (client : UserProvider σ ε) (b s : Str) (st : σ) :
    (∀ text st1, interpolateUsers client s st = ((text, none), st1) →
      convert client b s st =
        ((b ++ (Split (ReplaceAllString closeCodefence
            (ReplaceAllString openCodefence
              (ReplaceAllString linkRE text "[$2]($1)".toList) "```\n".toList)
            "$1\n```".toList) '\n').flatMap
          (fun line => "> ".toList ++ line ++ "\n".toList), none), st1) ∧
      (Split (ReplaceAllString closeCodefence
          (ReplaceAllString openCodefence
            (ReplaceAllString linkRE text "[$2]($1)".toList) "```\n".toList)
          "$1\n```".toList) '\n').length =
        (ReplaceAllString closeCodefence
          (ReplaceAllString openCodefence
            (ReplaceAllString linkRE text "[$2]($1)".toList) "```\n".toList)
          "$1\n```".toList).count '\n' + 1) ∧
    convert client b [] st = ((b ++ "> \n".toList, none), st) ∧
    (∀ text err st1, interpolateUsers client s st = ((text, some err), st1) →
      convert client b s st = ((b, some err), st1)) := by
  refine ⟨?_, ?_, ?_⟩
  · intro text st1 h
    refine ⟨?_, Split_length _ _⟩
    simp only [convert, h]
    rw [quoteLines_flatMap]
  · have : convert client b [] st = ((b ++ "> ".toList ++ [] ++ "\n".toList, none), st) := rfl
    rw [this]
    simp
  · intro text err st1 h
    simp only [convert, h]

/-- With the provider that knows `U1`, a text with a mention, a link and a one-line code block
adds six quoted lines to the builder; with the provider that knows nobody the builder is left
as it was. -/
theorem convert_quotes_lines_witness :
    convert (tableProvider [("U1".toList, "alice".toList)]) "doc\n".toList
        "hi <@U1>\n<https://x.com/a|click here>\n```a```".toList () =
      (("doc\n> hi `@alice`\n> [click here](https://x.com/a)\n> ```\n> a\n> ```\n".toList, none),
        ()) ∧
    convert (tableProvider []) "doc\n".toList "hi <@U1>".toList () =
      (("doc\n".toList, some (.upstream ())), ()) :=
  ⟨((convert_quotes_lines (tableProvider [("U1".toList, "alice".toList)]) "doc\n".toList
      "hi <@U1>\n<https://x.com/a|click here>\n```a```".toList ()).1
      "hi `@alice`\n<https://x.com/a|click here>\n```a```".toList () (by rfl)).1,
    (convert_quotes_lines (tableProvider []) "doc\n".toList "hi <@U1>".toList ()).2.2
      [] (.upstream ()) () (by rfl)⟩

theorem valueFrom_ge (n : Nat) (s : Str) : n ≤ valueFrom n s := by
  induction s generalizing n with
  | nil => exact Nat.le_refl _
  | cons c t ih =>
    have := ih (n * 10 + (c.toNat - 48))
    simp only [valueFrom, List.foldl_cons] at this ⊢
    omega

theorem parseUintLoop_ok (n : Nat) (s : Str) (hs : ∀ c ∈ s, c.isDigit = true)
    (hv : valueFrom n s ≤ maxUint64) : parseUintLoop n s = (valueFrom n s, none) := by
  induction s generalizing n with
  | nil => rfl
  | cons c t ih =>
    have hc : c.isDigit = true := hs c (by simp)
    have hge := valueFrom_ge (n * 10 + (c.toNat - 48)) t
    have hv2 : valueFrom (n * 10 + (c.toNat - 48)) t ≤ maxUint64 := hv
    have hm : maxUint64 = 18446744073709551615 := by decide
    rw [parseUintLoop]
    simp only [hc, if_true]
    have h1 : ¬ n ≥ maxUint64 / 10 + 1 := by
      rw [hm] at hv2 ⊢
      omega
    have h2 : ¬ n * 10 + (c.toNat - 48) > maxUint64 := by omega
    simp only [h1, h2, if_false]
    exact ih _ (fun x hx => hs x (by simp [hx])) hv2

theorem parseUintLoop_fails (n : Nat) (s : Str)
    (h : ¬ ((∀ c ∈ s, c.isDigit = true) ∧ valueFrom n s ≤ maxUint64)) (hn : n ≤ maxUint64) :
    parseUintLoop n s = (0, some false) ∨ parseUintLoop n s = (maxUint64, some true) := by
  induction s generalizing n with
  | nil =>
    exfalso
    apply h
    exact ⟨by simp, hn⟩
  | cons c t ih =>
    rw [parseUintLoop]
    by_cases hc : c.isDigit = true
    · simp only [hc, if_true]
      by_cases h1 : n ≥ maxUint64 / 10 + 1
      · simp [h1]
      · by_cases h2 : n * 10 + (c.toNat - 48) > maxUint64
        · simp [h1, h2]
        · simp only [h1, h2, if_false]
          apply ih
          · intro hh
            apply h
            refine ⟨?_, hh.2⟩
            intro x hx
            rcases List.mem_cons.mp hx with hx | hx
            · rw [hx]; exact hc
            · exact hh.1 x hx
          · omega
    · simp [hc]

theorem ParseUint_ok (d : Str) (hne : d ≠ []) (hs : ∀ c ∈ d, c.isDigit = true)
    (hv : decimalValue d ≤ maxUint64) : ParseUint d = (decimalValue d, none) := by
  cases d with
  | nil => exact absurd rfl hne
  | cons c t => exact parseUintLoop_ok 0 (c :: t) hs hv

theorem ParseUint_fails (d : Str)
    (h : ¬ (d ≠ [] ∧ (∀ c ∈ d, c.isDigit = true) ∧ decimalValue d ≤ maxUint64)) :
    ParseUint d = (0, some false) ∨ ParseUint d = (maxUint64, some true) := by
  cases d with
  | nil => left; rfl
  | cons c t =>
    apply parseUintLoop_fails 0 (c :: t) _ (by decide)
    intro hh
    exact h ⟨by simp, hh.1, hh.2⟩

theorem ParseInt_digits {ε : Type} (p : Str) :
    ParseInt (ε := ε) p =
      match p with
      | [] => (0, some (.numError "ParseInt".toList p false))
      | _ :: _ =>
        match ParseUint (digitsOf p) with
        | (_, some false) => (0, some (.numError "ParseInt".toList p false))
        | (un, _) =>
          if !(p.head? == some '-') && un ≥ 2 ^ 63 then
            (2 ^ 63 - 1, some (.numError "ParseInt".toList p true))
          else if (p.head? == some '-') && un > 2 ^ 63 then
            (-(2 ^ 63), some (.numError "ParseInt".toList p true))
          else (if (p.head? == some '-') then -(un : Int) else (un : Int), none) := by
  cases p with
  | nil => rfl
  | cons c t =>
    have e : (List.head? (c :: t) == some '-') = (c == '-') := by
      simp
    simp only [ParseInt, digitsOf, e]

theorem ParseInt_ok {ε : Type} (p : Str) (h : IsInt64Numeral p) :
    ParseInt (ε := ε) p = (numeralValue p, none) := by
  obtain ⟨hne, hdig, hrange⟩ := h
  have hm : maxUint64 = 18446744073709551615 := by decide
  have hp : p ≠ [] := by
    intro e
    rw [e] at hne
    exact hne rfl
  have hv : decimalValue (digitsOf p) ≤ maxUint64 := by
    rw [hm]
    split at hrange <;> omega
  rw [ParseInt_digits]
  cases p with
  | nil => exact absurd rfl hp
  | cons c t =>
    simp only [ParseUint_ok _ hne hdig hv]
    by_cases hneg : (c :: t).head? = some '-'
    · simp only [hneg, if_true] at hrange
      have b : ((c :: t).head? == some '-') = true := by simp [hneg]
      have h2 : ¬ decimalValue (digitsOf (c :: t)) > 2 ^ 63 := by omega
      simp only [b, Bool.not_true, Bool.false_and, Bool.true_and, decide_eq_true_eq, h2,
        if_false, if_true, numeralValue, hneg]
      simp
    · simp only [hneg, if_false] at hrange
      have b : ((c :: t).head? == some '-') = false := by simpa using hneg
      have h2 : ¬ decimalValue (digitsOf (c :: t)) ≥ 2 ^ 63 := by omega
      simp only [b, Bool.not_false, Bool.true_and, Bool.false_and, decide_eq_true_eq, h2,
        if_false, numeralValue, hneg]
      simp

theorem ParseInt_fails {ε : Type} (p : Str) (h : ¬ IsInt64Numeral p) :
    ∃ v err, ParseInt (ε := ε) p = (v, some err) := by
  rw [ParseInt_digits]
  cases p with
  | nil => exact ⟨_, _, rfl⟩
  | cons c t =>
    simp only []
    by_cases hu : digitsOf (c :: t) ≠ [] ∧ (∀ x ∈ digitsOf (c :: t), x.isDigit = true) ∧
        decimalValue (digitsOf (c :: t)) ≤ maxUint64
    · rw [ParseUint_ok _ hu.1 hu.2.1 hu.2.2]
      simp only []
      by_cases hneg : (c :: t).head? = some '-'
      · have b : ((c :: t).head? == some '-') = true := by simp [hneg]
        have h2 : decimalValue (digitsOf (c :: t)) > 2 ^ 63 := by
          by_contra hcon
          apply h
          refine ⟨hu.1, hu.2.1, ?_⟩
          simp only [hneg, if_true]
          omega
        simp only [b, Bool.not_true, Bool.false_and, Bool.true_and, decide_eq_true_eq, h2,
          if_true]
        exact ⟨_, _, rfl⟩
      · have b : ((c :: t).head? == some '-') = false := by simpa using hneg
        have h2 : decimalValue (digitsOf (c :: t)) ≥ 2 ^ 63 := by
          by_contra hcon
          apply h
          refine ⟨hu.1, hu.2.1, ?_⟩
          simp only [hneg, if_false]
          omega
        simp only [b, Bool.not_false, Bool.true_and, decide_eq_true_eq, h2, if_true]
        exact ⟨_, _, rfl⟩
    · rcases ParseUint_fails _ hu with e | e
      · rw [e]
        exact ⟨_, _, rfl⟩
      · rw [e]
        simp only []
        have hm : maxUint64 = 18446744073709551615 := by decide
        by_cases hneg : (c :: t).head? = some '-'
        · have b : ((c :: t).head? == some '-') = true := by simp [hneg]
          have h2 : maxUint64 > 2 ^ 63 := by rw [hm]; decide
          simp only [b, Bool.not_true, Bool.false_and, Bool.true_and, decide_eq_true_eq, h2,
            if_true]
          exact ⟨_, _, rfl⟩
        · have b : ((c :: t).head? == some '-') = false := by simpa using hneg
          have h2 : maxUint64 ≥ 2 ^ 63 := by rw [hm]; decide
          simp only [b, Bool.not_false, Bool.true_and, decide_eq_true_eq, h2, if_true]
          exact ⟨_, _, rfl⟩

instance (p : Str) : Decidable (IsInt64Numeral p) := by
  unfold IsInt64Numeral
  infer_instance

theorem parseUnixTimestamp_ok {ε : Type} (s a b : Str) (hs : Split s '.' = [a, b])
    (ha : IsInt64Numeral a) (hb : IsInt64Numeral b) :
    parseUnixTimestamp (ε := ε) s = (some (Unix (numeralValue a) (numeralValue b)), none) := by
  simp only [parseUnixTimestamp, hs, List.length_cons, List.length_nil, List.getD_cons_zero,
    List.getD_cons_succ, ParseInt_ok a ha, ParseInt_ok b hb]
  rfl

theorem parseUnixTimestamp_fails {ε : Type} (s : Str)
    (h : ¬ ∃ a b, Split s '.' = [a, b] ∧ IsInt64Numeral a ∧ IsInt64Numeral b) :
    ∃ err, parseUnixTimestamp (ε := ε) s = (none, some err) := by
  unfold parseUnixTimestamp
  by_cases hlen : (Split s '.').length ≠ 2
  · rw [if_pos hlen]
    exact ⟨_, rfl⟩
  · rw [if_neg hlen]
    have hlen2 : (Split s '.').length = 2 := by
      by_contra hcon
      exact hlen hcon
    match hsp : Split s '.', hlen2 with
    | [a, b], _ =>
      simp only [List.getD_cons_zero, List.getD_cons_succ]
      by_cases ha : IsInt64Numeral a
      · by_cases hb : IsInt64Numeral b
        · exact absurd ⟨a, b, hsp, ha, hb⟩ h
        · obtain ⟨v, err, e⟩ := ParseInt_fails (ε := ε) b hb
          rw [ParseInt_ok a ha, e]
          exact ⟨_, rfl⟩
      · obtain ⟨v, err, e⟩ := ParseInt_fails (ε := ε) a ha
        rw [e]
        exact ⟨_, rfl⟩

/-- C13 (amended): `parseUnixTimestamp` succeeds exactly when splitting the string on `.` gives
exactly two parts and each part is a base-10 integer that fits a signed 64-bit integer (an
optional sign, one or more decimal digits, a value from `-2^63` to `2^63 - 1`); otherwise it
fails, and then it returns no instant.  `1610000000.000100` parses; `not-a-number`, `1.2.3`,
`1.` and `.5` fail. -/
theorem parseUnixTimestamp_accepts {ε : Type} :
    (∀ s : Str, (∃ a b, Split s '.' = [a, b] ∧ IsInt64Numeral a ∧ IsInt64Numeral b) →
      ∃ t, parseUnixTimestamp (ε := ε) s = (some t, none)) ∧
    (∀ s : Str, (¬ ∃ a b, Split s '.' = [a, b] ∧ IsInt64Numeral a ∧ IsInt64Numeral b) →
      ∃ err, parseUnixTimestamp (ε := ε) s = (none, some err)) ∧
    (∃ t, parseUnixTimestamp (ε := ε) "1610000000.000100".toList = (some t, none)) ∧
    (∃ err, parseUnixTimestamp (ε := ε) "not-a-number".toList = (none, some err)) ∧
    (∃ err, parseUnixTimestamp (ε := ε) "1.2.3".toList = (none, some err)) ∧
    (∃ err, parseUnixTimestamp (ε := ε) "1.".toList = (none, some err)) ∧
    (∃ err, parseUnixTimestamp (ε := ε) ".5".toList = (none, some err)) := by
  refine ⟨?_, parseUnixTimestamp_fails, ⟨_, rfl⟩, ⟨_, rfl⟩, ⟨_, rfl⟩, ⟨_, rfl⟩, ⟨_, rfl⟩⟩
  rintro s ⟨a, b, hs, ha, hb⟩
  exact ⟨_, parseUnixTimestamp_ok s a b hs ha hb⟩

/-- A numeral with a sign in each part parses; a part that holds a letter, and a second part
one above the largest 64-bit integer, do not. -/
theorem parseUnixTimestamp_accepts_witness :
    (∃ t, parseUnixTimestamp (ε := Unit) "-1.+5".toList = (some t, none)) ∧
    (∃ err, parseUnixTimestamp (ε := Unit) "1.5s".toList = (none, some err)) ∧
    (∃ err, parseUnixTimestamp (ε := Unit) "1.9223372036854775808".toList = (none, some err)) :=
  ⟨(parseUnixTimestamp_accepts (ε := Unit)).1 "-1.+5".toList
      ⟨"-1".toList, "+5".toList, by decide, by decide, by decide⟩,
    (parseUnixTimestamp_accepts (ε := Unit)).2.1 "1.5s".toList (by
      rintro ⟨a, b, hs, ha, hb⟩
      have e : Split "1.5s".toList '.' = ["1".toList, "5s".toList] := by decide
      rw [e] at hs
      obtain ⟨rfl, rfl⟩ : "1".toList = a ∧ "5s".toList = b := by simpa using hs
      exact absurd hb (by decide)),
    (parseUnixTimestamp_accepts (ε := Unit)).2.1 "1.9223372036854775808".toList (by
      rintro ⟨a, b, hs, ha, hb⟩
      have e : Split "1.9223372036854775808".toList '.' =
          ["1".toList, "9223372036854775808".toList] := by decide
      rw [e] at hs
      obtain ⟨rfl, rfl⟩ : "1".toList = a ∧ "9223372036854775808".toList = b := by simpa using hs
      exact absurd hb (by decide))⟩

/-- C13 fails as stated: splitting `1.9223372036854775808` on `.` gives exactly two parts and
each of them is a base-10 integer (a run of decimal digits), yet `parseUnixTimestamp` fails
on it: the second part is one above the largest signed 64-bit integer. -/
theorem parseUnixTimestamp_counterexample :
    Split "1.9223372036854775808".toList '.' = ["1".toList, "9223372036854775808".toList] ∧
    (∀ c ∈ "1".toList, c.isDigit = true) ∧
    (∀ c ∈ "9223372036854775808".toList, c.isDigit = true) ∧
    parseUnixTimestamp (ε := Unit) "1.9223372036854775808".toList =
      (none, some (.numError "ParseInt".toList "9223372036854775808".toList true)) := by
  decide

theorem tdiv_billion (n : Int) :
    (0 ≤ n ∧ Int.tdiv n 1000000000 = n / 1000000000) ∨
      (n < 0 ∧ Int.tdiv n 1000000000 = -((-n) / 1000000000)) := by
  by_cases h : 0 ≤ n
  · exact Or.inl ⟨h, Int.tdiv_eq_ediv h (by decide)⟩
  · right
    refine ⟨by omega, ?_⟩
    have h1 : n = -(-n) := by omega
    have h2 : (-n).tdiv 1000000000 = (-n) / 1000000000 :=
      Int.tdiv_eq_ediv (by omega) (by decide)
    rw [← h2, ← Int.neg_tdiv, ← h1]

theorem Unix_unixNano (s n : Int) (hs : -2 ^ 63 ≤ s ∧ s < 2 ^ 63)
    (hn : -2 ^ 63 ≤ n ∧ n < 2 ^ 63)
    (hb : s + n / 1000000000 + 62135596800 < 2 ^ 63) :
    (Unix s n).unixNano = s * 1000000000 + n ∧ 0 ≤ (Unix s n).nsec ∧
      (Unix s n).nsec < 1000000000 := by
  unfold Unix
  rcases tdiv_billion n with ⟨h0, hq⟩ | ⟨h0, hq⟩
  · by_cases hc : n < 0 ∨ n ≥ 1000000000
    · simp only [hc, if_true, hq]
      have h3 : ¬ n - n / 1000000000 * 1000000000 < 0 := by omega
      simp only [h3, if_false, Time.unixNano, wrap64]
      omega
    · simp only [hc, if_false, Time.unixNano, wrap64]
      omega
  · have hc : n < 0 ∨ n ≥ 1000000000 := Or.inl h0
    simp only [hc, if_true, hq]
    by_cases h3 : n - -(-n / 1000000000) * 1000000000 < 0
    · simp only [h3, if_true, Time.unixNano, wrap64]
      omega
    · simp only [h3, if_false, Time.unixNano, wrap64]
      omega

theorem numeralValue_range (p : Str) (h : IsInt64Numeral p) :
    -2 ^ 63 ≤ numeralValue p ∧ numeralValue p < 2 ^ 63 := by
  obtain ⟨-, -, hr⟩ := h
  unfold numeralValue
  split at hr
  · rename_i hneg
    simp only [hneg, if_true]
    omega
  · rename_i hneg
    simp only [hneg, if_false]
    omega

/-- C14 (amended): for every string `<a>.<b>` that `parseUnixTimestamp` accepts, with `a` and
`b` standing for the integers `s` and `n`, and with `s + floor(n / 10^9) + 62135596800` below
`2^63` (the second count `time.Unix` stores fits a signed 64-bit integer), the returned instant
is `s * 10^9 + n` nanoseconds after the Unix epoch, its nanosecond field within a second.  The
second part counts nanoseconds: `1.12` is 1000000012 nanoseconds after the epoch, not
1120000000, and `1.5` is before `1.12`. -/
theorem parseUnixTimestamp_instant {ε : Type} :
    (∀ s a b : Str, Split s '.' = [a, b] → IsInt64Numeral a → IsInt64Numeral b →
      numeralValue a + numeralValue b / 1000000000 + 62135596800 < 2 ^ 63 →
      ∃ t, parseUnixTimestamp (ε := ε) s = (some t, none) ∧
        t.unixNano = numeralValue a * 1000000000 + numeralValue b ∧
        0 ≤ t.nsec ∧ t.nsec < 1000000000) ∧
    (∃ t, parseUnixTimestamp (ε := ε) "1.12".toList = (some t, none) ∧
      t.unixNano = 1000000012) ∧
    (∃ t u, parseUnixTimestamp (ε := ε) "1.5".toList = (some t, none) ∧
      parseUnixTimestamp (ε := ε) "1.12".toList = (some u, none) ∧ t.Before u = true) := by
  refine ⟨?_, ⟨_, rfl, by decide⟩, ⟨_, _, rfl, rfl, by decide⟩⟩
  intro s a b hs ha hb hbound
  refine ⟨_, parseUnixTimestamp_ok s a b hs ha hb, ?_⟩
  exact Unix_unixNano _ _ (numeralValue_range a ha) (numeralValue_range b hb) hbound

/-- The identifier of a Slack message, a nanosecond count of ten digits and a negative one:
the instant is `s * 10^9 + n` nanoseconds after the epoch in each case. -/
theorem parseUnixTimestamp_instant_witness :
    (∃ t, parseUnixTimestamp (ε := Unit) "1610000000.000100".toList = (some t, none) ∧
      t.unixNano = numeralValue "1610000000".toList * 1000000000 +
        numeralValue "000100".toList ∧
      0 ≤ t.nsec ∧ t.nsec < 1000000000) ∧
    (∃ t, parseUnixTimestamp (ε := Unit) "1.5000000000".toList = (some t, none) ∧
      t.unixNano = numeralValue "1".toList * 1000000000 + numeralValue "5000000000".toList ∧
      0 ≤ t.nsec ∧ t.nsec < 1000000000) ∧
    (∃ t, parseUnixTimestamp (ε := Unit) "1.-5".toList = (some t, none) ∧
      t.unixNano = numeralValue "1".toList * 1000000000 + numeralValue "-5".toList ∧
      0 ≤ t.nsec ∧ t.nsec < 1000000000) :=
  ⟨(parseUnixTimestamp_instant (ε := Unit)).1 "1610000000.000100".toList "1610000000".toList
      "000100".toList (by decide) (by decide) (by decide) (by decide),
    (parseUnixTimestamp_instant (ε := Unit)).1 "1.5000000000".toList "1".toList
      "5000000000".toList (by decide) (by decide) (by decide) (by decide),
    (parseUnixTimestamp_instant (ε := Unit)).1 "1.-5".toList "1".toList
      "-5".toList (by decide) (by decide) (by decide) (by decide)⟩

/-- C14 fails as stated: `9223372036854775807.0` is accepted, with `s` the largest signed
64-bit integer and `n = 0`, but the second count of the returned instant has wrapped around:
the instant lies before the epoch, not `s * 10^9` nanoseconds after it. -/
theorem parseUnixTimestamp_instant_counterexample :
    ∃ t, parseUnixTimestamp (ε := Unit) "9223372036854775807.0".toList = (some t, none) ∧
      t.unixNano = -9223372036854775809 * 1000000000 ∧
      t.unixNano ≠ 9223372036854775807 * 1000000000 + 0 :=
  ⟨_, rfl, by decide, by decide⟩

theorem answersOn_eq {σ ε : Type} (client : UserProvider σ ε) (names : Str → Str)
    (ids : List Str) (h : AnswersOn client names ids) (id : Str) (hid : id ∈ ids) (st : σ) :
    client id st = ((names id, none), (client id st).2) := by
  have := h id hid st
  rw [← this]

theorem AnswersOn_append {σ ε : Type} (client : UserProvider σ ε) (names : Str → Str)
    (a b : List Str) (h : AnswersOn client names (a ++ b)) :
    AnswersOn client names a ∧ AnswersOn client names b :=
  ⟨fun id hid => h id (List.mem_append_left _ hid),
    fun id hid => h id (List.mem_append_right _ hid)⟩

theorem interpolateLoop_answersOn {σ ε : Type} (client : UserProvider σ ε) (names : Str → Str)
    (s : Str) (locs : List (Nat × Nat)) (last : Nat) (out : Str) (st : σ)
    (h : AnswersOn client names (locs.map (fun loc => slice s (loc.1 + 2) (loc.2 - 1)))) :
    interpolateLoop client s locs last out st =
      (((interpolateLoop (namesProvider names) s locs last out ()).1.1, none),
        afterCalls client (locs.map (fun loc => slice s (loc.1 + 2) (loc.2 - 1))) st) := by
  induction locs generalizing last out st with
  | nil => rfl
  | cons loc locs ih =>
    obtain ⟨start, stop⟩ := loc
    rw [interpolateLoop, answersOn_eq client names _ h _ (by simp)]
    simp only []
    rw [ih _ _ _ (fun id hid => h id (by
      simp only [List.map_cons, List.mem_cons]
      exact Or.inr hid))]
    rfl

theorem convert_answersOn {σ ε : Type} (client : UserProvider σ ε) (names : Str → Str)
    (b s : Str) (st : σ) (h : AnswersOn client names (mentionIDs s)) :
    convert client b s st =
      ((b ++ quoted names s, none), afterCalls client (mentionIDs s) st) := by
  have hn : Answers (namesProvider names) names := fun _ _ => rfl
  have e1 := interpolateUsers_answers (namesProvider names) names hn s ()
  have e2 : interpolateUsers client s st =
      (((interpolateUsers (namesProvider names) s ()).1.1, none),
        afterCalls client (mentionIDs s) st) :=
    interpolateLoop_answersOn client names s _ 0 [] st h
  simp only [convert, quoted]
  rw [e2, e1]
  simp only []
  rw [quoteLines_append]

theorem attachmentsLoop_answersOn {σ ε : Type} (client : UserProvider σ ε)
    (names : Str → Str) (atts : List Attachment) (b : Str) (st : σ)
    (h : AnswersOn client names (atts.flatMap (fun a => mentionIDs a.Text))) :
    attachmentsLoop client atts b st =
      ((b ++ atts.flatMap (fun a => quoted names a.Text), none),
        afterCalls client (atts.flatMap (fun a => mentionIDs a.Text)) st) := by
  induction atts generalizing b st with
  | nil => simp [attachmentsLoop, afterCalls]
  | cons a atts ih =>
    rw [List.flatMap_cons] at h
    obtain ⟨h1, h2⟩ := AnswersOn_append client names _ _ h
    rw [attachmentsLoop, convert_answersOn client names _ _ _ h1]
    simp only []
    rw [ih _ _ h2]
    simp [afterCalls_append]

theorem authorOf_answersOn {σ ε : Type} (client : UserProvider σ ε) (names : Str → Str)
    (message : Message) (st : σ)
    (h : AnswersOn client names (if message.User ≠ [] then [message.User] else [])) :
    authorOf client message st =
      ((authorName names message, none),
        afterCalls client (if message.User ≠ [] then [message.User] else []) st) := by
  unfold authorOf authorName
  by_cases hu : message.User = []
  · by_cases hb : message.BotID = []
    · simp [hu, hb, afterCalls]
    · simp [hu, hb, afterCalls]
  · simp only [ne_eq, hu, not_false_eq_true, if_true] at h ⊢
    rw [answersOn_eq client names _ h _ (by simp)]
    rfl

theorem messagesLoop_answersOn {σ ε : Type} (layout : Time → Str) (team channelID : Str)
    (client : UserProvider σ ε) (names : Str → Str)
    (msgTimes : Str → Time) (firstMessage : Message) (msgs : List Message) (b : Str) (st : σ)
    (h : AnswersOn client names (msgs.flatMap callsFor)) :
    messagesLoop layout team channelID client msgTimes firstMessage msgs b st =
      ((b ++ msgs.flatMap (blockOf layout team channelID names msgTimes firstMessage), none),
        afterCalls client (msgs.flatMap callsFor) st) := by
  induction msgs generalizing b st with
  | nil => simp [messagesLoop, afterCalls]
  | cons m msgs ih =>
    rw [List.flatMap_cons] at h
    obtain ⟨hm, hrest⟩ := AnswersOn_append client names _ _ h
    unfold callsFor at hm
    obtain ⟨hauthor, hbody⟩ := AnswersOn_append client names _ _ hm
    obtain ⟨htext, hatts⟩ := AnswersOn_append client names _ _ hbody
    rw [messagesLoop, authorOf_answersOn client names m st hauthor]
    simp only []
    by_cases ht : m.Text = []
    · simp only [ne_eq, ht, not_true_eq_false, if_false]
      rw [attachmentsLoop_answersOn client names _ _ _ hatts]
      simp only []
      rw [ih _ _ hrest]
      simp [blockOf, bodyOf, callsFor, ht, afterCalls_append]
    · simp only [ne_eq, ht, not_false_eq_true, if_true] at htext ⊢
      rw [convert_answersOn client names _ _ _ htext]
      simp only []
      rw [attachmentsLoop_answersOn client names _ _ _ hatts]
      simp only []
      rw [ih _ _ hrest]
      simp [blockOf, bodyOf, callsFor, ht, afterCalls_append]

theorem AnswersOn_perm {σ ε : Type} (client : UserProvider σ ε) (names : Str → Str)
    (a b : List Message) (hperm : a.Perm b) (h : AnswersOn client names (b.flatMap callsFor)) :
    AnswersOn client names (a.flatMap callsFor) := by
  intro id hid
  apply h id
  simp only [List.mem_flatMap] at hid ⊢
  obtain ⟨m, hm, hmid⟩ := hid
  exact ⟨m, hperm.mem_iff.mp hm, hmid⟩

/-- C15: when the identifiers parse, the thread is not empty and the provider answers every
identifier it is asked for with the name `names` gives it, the document is the concatenation,
over the messages in sorted order, of one block for each message: the header line, the line
`>`, the quoted lines of the message text unless the text is empty, the quoted lines of the
text of each attachment in order, and one empty line.  An empty text, as an attachment may have
it, is quoted as the one line `> `. -/
theorem FromMessages_document {σ ε : Type}
    (sortSlice : (Message → Message → Bool) → List Message → List Message)
    (layout : Time → Str) (team channelID : Str) (client : UserProvider σ ε)
    (history : List Message) (st : σ) (instant : Str → Time) (names : Str → Str)
    (hsort : SortsSlice sortSlice)
    (hparse : ∀ m ∈ history, parseUnixTimestamp (ε := ε) m.Ts = (some (instant m.Ts), none))
    (hne : history ≠ [])
    (hres : AnswersOn client names (history.flatMap callsFor)) :
    (∃ anchor rest st1, (anchor :: rest).Perm history ∧
      (anchor :: rest).Pairwise (fun a b => (instant b.Ts).Before (instant a.Ts) = false) ∧
      FromMessages sortSlice layout team channelID client history st =
        .returned ⟨(anchor :: rest).flatMap (fun m =>
          ("> ".toList ++ formatUserProfile (authorName names m) ++ " at [".toList ++
            layout (instant m.Ts) ++ "](".toList ++
            formatLinkToMessage team channelID anchor m ++ ")".toList ++ "\n".toList) ++
          ">\n".toList ++
          (if m.Text ≠ [] then quoted names m.Text else []) ++
          m.Attachments.flatMap (fun a => quoted names a.Text) ++
          "\n".toList),
          none, anchor :: rest, st1⟩) ∧
    quoted names [] = "> \n".toList := by
  refine ⟨?_, rfl⟩
  obtain ⟨mt, anchor, rest, h2, hperm, hsorted, hrun⟩ :=
    FromMessages_sorted sortSlice layout team channelID client history st instant hsort hparse hne
  refine ⟨anchor, rest, afterCalls client ((anchor :: rest).flatMap callsFor) st, hperm,
    hsorted, ?_⟩
  rw [hrun, messagesLoop_answersOn layout team channelID client names mt anchor _ _ _
    (AnswersOn_perm client names _ _ hperm hres)]
  have hdoc := flatMap_congr_mem (anchor :: rest)
    (blockOf layout team channelID names mt anchor)
    (fun m =>
      ("> ".toList ++ formatUserProfile (authorName names m) ++ " at [".toList ++
        layout (instant m.Ts) ++ "](".toList ++
        formatLinkToMessage team channelID anchor m ++ ")".toList ++ "\n".toList) ++
      ">\n".toList ++
      (if m.Text ≠ [] then quoted names m.Text else []) ++
      m.Attachments.flatMap (fun a => quoted names a.Text) ++
      "\n".toList)
    (fun m hm => by
      simp only [blockOf, bodyOf, h2 m (hperm.mem_iff.mp hm)]
      have e : ")\n>\n".toList = ")".toList ++ "\n".toList ++ ">\n".toList := rfl
      rw [e]
      simp only [List.append_assoc])
  simp only [finish, List.nil_append]
  rw [hdoc]

theorem exampleProvider_answers (ids : List Str)
    (h : ∀ id ∈ ids, id = "U1".toList ∨ id = "U2".toList) :
    AnswersOn exampleProvider exampleNames ids := by
  intro id hid st
  rcases h id hid with e | e <;> subst e <;> rfl

set_option maxRecDepth 100000 in
/-- The blocks of a thread of three messages: the bot message without body, the message by
`alice` with its text, the message by `bob` without text and with the quoted lines of its two
attachments, the second of them the line `> `. -/
theorem FromMessages_document_witness :
    ((∃ anchor rest st1, (anchor :: rest).Perm attachmentsThread ∧
      (anchor :: rest).Pairwise
        (fun a b => (instantOf b.Ts).Before (instantOf a.Ts) = false) ∧
      FromMessages insertionSortLess (fun _ => "T".toList) "acme".toList "C1".toList
          exampleProvider attachmentsThread () =
        .returned ⟨(anchor :: rest).flatMap (fun m =>
          ("> ".toList ++ formatUserProfile (authorName exampleNames m) ++ " at [".toList ++
            "T".toList ++ "](".toList ++
            formatLinkToMessage "acme".toList "C1".toList anchor m ++ ")".toList ++
            "\n".toList) ++
          ">\n".toList ++
          (if m.Text ≠ [] then quoted exampleNames m.Text else []) ++
          m.Attachments.flatMap (fun a => quoted exampleNames a.Text) ++
          "\n".toList),
          none, anchor :: rest, st1⟩) ∧
      quoted exampleNames [] = "> \n".toList) ∧
    (match FromMessages insertionSortLess (fun _ => "T".toList) "acme".toList "C1".toList
        exampleProvider attachmentsThread () with
      | .returned r => r.doc
      | .panicked => []) =
      ("> [<img src=\"https://github.com/bot B1.png?size=25\" align=\"left\" /> **bot B1**]" ++
        "(https://github.com/bot B1) at [T]" ++
        "(https://acme.slack.com/archives/C1/p1.0?thread_ts=1.0&cid=C1)\n>\n\n" ++
        "> [<img src=\"https://github.com/alice.png?size=25\" align=\"left\" /> **alice**]" ++
        "(https://github.com/alice) at [T]" ++
        "(https://acme.slack.com/archives/C1/p1.0?thread_ts=2.0&cid=C1)\n>\n" ++
        "> hello `@bob`\n\n" ++
        "> [<img src=\"https://github.com/bob.png?size=25\" align=\"left\" /> **bob**]" ++
        "(https://github.com/bob) at [T]" ++
        "(https://acme.slack.com/archives/C1/p1.0?thread_ts=3.0&cid=C1)\n>\n" ++
        "> see `@alice`\n> \n\n").toList :=
  ⟨FromMessages_document insertionSortLess (fun _ => "T".toList) "acme".toList "C1".toList
      exampleProvider attachmentsThread () instantOf exampleNames
      insertionSortLess_sorts (by decide) (by decide)
      (exampleProvider_answers _ (by decide)),
    by rfl⟩

theorem sorted_pair (instant : Str → Time) (a b : Message) (l : List Message)
    (hperm : l.Perm [a, b])
    (hsorted : l.Pairwise (fun x y => (instant y.Ts).Before (instant x.Ts) = false))
    (hlt : (instant b.Ts).Before (instant a.Ts) = true) : l = [b, a] := by
  have hab : a ≠ b := by
    intro h
    rw [h, Before_irrefl] at hlt
    exact absurd hlt (by simp)
  have hlen := hperm.length_eq
  match l, hlen with
  | [x, y], _ =>
    have hx : x ∈ [a, b] := hperm.mem_iff.mp (by simp)
    have hy : y ∈ [a, b] := hperm.mem_iff.mp (by simp)
    have ha2 : a ∈ [x, y] := hperm.mem_iff.mpr (by simp)
    have hb2 : b ∈ [x, y] := hperm.mem_iff.mpr (by simp)
    simp only [List.mem_cons, List.mem_singleton, List.not_mem_nil, or_false] at hx hy ha2 hb2
    have hxy : (instant y.Ts).Before (instant x.Ts) = false := by
      simpa using hsorted
    rcases hx with hx | hx <;> rcases hy with hy | hy
    · subst hx; subst hy
      rcases hb2 with h | h <;> exact absurd h.symm hab
    · subst hx; subst hy
      rw [hlt] at hxy
      exact absurd hxy (by simp)
    · subst hx; subst hy; rfl
    · subst hx; subst hy
      rcases ha2 with h | h <;> exact absurd h hab

set_option maxRecDepth 100000 in
/-- C16: the end-to-end example.  For the team `acme`, the channel `C1`, the messages `2.0` by
`U1` with the text `hello <@U2>` and `1.0` by the bot `B1` with an empty text, and the provider
that knows `U1` as `alice` and `U2` as `bob`, `FromMessages` succeeds and the document is: the
header of the bot message, signed `bot B1`, with no body line after it; a blank line; the header
of the message by `alice`; the body line `> hello [backtick]@bob[backtick]`; a blank line.  Both
permalinks carry `p1.0`, with `thread_ts=1.0` in the first header and `thread_ts=2.0` in the
second. -/
theorem FromMessages_example
    (sortSlice : (Message → Message → Bool) → List Message → List Message)
    (layout : Time → Str) (hsort : SortsSlice sortSlice) :
    FromMessages sortSlice layout "acme".toList "C1".toList exampleProvider
        [aliceMessage, botMessage] () =
      .returned ⟨
        ("> [<img src=\"https://github.com/bot B1.png?size=25\" align=\"left\" /> **bot B1**]" ++
          "(https://github.com/bot B1) at [").toList ++
        layout (instantOf "1.0".toList) ++
        ("](https://acme.slack.com/archives/C1/p1.0?thread_ts=1.0&cid=C1)\n>\n\n" ++
          "> [<img src=\"https://github.com/alice.png?size=25\" align=\"left\" /> **alice**]" ++
          "(https://github.com/alice) at [").toList ++
        layout (instantOf "2.0".toList) ++
        ("](https://acme.slack.com/archives/C1/p1.0?thread_ts=2.0&cid=C1)\n>\n" ++
          "> hello `@bob`\n\n").toList,
        none, [botMessage, aliceMessage], ()⟩ := by
  obtain ⟨mt, anchor, rest, h2, hperm, hsorted, hrun⟩ :=
    FromMessages_sorted sortSlice layout "acme".toList "C1".toList exampleProvider
      [aliceMessage, botMessage] () instantOf hsort (by decide) (by decide)
  have hl := sorted_pair instantOf aliceMessage botMessage _ hperm hsorted (by decide)
  obtain ⟨rfl, rfl⟩ := List.cons.inj hl
  have hbot : mt botMessage.Ts = instantOf "1.0".toList := h2 botMessage (by simp)
  have halice : mt aliceMessage.Ts = instantOf "2.0".toList := h2 aliceMessage (by simp)
  rw [hrun, messagesLoop_answersOn layout "acme".toList "C1".toList exampleProvider exampleNames
    mt botMessage _ _ _ (exampleProvider_answers _ (by decide))]
  simp only [finish, List.nil_append, List.flatMap_cons, List.flatMap_nil, List.append_nil,
    blockOf, hbot, halice]
  have e1 : ("> [<img src=\"https://github.com/bot B1.png?size=25\" align=\"left\" /> **bot B1**]" ++
      "(https://github.com/bot B1) at [").toList =
      "> ".toList ++ formatUserProfile (authorName exampleNames botMessage) ++
        " at [".toList := by rfl
  have e2 : ("](https://acme.slack.com/archives/C1/p1.0?thread_ts=1.0&cid=C1)\n>\n\n" ++
      "> [<img src=\"https://github.com/alice.png?size=25\" align=\"left\" /> **alice**]" ++
      "(https://github.com/alice) at [").toList =
      "](".toList ++ formatLinkToMessage "acme".toList "C1".toList botMessage botMessage ++
        ")\n>\n".toList ++ bodyOf exampleNames botMessage ++ "\n".toList ++
        ("> ".toList ++ formatUserProfile (authorName exampleNames aliceMessage) ++
          " at [".toList) := by rfl
  have e3 : ("](https://acme.slack.com/archives/C1/p1.0?thread_ts=2.0&cid=C1)\n>\n" ++
      "> hello `@bob`\n\n").toList =
      "](".toList ++ formatLinkToMessage "acme".toList "C1".toList botMessage aliceMessage ++
        ")\n>\n".toList ++ bodyOf exampleNames aliceMessage ++ "\n".toList := by rfl
  rw [e1, e2, e3]
  simp only [List.append_assoc]

/-- With the insertion sort of short slices and a layout that prints the instant as `T`. -/
theorem FromMessages_example_witness :
    FromMessages insertionSortLess (fun _ => "T".toList) "acme".toList "C1".toList
        exampleProvider [aliceMessage, botMessage] () =
      .returned ⟨
        ("> [<img src=\"https://github.com/bot B1.png?size=25\" align=\"left\" /> **bot B1**]" ++
          "(https://github.com/bot B1) at [").toList ++
        "T".toList ++
        ("](https://acme.slack.com/archives/C1/p1.0?thread_ts=1.0&cid=C1)\n>\n\n" ++
          "> [<img src=\"https://github.com/alice.png?size=25\" align=\"left\" /> **alice**]" ++
          "(https://github.com/alice) at [").toList ++
        "T".toList ++
        ("](https://acme.slack.com/archives/C1/p1.0?thread_ts=2.0&cid=C1)\n>\n" ++
          "> hello `@bob`\n\n").toList,
        none, [botMessage, aliceMessage], ()⟩ :=
  FromMessages_example insertionSortLess (fun _ => "T".toList) insertionSortLess_sorts

/-- C17: `WrapInDetails` puts the channel name and the link into the first line, then the
opening of the collapsible section with its summary, then the body as it is, then a newline
and the closing tag, after which nothing follows. -/
theorem WrapInDetails_format (channelName link s : Str) :
    WrapInDetails channelName link s =
      "Slack conversation archive of [`#".toList ++ channelName ++ "`](".toList ++ link ++
        ")\n\n<details>\n  <summary>Click to expand</summary>\n\n".toList ++ s ++
        "\n</details>".toList ∧
    "</details>".toList <:+ WrapInDetails channelName link s ∧
    s ++ "\n</details>".toList <:+ WrapInDetails channelName link s := by
  refine ⟨rfl, ?_, ?_⟩
  · exact ⟨"Slack conversation archive of [`#".toList ++ channelName ++ "`](".toList ++ link ++
      ")\n\n<details>\n  <summary>Click to expand</summary>\n\n".toList ++ s ++ "\n".toList,
      by simp [WrapInDetails]⟩
  · exact ⟨"Slack conversation archive of [`#".toList ++ channelName ++ "`](".toList ++ link ++
      ")\n\n<details>\n  <summary>Click to expand</summary>\n\n".toList,
      by simp [WrapInDetails]⟩

/-- C18, the failing input: on a thread without messages every identifier parses (there is
none) and no provider call can fail, yet `FromMessages` does not return: the sorted slice is
empty and taking its element at position 0 panics. -/
theorem FromMessages_empty_thread {σ ε : Type}
    (sortSlice : (Message → Message → Bool) → List Message → List Message)
    (layout : Time → Str) (team channelID : Str) (client : UserProvider σ ε) (st : σ)
    (hsort : SortsSlice sortSlice) :
    FromMessages sortSlice layout team channelID client [] st = .panicked := by
  have h : sortSlice (fun a b => (Time.zero).Before (Time.zero)) [] = [] :=
    List.Perm.eq_nil (hsort.perm _ [])
  unfold FromMessages
  simp only [timesLoop]
  rw [h]

/-- With the insertion sort of short slices and the provider of the example. -/
theorem FromMessages_empty_thread_witness :
    FromMessages insertionSortLess (fun _ => "T".toList) "acme".toList "C1".toList
      exampleProvider [] () = .panicked :=
  FromMessages_empty_thread insertionSortLess (fun _ => "T".toList) "acme".toList "C1".toList
    exampleProvider () insertionSortLess_sorts

theorem parseUnixTimestamp_none_some {ε : Type} (s : Str)
    (h : (parseUnixTimestamp (ε := ε) s).2 = none) :
    ∃ t, parseUnixTimestamp (ε := ε) s = (some t, none) := by
  unfold parseUnixTimestamp at h ⊢
  by_cases hlen : (Split s '.').length ≠ 2
  · rw [if_pos hlen] at h
    exact absurd h (by simp)
  · rw [if_neg hlen] at h ⊢
    rcases h1 : ParseInt (ε := ε) ((Split s '.').getD 0 []) with ⟨v1, _ | e1⟩
    · rw [h1] at h
      simp only [] at h ⊢
      rcases h2 : ParseInt (ε := ε) ((Split s '.').getD 1 []) with ⟨v2, _ | e2⟩
      · exact ⟨_, rfl⟩
      · rw [h2] at h
        exact absurd h (by simp)
    · rw [h1] at h
      exact absurd h (by simp)

theorem first_malformed {ε : Type} (history : List Message)
    (h : ∃ m ∈ history, (parseUnixTimestamp (ε := ε) m.Ts).2 ≠ none) :
    ∃ good bad rest err, history = good ++ bad :: rest ∧
      (∀ m ∈ good, (parseUnixTimestamp (ε := ε) m.Ts).2 = none) ∧
      (parseUnixTimestamp (ε := ε) bad.Ts).2 = some err := by
  induction history with
  | nil =>
    obtain ⟨m, hm, -⟩ := h
    exact absurd hm (by simp)
  | cons x rest ih =>
    rcases hx : (parseUnixTimestamp (ε := ε) x.Ts).2 with _ | err
    · have : ∃ m ∈ rest, (parseUnixTimestamp (ε := ε) m.Ts).2 ≠ none := by
        obtain ⟨m, hm, hbad⟩ := h
        rcases List.mem_cons.mp hm with e | e
        · subst e
          exact absurd hx hbad
        · exact ⟨m, e, hbad⟩
      obtain ⟨good, bad, rest2, err, h1, h2, h3⟩ := ih this
      refine ⟨x :: good, bad, rest2, err, by rw [h1]; rfl, ?_, h3⟩
      intro m hm
      rcases List.mem_cons.mp hm with e | e
      · subst e; exact hx
      · exact h2 m e
    · exact ⟨[], x, rest, err, rfl, by simp, hx⟩

/-- C19: every identifier is parsed before the sort step and before any provider call.  When
some message of the thread, wherever it stands, has an identifier that does not parse, the
thread splits into the messages before the first such message, whose identifiers parse, that
message and the rest; `FromMessages` returns the empty string with the parser's error for that
message, the provider is not asked (its state and the record of its calls are as before), and
the message sequence is left in the order of the input, whatever `sort.Slice` would do. -/
theorem FromMessages_parses_first {σ ε : Type}
    (sortSlice : (Message → Message → Bool) → List Message → List Message)
    (layout : Time → Str) (team channelID : Str) (client : UserProvider σ ε)
    (history : List Message) (st : σ) (log : List (Str × Option (GoError ε)))
    (h : ∃ m ∈ history, (parseUnixTimestamp (ε := ε) m.Ts).2 ≠ none) :
    ∃ good bad rest err, history = good ++ bad :: rest ∧
      (∀ m ∈ good, (parseUnixTimestamp (ε := ε) m.Ts).2 = none) ∧
      (parseUnixTimestamp (ε := ε) bad.Ts).2 = some err ∧
      FromMessages sortSlice layout team channelID client history st =
        .returned ⟨[], some err, history, st⟩ ∧
      FromMessages sortSlice layout team channelID (recording client) history (st, log) =
        .returned ⟨[], some err, history, (st, log)⟩ := by
  obtain ⟨good, bad, rest, err, h1, h2, h3⟩ := first_malformed history h
  refine ⟨good, bad, rest, err, h1, h2, h3, ?_, ?_⟩
  · have hgood : ∀ m ∈ good, parseUnixTimestamp (ε := ε) m.Ts =
        (some (((parseUnixTimestamp (ε := ε) m.Ts).1).getD Time.zero), none) := by
      intro m hm
      obtain ⟨t, ht⟩ := parseUnixTimestamp_none_some m.Ts (h2 m hm)
      rw [ht]
      rfl
    have hbad : parseUnixTimestamp (ε := ε) bad.Ts =
        ((parseUnixTimestamp (ε := ε) bad.Ts).1, some err) := by
      rw [← h3]
    obtain ⟨mt, hloop⟩ := timesLoop_fails
      (fun ts => ((parseUnixTimestamp (ε := ε) ts).1).getD Time.zero) good bad rest
      (fun _ => Time.zero) _ err hgood hbad
    unfold FromMessages
    rw [h1, hloop]
  · have hgood : ∀ m ∈ good, parseUnixTimestamp (ε := ε) m.Ts =
        (some (((parseUnixTimestamp (ε := ε) m.Ts).1).getD Time.zero), none) := by
      intro m hm
      obtain ⟨t, ht⟩ := parseUnixTimestamp_none_some m.Ts (h2 m hm)
      rw [ht]
      rfl
    have hbad : parseUnixTimestamp (ε := ε) bad.Ts =
        ((parseUnixTimestamp (ε := ε) bad.Ts).1, some err) := by
      rw [← h3]
    obtain ⟨mt, hloop⟩ := timesLoop_fails
      (fun ts => ((parseUnixTimestamp (ε := ε) ts).1).getD Time.zero) good bad rest
      (fun _ => Time.zero) _ err hgood hbad
    unfold FromMessages
    rw [h1, hloop]

/-- A thread whose third identifier is malformed, with a sort that would reverse the slice
and a provider that records its calls: the parser's error for `1.2.3` comes back, the messages
are in the order of the input and the record of calls is empty. -/
theorem FromMessages_parses_first_witness :
    (∃ good bad rest err,
      [aliceMessage, botMessage, ⟨"1.2.3".toList, "U1".toList, [], [], []⟩,
          ⟨"x".toList, [], [], [], []⟩] = good ++ bad :: rest ∧
      (∀ m ∈ good, (parseUnixTimestamp (ε := Unit) m.Ts).2 = none) ∧
      (parseUnixTimestamp (ε := Unit) bad.Ts).2 = some err ∧
      FromMessages reversingSort (fun _ => "T".toList) "acme".toList "C1".toList exampleProvider
          [aliceMessage, botMessage, ⟨"1.2.3".toList, "U1".toList, [], [], []⟩,
            ⟨"x".toList, [], [], [], []⟩] () =
        .returned ⟨[], some err,
          [aliceMessage, botMessage, ⟨"1.2.3".toList, "U1".toList, [], [], []⟩,
            ⟨"x".toList, [], [], [], []⟩], ()⟩ ∧
      FromMessages reversingSort (fun _ => "T".toList) "acme".toList "C1".toList
          (recording exampleProvider)
          [aliceMessage, botMessage, ⟨"1.2.3".toList, "U1".toList, [], [], []⟩,
            ⟨"x".toList, [], [], [], []⟩] ((), []) =
        .returned ⟨[], some err,
          [aliceMessage, botMessage, ⟨"1.2.3".toList, "U1".toList, [], [], []⟩,
            ⟨"x".toList, [], [], [], []⟩], ((), [])⟩) ∧
    FromMessages reversingSort (fun _ => "T".toList) "acme".toList "C1".toList
        (recording exampleProvider)
        [aliceMessage, botMessage, ⟨"1.2.3".toList, "U1".toList, [], [], []⟩,
          ⟨"x".toList, [], [], [], []⟩] ((), []) =
      .returned ⟨[], some (.errorf
          "timestamp \x271.2.3\x27 in not in <seconds>.<milliseconds> format".toList),
        [aliceMessage, botMessage, ⟨"1.2.3".toList, "U1".toList, [], [], []⟩,
          ⟨"x".toList, [], [], [], []⟩], ((), [])⟩ :=
  ⟨FromMessages_parses_first reversingSort (fun _ => "T".toList) "acme".toList "C1".toList
      exampleProvider _ () []
      ⟨⟨"1.2.3".toList, "U1".toList, [], [], []⟩, by simp, by decide⟩,
    by rfl⟩

end GhSlack
